import Mathlib

/-!
# kvfifo (src/05/kvfifo.h)

A shallow embedding of the copy-on-write key-value queue `kvfifo<K, V>`.

* A `std::list<std::pair<K, V>>` is a list of nodes; every node carries the address the
  allocator gave it, which is what a list iterator (and a reference to the value) holds.
  Addresses come from a bump counter, so an address is never handed out twice.
* A `std::map<K, std::list<iterator>>` is an association list kept in ascending key order.
* A `std::shared_ptr<kv_struct>` is an optional index into a heap of `kv_struct` objects;
  its `use_count()` is the number of live containers holding that index.
* A method is a function on the whole world (heap and containers).  `none` stands for
  undefined behaviour (null handle, invalid iterator, dangling reference); otherwise the
  result says whether the call returned or threw, with the state the world is left in.
  Allocation succeeds, except in the definitions that inject a failure at a named point.
-/

set_option linter.unusedSectionVars false

namespace Kvfifo

/-- The exceptions that leave the methods: `std::invalid_argument`, thrown by the methods
themselves, and `std::bad_alloc`, thrown by an allocation that fails. -/
inductive Err where
  | invalid_argument
  | bad_alloc
deriving DecidableEq, Repr

/-- A node of `K_V_queue_t`: its address and the stored pair. -/
structure Node (K V : Type) where
  addr : Nat
  key : K
  val : V
deriving DecidableEq, Repr

/-- The pair stored in a node. -/
def Node.pair {K V : Type} (n : Node K V) : K × V := (n.key, n.val)

/-- The struct `kv_struct`: the queue and the per-key lists of iterators into it. -/
structure kv_struct (K V : Type) where
  K_V_queue : List (Node K V)
  K_it_lists : List (K × List Nat)
deriving DecidableEq, Repr

/-- A mutable reference `V &` handed out by a non-const accessor: the node whose value it
designates, together with the `kv_struct` that node lives in. -/
structure Ref where
  cell : Nat
  node : Nat
deriving DecidableEq, Repr

/-- The data members of a `kvfifo` object: the shared pointer `p` and `v_refs_active`. -/
structure kvfifo where
  p : Option Nat
  v_refs_active : Bool
deriving DecidableEq, Repr

/-- The program state: the heap of `kv_struct` objects made by `make_shared`, the
`kvfifo` objects (`none` once destroyed) and the next unused node address. -/
structure World (K V : Type) where
  heap : List (kv_struct K V)
  objs : List (Option kvfifo)
  next : Nat
deriving DecidableEq, Repr

/-- The position of a `K_it_lists_t::const_iterator` in the ascending key order, wrapped by
`k_iterator`. -/
structure k_iterator where
  wrapped : Nat
deriving DecidableEq, Repr

section Containers

variable {K V : Type} [LinearOrder K]

/-! ### `std::map<K, std::list<iterator>>` -/

/-- The call `std::map::find`: the bucket stored under `k`, `none` for `end()`. -/
def map_find : List (K × List Nat) → K → Option (List Nat)
  | [], _ => none
  | (k', l) :: m, k => if k = k' then some l else map_find m k

/-- The call `std::map::operator[]`: inserts an empty bucket at the sorted position of `k`
when `k` is absent. -/
def map_subscript : List (K × List Nat) → K → List (K × List Nat)
  | [], k => [(k, [])]
  | (k', l) :: m, k =>
    if k < k' then (k, []) :: (k', l) :: m
    else if k = k' then (k', l) :: m
    else (k', l) :: map_subscript m k

/-- A change made to the bucket stored under `k` through a reference or iterator to it. -/
def map_update : List (K × List Nat) → K → (List Nat → List Nat) → List (K × List Nat)
  | [], _, _ => []
  | (k', l) :: m, k, f => if k = k' then (k', f l) :: m else (k', l) :: map_update m k f

/-- The call `std::map::erase` of the element stored under `k`. -/
def map_erase : List (K × List Nat) → K → List (K × List Nat)
  | [], _ => []
  | (k', l) :: m, k => if k = k' then m else (k', l) :: map_erase m k

/-! ### `std::list<std::pair<K, V>>` -/

/-- Dereferencing a list iterator: the node at that address, `none` when the iterator does not
designate a node of this list. -/
def find_node : List (Node K V) → Nat → Option (Node K V)
  | [], _ => none
  | n :: q, it => if n.addr = it then some n else find_node q it

/-- The list without the node at address `it`. -/
def remove_node : List (Node K V) → Nat → List (Node K V)
  | [], _ => []
  | n :: q, it => if n.addr = it then q else n :: remove_node q it

/-- The call `std::list::erase(it)`; undefined when `it` is not an iterator of this list. -/
def list_erase (q : List (Node K V)) (it : Nat) : Option (List (Node K V)) :=
  match find_node q it with
  | none => none
  | some _ => some (remove_node q it)

/-- The call `q.splice(q.end(), q, it)`: the node at `it` is relinked before `end()`. -/
def list_splice_end (q : List (Node K V)) (it : Nat) : Option (List (Node K V)) :=
  match find_node q it with
  | none => none
  | some n => some (remove_node q it ++ [n])

/-- The loop of `move_to_back`: one splice per iterator of the copied bucket, in order. -/
def splice_all : List (Node K V) → List Nat → Option (List (Node K V))
  | q, [] => some q
  | q, it :: l =>
    match list_splice_end q it with
    | none => none
    | some q' => splice_all q' l

/-- The queue after the assignment `r = v` through a reference `r` to the value of the node
at `it`. -/
def write_node (q : List (Node K V)) (it : Nat) (v : V) : List (Node K V) :=
  q.map (fun n => if n.addr = it then { n with val := v } else n)

/-- The element-wise copy of the queue made by `make_shared<kv_struct>(*from)`: the same
pairs in the same order, in newly allocated nodes. -/
def copy_nodes : Nat → List (Node K V) → List (Node K V)
  | _, [] => []
  | a, n :: q => ⟨a, n.key, n.val⟩ :: copy_nodes (a + 1) q

/-- The loop of `p_deep_copy` rebuilding `K_it_lists` after `clear()`:
`K_it_lists[it->first].push_back(it)` for every iterator of the new queue. -/
def rebuild_from : List (K × List Nat) → List (Node K V) → List (K × List Nat)
  | m, [] => m
  | m, n :: q => rebuild_from (map_update (map_subscript m n.key) n.key (· ++ [n.addr])) q

/-! ### The method bodies, on a `kv_struct` -/

/-- The sequence of `(key, value)` entries, front to back. -/
def kv_struct.entries (c : kv_struct K V) : List (K × V) := c.K_V_queue.map Node.pair

/-- The `try` block of `push` (lines 100-113), the new node being allocated at `a`. -/
def kv_struct.push_body (c : kv_struct K V) (a : Nat) (k : K) (v : V) : kv_struct K V :=
  let m1 := map_subscript c.K_it_lists k
  let q1 := c.K_V_queue ++ [⟨a, k, v⟩]
  ⟨q1, map_update m1 k (· ++ [a])⟩

/-- The `try` block of `pop()` (lines 127-140). -/
def kv_struct.pop_body (c : kv_struct K V) : Option (Except Err (kv_struct K V)) :=
  match c.K_V_queue with
  | [] => some (.error .invalid_argument)
  | n :: q =>
    match map_find c.K_it_lists n.key with
    | none => none
    | some [] => none
    | some (_ :: l) =>
      let m1 := map_update c.K_it_lists n.key List.tail
      some (.ok ⟨q, if l.isEmpty then map_erase m1 n.key else m1⟩)

/-- The `try` block of `pop(k)` (lines 155-165). -/
def kv_struct.pop_key_body (c : kv_struct K V) (k : K) : Option (Except Err (kv_struct K V)) :=
  match map_find c.K_it_lists k with
  | none => some (.error .invalid_argument)
  | some [] => none
  | some (it :: l) =>
    match list_erase c.K_V_queue it with
    | none => none
    | some q =>
      let m1 := map_update c.K_it_lists k List.tail
      some (.ok ⟨q, if l.isEmpty then map_erase m1 k else m1⟩)

/-- The `try` block of `move_to_back` (lines 181-192). -/
def kv_struct.move_to_back_body (c : kv_struct K V) (k : K) :
    Option (Except Err (kv_struct K V)) :=
  match map_find c.K_it_lists k with
  | none => some (.error .invalid_argument)
  | some K_list =>
    match splice_all c.K_V_queue K_list with
    | none => none
    | some q => some (.ok ⟨q, c.K_it_lists⟩)

/-- The two `clear()` calls of `clear` (lines 339-340). -/
def kv_struct.clear_body (_c : kv_struct K V) : kv_struct K V := ⟨[], []⟩

/-- The method `front() const` (lines 206-212). -/
def kv_struct.front (c : kv_struct K V) : Except Err (K × V) :=
  match c.K_V_queue with
  | [] => .error .invalid_argument
  | n :: _ => .ok n.pair

/-- The method `back() const` (lines 252-258). -/
def kv_struct.back (c : kv_struct K V) : Except Err (K × V) :=
  match c.K_V_queue.getLast? with
  | none => .error .invalid_argument
  | some n => .ok n.pair

/-- The node designated by `first(key)` (lines 284-287): `*K_it_lists[key].front()`. -/
def kv_struct.first_node (c : kv_struct K V) (key : K) : Option (Except Err (Node K V)) :=
  match map_find c.K_it_lists key with
  | none => some (.error .invalid_argument)
  | some [] => none
  | some (it :: _) =>
    match find_node c.K_V_queue it with
    | none => none
    | some n => some (.ok n)

/-- The node designated by `last(key)` (lines 311-314): `*K_it_lists[key].back()`. -/
def kv_struct.last_node (c : kv_struct K V) (key : K) : Option (Except Err (Node K V)) :=
  match map_find c.K_it_lists key with
  | none => some (.error .invalid_argument)
  | some l =>
    match l.getLast? with
    | none => none
    | some it =>
      match find_node c.K_V_queue it with
      | none => none
      | some n => some (.ok n)

/-- The method `first(key) const` (lines 283-289). -/
def kv_struct.first (c : kv_struct K V) (key : K) : Option (Except Err (K × V)) :=
  (c.first_node key).map (fun r => r.map Node.pair)

/-- The method `last(key) const` (lines 310-316). -/
def kv_struct.last (c : kv_struct K V) (key : K) : Option (Except Err (K × V)) :=
  (c.last_node key).map (fun r => r.map Node.pair)

/-- The method `size` (line 319). -/
def kv_struct.size (c : kv_struct K V) : Nat := c.K_V_queue.length

/-- The method `empty` (line 323). -/
def kv_struct.empty (c : kv_struct K V) : Bool := c.K_V_queue.isEmpty

/-- The method `count` (lines 327-334). -/
def kv_struct.count (c : kv_struct K V) (k : K) : Nat :=
  match map_find c.K_it_lists k with
  | none => 0
  | some l => l.length

/-- The method `k_begin` (lines 405-407): `cbegin()` of the map. -/
def kv_struct.k_begin (_c : kv_struct K V) : k_iterator := ⟨0⟩

/-- The method `k_end` (lines 409-411): `cend()` of the map. -/
def kv_struct.k_end (c : kv_struct K V) : k_iterator := ⟨c.K_it_lists.length⟩

/-- The keys met by `operator*` on the way from `k_begin()` to `k_end()`. -/
def kv_struct.keys (c : kv_struct K V) : List K := c.K_it_lists.map Prod.fst

end Containers

section Objects

variable {K V : Type} [LinearOrder K]

/-! ### Objects and shared pointers -/

/-- The object stored at index `i`, `none` when no live object is there. -/
def World.obj (w : World K V) (i : Nat) : Option kvfifo := (w.objs[i]?).join

/-- The count `use_count()` of a shared pointer: the live objects whose `p` holds the same
`kv_struct` (0 for a null pointer). -/
def World.use_count (w : World K V) (p : Option Nat) : Nat :=
  match p with
  | none => 0
  | some a => w.objs.countP (fun o => decide (∃ x, o = some x ∧ x.p = some a))

/-- The `kv_struct` that `*p` of object `i` designates. -/
def World.cell (w : World K V) (i : Nat) : Option (kv_struct K V) :=
  match w.obj i with
  | none => none
  | some o =>
    match o.p with
    | none => none
    | some a => w.heap[a]?

/-- Overwrites the data members of object `i`. -/
def World.set_obj (w : World K V) (i : Nat) (o : kvfifo) : World K V :=
  { w with objs := w.objs.set i (some o) }

/-- Overwrites the `kv_struct` at address `a`. -/
def World.set_cell (w : World K V) (a : Nat) (c : kv_struct K V) : World K V :=
  { w with heap := w.heap.set a c }

/-- The method `p_deep_copy` (lines 45-65) run by object `i` on the pointer `src`:
`p = make_shared<kv_struct>(*from)`, then `K_it_lists` is cleared and rebuilt over the new
queue.  The flag `v_refs_active` is not touched. -/
def World.p_deep_copy (w : World K V) (i : Nat) (src : Option Nat) : Option (World K V) :=
  match w.obj i, src with
  | some o, some a =>
    match w.heap[a]? with
    | none => none
    | some c =>
      let q := copy_nodes w.next c.K_V_queue
      some { heap := w.heap ++ [⟨q, rebuild_from [] q⟩]
             objs := w.objs.set i (some { o with p := some w.heap.length })
             next := w.next + q.length }
  | _, _ => none

/-- The method `p_copy_if_shared` (lines 39-43).  The reference it returns is a reference to
the member `p` itself, so the `p = prev` of every `catch` block is a self-assignment. -/
def World.p_copy_if_shared (w : World K V) (i : Nat) : Option (World K V) :=
  match w.obj i with
  | none => none
  | some o =>
    if w.use_count o.p ≠ 1 ∨ o.v_refs_active = true then w.p_deep_copy i o.p else some w

/-- The empty program state: no object, nothing allocated. -/
def World.init : World K V := ⟨[], [], 0⟩

/-- The default constructor (line 70); the new object gets index `w.objs.length`. -/
def World.ctor (w : World K V) : World K V :=
  { w with heap := w.heap ++ [⟨[], []⟩]
           objs := w.objs ++ [some ⟨some w.heap.length, false⟩] }

/-- The copy constructor (lines 72-80) from object `j`; the new object gets index
`w.objs.length`. -/
def World.ctor_copy (w : World K V) (j : Nat) : Option (World K V) :=
  match w.obj j with
  | none => none
  | some other =>
    let w1 : World K V := { w with objs := w.objs ++ [some ⟨none, false⟩] }
    if other.v_refs_active = true then
      match w1.p_deep_copy w.objs.length other.p with
      | none => none
      | some w2 => some (w2.set_obj w.objs.length ⟨(w2.obj w.objs.length).bind kvfifo.p, false⟩)
    else some (w1.set_obj w.objs.length ⟨other.p, false⟩)

/-- The move constructor (lines 82-85) from object `j`; the new object gets index
`w.objs.length`. -/
def World.ctor_move (w : World K V) (j : Nat) : Option (World K V) :=
  match w.obj j with
  | none => none
  | some other =>
    some { w with objs := w.objs.set j (some { other with p := none })
                    ++ [some ⟨other.p, false⟩] }

/-- The destructor of object `i`: its share of the `kv_struct` is released. -/
def World.dtor (w : World K V) (i : Nat) : Option (World K V) :=
  match w.obj i with
  | none => none
  | some _ => some { w with objs := w.objs.set i none }

/-- The body of `operator=` (lines 89-92) once its by-value parameter `other` lives at index
`t`: `p = other.p`, after which `other` is destroyed. -/
def World.assign_body (w : World K V) (i t : Nat) : Option (World K V) :=
  match w.obj i, w.obj t with
  | some o, some other => (w.set_obj i { o with p := other.p }).dtor t
  | _, _ => none

/-- The statement `x_i = x_j`: the parameter of `operator=` is copy-constructed from `j`. -/
def World.assign (w : World K V) (i j : Nat) : Option (World K V) :=
  match w.obj i, w.ctor_copy j with
  | some _, some w1 => w1.assign_body i w.objs.length
  | _, _ => none

/-- The statement `x_i = std::move(x_j)`: the parameter of `operator=` is move-constructed
from `j`. -/
def World.assign_move (w : World K V) (i j : Nat) : Option (World K V) :=
  match w.obj i, w.ctor_move j with
  | some _, some w1 => w1.assign_body i w.objs.length
  | _, _ => none

/-! ### The mutating methods -/

/-- The method `push` (lines 96-119). -/
def World.push (w : World K V) (i : Nat) (k : K) (v : V) :
    Option (Except Err Unit × World K V) :=
  match w.p_copy_if_shared i with
  | none => none
  | some w1 =>
    match w1.obj i, w1.cell i with
    | some o, some c =>
      match o.p with
      | none => none
      | some a =>
        let w2 : World K V := { w1.set_cell a (c.push_body w1.next k v) with next := w1.next + 1 }
        some (.ok (), w2.set_obj i { o with v_refs_active := false })
    | _, _ => none

/-- The shape shared by `pop()`, `pop(k)` and `move_to_back(k)`: fork if needed, run the `try`
block on `*p`; when it throws, `p = prev` changes nothing and the flag is left alone; when it
returns, `v_refs_active = false`. -/
def World.mutate (w : World K V) (i : Nat)
    (body : kv_struct K V → Option (Except Err (kv_struct K V))) :
    Option (Except Err Unit × World K V) :=
  match w.p_copy_if_shared i with
  | none => none
  | some w1 =>
    match w1.obj i, w1.cell i with
    | some o, some c =>
      match o.p, body c with
      | some a, some (.ok c') =>
        some (.ok (), (w1.set_cell a c').set_obj i { o with v_refs_active := false })
      | some _, some (.error e) => some (.error e, w1)
      | _, _ => none
    | _, _ => none

/-- The method `pop()` (lines 123-146). -/
def World.pop (w : World K V) (i : Nat) : Option (Except Err Unit × World K V) :=
  w.mutate i kv_struct.pop_body

/-- The method `pop(k)` (lines 151-171). -/
def World.pop_key (w : World K V) (i : Nat) (k : K) : Option (Except Err Unit × World K V) :=
  w.mutate i (fun c => c.pop_key_body k)

/-- The method `move_to_back` (lines 177-198). -/
def World.move_to_back (w : World K V) (i : Nat) (k : K) :
    Option (Except Err Unit × World K V) :=
  w.mutate i (fun c => c.move_to_back_body k)

/-- The method `clear` (lines 337-341); `v_refs_active` is not assigned. -/
def World.clear (w : World K V) (i : Nat) : Option (Except Err Unit × World K V) :=
  match w.p_copy_if_shared i with
  | none => none
  | some w1 =>
    match w1.obj i, w1.cell i with
    | some o, some c =>
      match o.p with
      | none => none
      | some a => some (.ok (), w1.set_cell a c.clear_body)
    | _, _ => none

/-! ### The non-const accessors and writes through their references -/

/-- The shape shared by the non-const `front`, `back`, `first` and `last` (lines 214-308):
fork if needed, find the node; when that throws, `p = prev` changes nothing and
`v_refs_active` gets back the value it still has; otherwise `v_refs_active = true` and the
key and a reference to the value are returned. -/
def World.access (w : World K V) (i : Nat)
    (sel : kv_struct K V → Option (Except Err (Node K V))) :
    Option (Except Err (K × Ref) × World K V) :=
  match w.p_copy_if_shared i with
  | none => none
  | some w1 =>
    match w1.obj i, w1.cell i with
    | some o, some c =>
      match o.p, sel c with
      | some a, some (.ok n) =>
        some (.ok (n.key, ⟨a, n.addr⟩), w1.set_obj i { o with v_refs_active := true })
      | some _, some (.error e) => some (.error e, w1)
      | _, _ => none
    | _, _ => none

/-- The node designated by `front()`: `K_V_queue.front()`. -/
def kv_struct.front_node (c : kv_struct K V) : Option (Except Err (Node K V)) :=
  match c.K_V_queue with
  | [] => some (.error .invalid_argument)
  | n :: _ => some (.ok n)

/-- The node designated by `back()`: `K_V_queue.back()`. -/
def kv_struct.back_node (c : kv_struct K V) : Option (Except Err (Node K V)) :=
  match c.K_V_queue.getLast? with
  | none => some (.error .invalid_argument)
  | some n => some (.ok n)

/-- The non-const `front()` (lines 214-231). -/
def World.front (w : World K V) (i : Nat) : Option (Except Err (K × Ref) × World K V) :=
  w.access i kv_struct.front_node

/-- The non-const `back()` (lines 233-250). -/
def World.back (w : World K V) (i : Nat) : Option (Except Err (K × Ref) × World K V) :=
  w.access i kv_struct.back_node

/-- The non-const `first(key)` (lines 264-281). -/
def World.first (w : World K V) (i : Nat) (key : K) :
    Option (Except Err (K × Ref) × World K V) :=
  w.access i (fun c => c.first_node key)

/-- The non-const `last(key)` (lines 291-308). -/
def World.last (w : World K V) (i : Nat) (key : K) :
    Option (Except Err (K × Ref) × World K V) :=
  w.access i (fun c => c.last_node key)

/-- The assignment `r = v` through a reference handed out earlier.  Undefined when the
`kv_struct` has been released or the node erased. -/
def World.write (w : World K V) (r : Ref) (v : V) : Option (World K V) :=
  if w.use_count (some r.cell) = 0 then none
  else
    match w.heap[r.cell]? with
    | none => none
    | some c =>
      match find_node c.K_V_queue r.node with
      | none => none
      | some _ =>
        some (w.set_cell r.cell { c with K_V_queue := write_node c.K_V_queue r.node v })

/-! ### The const methods, on an object -/

/-- The entry sequence of object `i`, front to back. -/
def World.entries (w : World K V) (i : Nat) : Option (List (K × V)) :=
  (w.cell i).map kv_struct.entries

/-- The method `size`. -/
def World.size (w : World K V) (i : Nat) : Option Nat := (w.cell i).map kv_struct.size

/-- The method `empty`. -/
def World.empty (w : World K V) (i : Nat) : Option Bool := (w.cell i).map kv_struct.empty

/-- The method `count`. -/
def World.count (w : World K V) (i : Nat) (k : K) : Option Nat :=
  (w.cell i).map (fun c => c.count k)

/-- The method `front() const`. -/
def World.front_const (w : World K V) (i : Nat) : Option (Except Err (K × V)) :=
  (w.cell i).map kv_struct.front

/-- The method `back() const`. -/
def World.back_const (w : World K V) (i : Nat) : Option (Except Err (K × V)) :=
  (w.cell i).map kv_struct.back

/-- The method `first(key) const`. -/
def World.first_const (w : World K V) (i : Nat) (k : K) : Option (Except Err (K × V)) :=
  (w.cell i).bind (fun c => c.first k)

/-- The method `last(key) const`. -/
def World.last_const (w : World K V) (i : Nat) (k : K) : Option (Except Err (K × V)) :=
  (w.cell i).bind (fun c => c.last k)

/-- The method `k_begin`. -/
def World.k_begin (w : World K V) (i : Nat) : Option k_iterator :=
  (w.cell i).map kv_struct.k_begin

/-- The method `k_end`. -/
def World.k_end (w : World K V) (i : Nat) : Option k_iterator :=
  (w.cell i).map kv_struct.k_end

/-- The keys met from `k_begin()` to `k_end()`. -/
def World.keys (w : World K V) (i : Nat) : Option (List K) := (w.cell i).map kv_struct.keys

/-! ### Programs -/

/-- One of the five mutating methods with its arguments. -/
inductive MutOp (K V : Type) where
  | push (k : K) (v : V)
  | pop
  | pop_key (k : K)
  | move_to_back (k : K)
  | clear
deriving DecidableEq, Repr

/-- A call of a mutating method on object `i`. -/
def World.apply (w : World K V) (i : Nat) : MutOp K V → Option (Except Err Unit × World K V)
  | .push k v => w.push i k v
  | .pop => w.pop i
  | .pop_key k => w.pop_key i k
  | .move_to_back k => w.move_to_back i k
  | .clear => w.clear i

/-- A statement of a client program over the public interface. -/
inductive Stmt (K V : Type) where
  | ctor
  | ctor_copy (j : Nat)
  | ctor_move (j : Nat)
  | dtor (i : Nat)
  | assign (i j : Nat)
  | assign_move (i j : Nat)
  | call (i : Nat) (op : MutOp K V)
  | front (i : Nat)
  | back (i : Nat)
  | first (i : Nat) (k : K)
  | last (i : Nat) (k : K)
  | write (r : Ref) (v : V)
deriving DecidableEq, Repr

/-- The state after one statement, whether the call returned or threw (the client catches
`std::invalid_argument`); `none` when the statement has undefined behaviour. -/
def World.step (w : World K V) : Stmt K V → Option (World K V)
  | .ctor => some w.ctor
  | .ctor_copy j => w.ctor_copy j
  | .ctor_move j => w.ctor_move j
  | .dtor i => w.dtor i
  | .assign i j => w.assign i j
  | .assign_move i j => w.assign_move i j
  | .call i op => (w.apply i op).map Prod.snd
  | .front i => (w.front i).map Prod.snd
  | .back i => (w.back i).map Prod.snd
  | .first i k => (w.first i k).map Prod.snd
  | .last i k => (w.last i k).map Prod.snd
  | .write r v => w.write r v

/-- The state after a list of statements run in order. -/
def World.run (w : World K V) : List (Stmt K V) → Option (World K V)
  | [] => some w
  | s :: l =>
    match w.step s with
    | none => none
    | some w1 => w1.run l

/-- The states a client program can reach from the empty program state when no allocation
fails: the calls of its statements return or throw `std::invalid_argument`.  The states left
by a call that throws `std::bad_alloc` are those of `ReachableF`. -/
def Reachable (w : World K V) : Prop := ∃ l : List (Stmt K V), World.init.run l = some w

end Objects

section Invariants

variable {K V : Type} [LinearOrder K]

/-! ### Invariants -/

/-- The keys of the map are in strictly ascending order. -/
def KeysSorted (m : List (K × List Nat)) : Prop := (m.map Prod.fst).Pairwise (· < ·)

/-- The iterators of the nodes of `q` whose key is `k`, in queue order. -/
def slots_of (q : List (Node K V)) (k : K) : List Nat :=
  (q.filter (fun n => decide (n.key = k))).map Node.addr

/-- The index invariant of the map `m` with respect to the queue `q`: the keys ascend, the
bucket of every key lists exactly the nodes of `q` with that key in queue order (a key
without bucket has no node), and no bucket is empty. -/
structure IndexWF (m : List (K × List Nat)) (q : List (Node K V)) : Prop where
  sorted : KeysSorted m
  bucket : ∀ k, (map_find m k).getD [] = slots_of q k
  nonempty : ∀ k, map_find m k ≠ some []

/-- A well-formed `kv_struct`: distinct nodes have distinct addresses and the index invariant
holds. -/
structure CellWF (c : kv_struct K V) : Prop where
  nodup : (c.K_V_queue.map Node.addr).Nodup
  index : IndexWF c.K_it_lists c.K_V_queue

/-- A well-formed program state: every `kv_struct` is well-formed and made of nodes
allocated earlier, and every non-null `p` designates a `kv_struct` of the heap. -/
structure WorldWF (w : World K V) : Prop where
  cells : ∀ c ∈ w.heap, CellWF c
  below : ∀ c ∈ w.heap, ∀ n ∈ c.K_V_queue, n.addr < w.next
  valid : ∀ i o a, w.obj i = some o → o.p = some a → a < w.heap.length

/-- Object `i` is the only live object whose `p` designates the `kv_struct` at `a`. -/
def World.sole_owner (w : World K V) (i a : Nat) : Prop :=
  ∀ j o, w.obj j = some o → o.p = some a → j = i

/-- What `p_copy_if_shared` run by object `i` (members `o`, storage `c`) establishes in the
state `w1` it leaves: object `i` keeps its flag and holds, as sole owner, a well-formed
`kv_struct` `c1` at `a1` with the entries of `c`; all other objects and all `kv_struct`s that
existed before are as they were. -/
structure Forked (w w1 : World K V) (i : Nat) (o : kvfifo) (c : kv_struct K V) (a1 : Nat)
    (c1 : kv_struct K V) : Prop where
  wf : WorldWF w1
  obj_i : w1.obj i = some ⟨some a1, o.v_refs_active⟩
  cell_i : w1.heap[a1]? = some c1
  entries : c1.entries = c.entries
  sole : w1.sole_owner i a1
  others : ∀ j, j ≠ i → w1.obj j = w.obj j
  heap : ∀ b, b < w.heap.length → w1.heap[b]? = w.heap[b]?
  in_place_or_fresh : (w1 = w ∧ c1 = c) ∨ a1 = w.heap.length
  objs_length : w1.objs.length = w.objs.length

/-- The state `w'` left by a call on object `i` in state `w`: it is well-formed, object `i`
has the entry sequence `s'` and the flag `fl` and is the sole owner of its `kv_struct`, and
every other object has the members and the `kv_struct` contents it had. -/
structure Post (w w' : World K V) (i : Nat) (s' : List (K × V)) (fl : Bool) : Prop where
  wf : WorldWF w'
  entries : w'.entries i = some s'
  flag : (w'.obj i).map kvfifo.v_refs_active = some fl
  owner : ∃ a, (w'.obj i).bind kvfifo.p = some a ∧ w'.sole_owner i a
  frame : ∀ j, j ≠ i → w'.obj j = w.obj j ∧ w'.cell j = w.cell j

/-- The effect of a mutating method on an entry sequence taken as a plain value: the new
sequence, or the exception. -/
def MutOp.spec : MutOp K V → List (K × V) → Except Err (List (K × V))
  | .push k v, s => .ok (s ++ [(k, v)])
  | .pop, [] => .error .invalid_argument
  | .pop, _ :: s => .ok s
  | .pop_key k, s =>
    if s.any (fun e => decide (e.1 = k)) then .ok (s.eraseP (fun e => decide (e.1 = k)))
    else .error .invalid_argument
  | .move_to_back k, s =>
    if s.any (fun e => decide (e.1 = k)) then
      .ok (s.filter (fun e => decide (e.1 ≠ k)) ++ s.filter (fun e => decide (e.1 = k)))
    else .error .invalid_argument
  | .clear, _ => .ok []

/-- The entry sequence after a mutating method, taken as a plain value: unchanged when the
method throws. -/
def MutOp.after (op : MutOp K V) (s : List (K × V)) : List (K × V) :=
  match op.spec s with
  | .ok s' => s'
  | .error _ => s

/-- Every const method of object `i` answers in `w'` as it does in `w`. -/
def World.same_view (w w' : World K V) (i : Nat) : Prop :=
  w'.entries i = w.entries i ∧ w'.size i = w.size i ∧ w'.empty i = w.empty i ∧
    w'.front_const i = w.front_const i ∧ w'.back_const i = w.back_const i ∧
    (∀ k, w'.count i k = w.count i k) ∧ (∀ k, w'.first_const i k = w.first_const i k) ∧
    (∀ k, w'.last_const i k = w.last_const i k) ∧ w'.keys i = w.keys i

/-- A list of calls of mutating methods, each with the object it is made on, as a program. -/
def calls (l : List (Nat × MutOp K V)) : List (Stmt K V) :=
  l.map (fun x => Stmt.call x.1 x.2)

/-- The calls of the list made on object `j`, in order. -/
def calls_on (j : Nat) (l : List (Nat × MutOp K V)) : List (MutOp K V) :=
  (l.filter (fun x => decide (x.1 = j))).map Prod.snd

/-- The entry sequence after a list of mutating methods, taken as a plain value. -/
def after_all (ops : List (MutOp K V)) (s : List (K × V)) : List (K × V) :=
  ops.foldl (fun s op => op.after s) s

/-- The calls `push(k, v)` on object `i` for the pairs of the list in order, every one of
which returns normally. -/
def World.push_all (w : World K V) (i : Nat) : List (K × V) → Option (World K V)
  | [] => some w
  | e :: l =>
    match w.push i e.1 e.2 with
    | some (.ok (), w1) => w1.push_all i l
    | _ => none

/-- Objects `a` and `b` of state `w1` both have the entry sequence `s` and from then on
behave as two independent values: after any program of mutating calls on `a` and `b`, in any
order, each has the entries its own calls give from `s`; and an object on which nothing was
called answers every const method as before. -/
def IndependentCopies (w1 : World K V) (a b : Nat) (s : List (K × V)) : Prop :=
  w1.entries a = some s ∧ w1.entries b = some s ∧
    ∀ l : List (Nat × MutOp K V), (∀ x ∈ l, x.1 = a ∨ x.1 = b) →
      ∃ w2, w1.run (calls l) = some w2 ∧
        w2.entries a = some (after_all (calls_on a l) s) ∧
        w2.entries b = some (after_all (calls_on b l) s) ∧
        (calls_on a l = [] → w1.same_view w2 a) ∧
        (calls_on b l = [] → w1.same_view w2 b)

end Invariants

/-! ### Sample states -/

/-- The state after `kvfifo<int, int> x; x.push(1, 10); x.push(2, 20); x.push(1, 30);`. -/
def sample : World Nat Nat :=
  ⟨[⟨[⟨0, 1, 10⟩, ⟨1, 2, 20⟩, ⟨2, 1, 30⟩], [(1, [0, 2]), (2, [1])]⟩], [some ⟨some 0, false⟩], 3⟩

/-- The program that builds `sample`. -/
def sample_program : List (Stmt Nat Nat) :=
  [.ctor, .call 0 (.push 1 10), .call 0 (.push 2 20), .call 0 (.push 1 30)]

/-- The state after `kvfifo<int, int> x, y; x.push(1, 10);`: `y` is empty. -/
def sample_two : World Nat Nat :=
  ⟨[⟨[⟨0, 1, 10⟩], [(1, [0])]⟩, ⟨[], []⟩], [some ⟨some 0, false⟩, some ⟨some 1, false⟩], 1⟩

/-- The program that builds `sample_two`. -/
def sample_two_program : List (Stmt Nat Nat) :=
  [.ctor, .ctor, .call 0 (.push 1 10)]

section Faults

variable {K V : Type} [LinearOrder K]

/-! ### Allocation failures -/

/-- The allocations of `push` (lines 100-108) at which a failure is injected: the map node
made by `K_it_lists[k]` when `k` has no bucket, the list node made by `emplace_back`, the
list node made by `it_list.push_back`. -/
inductive PushFault where
  | bucket
  | entry
  | slot
deriving DecidableEq, Repr

/-- The `try` block of `push` (lines 100-113) when the allocation at `pt` throws
`std::bad_alloc`: the outcome and the `kv_struct` left behind.  `K_it_lists[k]` inserts
nothing when it throws, and allocates nothing when `k` has a bucket (the call then goes
through); the handler of `emplace_back` runs `K_it_lists.erase(k)`; the handler of
`push_back` runs `K_V_queue.pop_back()` and `K_it_lists.erase(k)`. -/
def kv_struct.push_body_faulty (c : kv_struct K V) (a : Nat) (k : K) (v : V) (pt : PushFault) :
    Except Err Unit × kv_struct K V :=
  match pt, map_find c.K_it_lists k with
  | .bucket, none => (.error .bad_alloc, c)
  | .bucket, some _ => (.ok (), c.push_body a k v)
  | .entry, _ =>
    (.error .bad_alloc,
      { K_V_queue := c.K_V_queue
        K_it_lists := map_erase (map_subscript c.K_it_lists k) k })
  | .slot, _ =>
    (.error .bad_alloc,
      { K_V_queue := (c.K_V_queue ++ [Node.mk a k v]).dropLast
        K_it_lists := map_erase (map_subscript c.K_it_lists k) k })

/-- The method `push` (lines 96-119) when the allocation at `pt` throws: after the fork the
`try` block runs, its outer handler runs `p = prev` (a self-assignment) and rethrows, and
`v_refs_active` is not assigned. -/
def World.push_faulty (w : World K V) (i : Nat) (k : K) (v : V) (pt : PushFault) :
    Option (Except Err Unit × World K V) :=
  match w.p_copy_if_shared i with
  | none => none
  | some w1 =>
    match w1.obj i, w1.cell i with
    | some o, some c =>
      match o.p with
      | none => none
      | some a =>
        match c.push_body_faulty w1.next k v pt with
        | (.ok (), c') =>
          some (.ok (), ({ w1.set_cell a c' with next := w1.next + 1 } : World K V).set_obj i
            { o with v_refs_active := false })
        | (.error e, c') =>
          some (.error e,
            ({ w1.set_cell a c' with
                next := if pt = .slot then w1.next + 1 else w1.next } : World K V))
    | _, _ => none

/-- The allocations of `p_deep_copy` (lines 48-58) at which a failure is injected: inside
`make_shared<kv_struct>(*from)`, or in round `n` of the loop (counted from 0), in
`K_it_lists[it->first]` or in `push_back(it)`. -/
inductive CopyFault where
  | copy
  | bucket (n : Nat)
  | slot (n : Nat)
deriving DecidableEq, Repr

/-- The loop of `p_deep_copy` (lines 55-58) with a failure injected: the outcome and the map
left when the loop is left.  `K_it_lists[it->first]` inserts nothing when it throws and
allocates nothing when the key has a bucket; a failing `push_back` leaves the bucket made by
`K_it_lists[it->first]`. -/
def rebuild_faulty : List (K × List Nat) → List (Node K V) → CopyFault →
    Except Err Unit × List (K × List Nat)
  | m, [], _ => (.ok (), m)
  | m, q, .copy => (.ok (), rebuild_from m q)
  | m, n :: q, .bucket 0 =>
    if map_find m n.key = none then (.error .bad_alloc, m) else (.ok (), rebuild_from m (n :: q))
  | m, n :: _, .slot 0 => (.error .bad_alloc, map_subscript m n.key)
  | m, n :: q, .bucket (j + 1) =>
    rebuild_faulty (map_update (map_subscript m n.key) n.key (· ++ [n.addr])) q (.bucket j)
  | m, n :: q, .slot (j + 1) =>
    rebuild_faulty (map_update (map_subscript m n.key) n.key (· ++ [n.addr])) q (.slot j)

/-- The method `p_deep_copy` (lines 45-65) run by object `i` on the pointer `src` with a
failure injected.  When `make_shared` throws, `p` has not been assigned.  When the loop throws,
`p` already holds the new `kv_struct`, and the handler's `p = prev` assigns `p` to itself,
`prev` being a reference to `p`. -/
def World.p_deep_copy_faulty (w : World K V) (i : Nat) (src : Option Nat) (f : CopyFault) :
    Option (Except Err Unit × World K V) :=
  match w.obj i, src with
  | some o, some a =>
    match w.heap[a]? with
    | none => none
    | some c =>
      match f with
      | .copy => some (.error .bad_alloc, w)
      | _ =>
        let q := copy_nodes w.next c.K_V_queue
        let r := rebuild_faulty [] q f
        some (r.1, { heap := w.heap ++ [⟨q, r.2⟩]
                     objs := w.objs.set i (some { o with p := some w.heap.length })
                     next := w.next + q.length })
  | _, _ => none

/-- The method `p_copy_if_shared` (lines 39-43) with a failure injected into the deep copy.
Every mutating method and every non-const accessor calls it before its `try` block, so when
it throws, this is the state the exception leaves the container in. -/
def World.p_copy_if_shared_faulty (w : World K V) (i : Nat) (f : CopyFault) :
    Option (Except Err Unit × World K V) :=
  match w.obj i with
  | none => none
  | some o =>
    if w.use_count o.p ≠ 1 ∨ o.v_refs_active = true then w.p_deep_copy_faulty i o.p f
    else some (.ok (), w)

end Faults

section Iterators

variable {K V : Type} [LinearOrder K]

/-! ### `k_iterator` -/

/-- The operator `*` of `k_iterator` (line 365): the key at the wrapped position; undefined at
`k_end()`. -/
def kv_struct.k_deref (c : kv_struct K V) (it : k_iterator) : Option K :=
  (c.K_it_lists[it.wrapped]?).map Prod.fst

/-- The pre-increment `++it` (lines 369-372): `wrapped++`; undefined at `k_end()`. -/
def kv_struct.k_incr (c : kv_struct K V) (it : k_iterator) : Option k_iterator :=
  if it.wrapped < c.K_it_lists.length then some ⟨it.wrapped + 1⟩ else none

/-- The pre-decrement `--it` (lines 380-383): `wrapped--`; undefined at `k_begin()`. -/
def kv_struct.k_decr (c : kv_struct K V) (it : k_iterator) : Option k_iterator :=
  if 0 < it.wrapped ∧ it.wrapped ≤ c.K_it_lists.length then some ⟨it.wrapped - 1⟩ else none

/-- The post-increment `it++` (lines 374-378): `result(*this); operator++(); return result;`.
The pair is the iterator returned and the iterator `it` has become. -/
def kv_struct.k_post_incr (c : kv_struct K V) (it : k_iterator) :
    Option (k_iterator × k_iterator) :=
  let result := it
  match c.k_incr it with
  | none => none
  | some it' => some (result, it')

/-- The post-decrement `it--` (lines 385-389): `result(*this); operator--(); return result;`.
The pair is the iterator returned and the iterator `it` has become. -/
def kv_struct.k_post_decr (c : kv_struct K V) (it : k_iterator) :
    Option (k_iterator × k_iterator) :=
  let result := it
  match c.k_decr it with
  | none => none
  | some it' => some (result, it')

/-- The client loop `for (; it != k_end(); ++it) out.push_back(*it);` run for at most `fuel`
rounds; `none` when a step is undefined or the fuel runs out before `k_end()`. -/
def kv_struct.k_forward (c : kv_struct K V) : Nat → k_iterator → Option (List K)
  | 0, it => if it = c.k_end then some [] else none
  | fuel + 1, it =>
    if it = c.k_end then some []
    else
      match c.k_deref it, c.k_incr it with
      | some k, some it' => (c.k_forward fuel it').map (fun ks => k :: ks)
      | _, _ => none

/-- The client loop `while (it != k_begin()) { --it; out.push_back(*it); }` run for at most
`fuel` rounds; `none` when a step is undefined or the fuel runs out before `k_begin()`. -/
def kv_struct.k_backward (c : kv_struct K V) : Nat → k_iterator → Option (List K)
  | 0, it => if it = c.k_begin then some [] else none
  | fuel + 1, it =>
    if it = c.k_begin then some []
    else
      match c.k_decr it with
      | none => none
      | some it' =>
        match c.k_deref it' with
        | none => none
        | some k => (c.k_backward fuel it').map (fun ks => k :: ks)

/-- The keys met by the forward loop started at `k_begin()` of object `i`. -/
def World.k_forward (w : World K V) (i fuel : Nat) : Option (List K) :=
  (w.cell i).bind (fun c => c.k_forward fuel c.k_begin)

/-- The keys met by the backward loop started at `k_end()` of object `i`. -/
def World.k_backward (w : World K V) (i fuel : Nat) : Option (List K) :=
  (w.cell i).bind (fun c => c.k_backward fuel c.k_end)

end Iterators

section Accessors

variable {K V : Type} [LinearOrder K]

/-! ### The accessors, uniformly -/

/-- One of the four accessors with its argument. -/
inductive Accessor (K : Type) where
  | front
  | back
  | first (k : K)
  | last (k : K)
deriving DecidableEq, Repr

/-- The node an accessor designates. -/
def kv_struct.node_of (c : kv_struct K V) : Accessor K → Option (Except Err (Node K V))
  | .front => c.front_node
  | .back => c.back_node
  | .first k => c.first_node k
  | .last k => c.last_node k

/-- The const form of an accessor, on a `kv_struct`. -/
def kv_struct.get (c : kv_struct K V) : Accessor K → Option (Except Err (K × V))
  | .front => some c.front
  | .back => some c.back
  | .first k => c.first k
  | .last k => c.last k

/-- The const form of an accessor on object `i`. -/
def World.get_const (w : World K V) (i : Nat) : Accessor K → Option (Except Err (K × V))
  | .front => w.front_const i
  | .back => w.back_const i
  | .first k => w.first_const i k
  | .last k => w.last_const i k

/-- The non-const form of an accessor on object `i`. -/
def World.get (w : World K V) (i : Nat) :
    Accessor K → Option (Except Err (K × Ref) × World K V)
  | .front => w.front i
  | .back => w.back i
  | .first k => w.first i k
  | .last k => w.last i k

/-- The entry an accessor designates in the entry sequence `s`, taken as a plain value:
the first or last entry, or the first or last one with key `k`; the exception when there is
none. -/
def Accessor.spec (s : List (K × V)) : Accessor K → Except Err (K × V)
  | .front =>
    match s.head? with
    | none => .error .invalid_argument
    | some e => .ok e
  | .back =>
    match s.getLast? with
    | none => .error .invalid_argument
    | some e => .ok e
  | .first k =>
    match (s.filter (fun e => decide (e.1 = k))).head? with
    | none => .error .invalid_argument
    | some e => .ok e
  | .last k =>
    match (s.filter (fun e => decide (e.1 = k))).getLast? with
    | none => .error .invalid_argument
    | some e => .ok e

/-- The condition under which the spec lets an accessor fail: `EmptyQueue` for `front` and
`back`, `KeyNotFound` for `first(k)` and `last(k)`. -/
def Accessor.absent (s : List (K × V)) : Accessor K → Prop
  | .front => s = []
  | .back => s = []
  | .first k => (s.filter (fun e => decide (e.1 = k))).length = 0
  | .last k => (s.filter (fun e => decide (e.1 = k))).length = 0

/-- The condition, in terms of the container's own const methods, under which the spec lets
an accessor fail: `empty()` for `front` and `back`, `count(k) == 0` for `first(k)` and
`last(k)`. -/
def World.lacks (w : World K V) (i : Nat) : Accessor K → Prop
  | .front => w.empty i = some true
  | .back => w.empty i = some true
  | .first k => w.count i k = some 0
  | .last k => w.count i k = some 0

/-- Reading the value a reference designates; undefined when the `kv_struct` has been
released or the node erased. -/
def World.deref (w : World K V) (r : Ref) : Option V :=
  if w.use_count (some r.cell) = 0 then none
  else
    match w.heap[r.cell]? with
    | none => none
    | some c => (find_node c.K_V_queue r.node).map Node.val

end Accessors

section ConstMethods

variable {K V : Type} [LinearOrder K]

/-! ### The const methods as runs on the state -/

/-- A const method with its argument. -/
inductive ConstOp (K : Type) where
  | front
  | back
  | first (k : K)
  | last (k : K)
  | size
  | empty
  | count (k : K)
  | k_begin
  | k_end
deriving DecidableEq, Repr

/-- What a const method returns. -/
inductive ConstVal (K V : Type) where
  | entry (e : Except Err (K × V))
  | nat (n : Nat)
  | bool (b : Bool)
  | iter (it : k_iterator)
deriving Repr

/-- The body of `first(key) const` and `last(key) const` (lines 283-289, 310-316) as a run on
the `kv_struct`: `find`, and when the key is found `K_it_lists[key]`, which is
`std::map::operator[]` on the non-const map behind `p`, then `front()` or `back()` of the
bucket and the dereference. -/
def kv_struct.bucket_end_run (c : kv_struct K V) (key : K) (at_back : Bool) :
    Option (Except Err (K × V) × kv_struct K V) :=
  match map_find c.K_it_lists key with
  | none => some (.error .invalid_argument, c)
  | some _ =>
    let m1 := map_subscript c.K_it_lists key
    match map_find m1 key with
    | none => none
    | some l =>
      match (if at_back then l.getLast? else l.head?) with
      | none => none
      | some it =>
        match find_node c.K_V_queue it with
        | none => none
        | some n => some (.ok n.pair, ⟨c.K_V_queue, m1⟩)

/-- A const method as a run on the `kv_struct`: the value returned and the `kv_struct`
afterwards. -/
def kv_struct.const_run (c : kv_struct K V) : ConstOp K → Option (ConstVal K V × kv_struct K V)
  | .front => some (.entry c.front, c)
  | .back => some (.entry c.back, c)
  | .first k => (c.bucket_end_run k false).map (fun r => (.entry r.1, r.2))
  | .last k => (c.bucket_end_run k true).map (fun r => (.entry r.1, r.2))
  | .size => some (.nat c.K_V_queue.length, c)
  | .empty => some (.bool c.K_V_queue.isEmpty, c)
  | .count k =>
    match map_find c.K_it_lists k with
    | none => some (.nat 0, c)
    | some l => some (.nat l.length, c)
  | .k_begin => some (.iter ⟨0⟩, c)
  | .k_end => some (.iter ⟨c.K_it_lists.length⟩, c)

/-- A const method called on object `i`: it runs on `*p`; the members `p` and
`v_refs_active` are not assigned and `p_copy_if_shared` is not called. -/
def World.call_const (w : World K V) (i : Nat) (op : ConstOp K) :
    Option (ConstVal K V × World K V) :=
  match w.obj i with
  | none => none
  | some o =>
    match o.p with
    | none => none
    | some a =>
      match w.heap[a]? with
      | none => none
      | some c =>
        match c.const_run op with
        | none => none
        | some (r, c') => some (r, w.set_cell a c')

/-- The value a const method returns on object `i`, by the definitions of the methods made
earlier. -/
def World.const_val (w : World K V) (i : Nat) : ConstOp K → Option (ConstVal K V)
  | .front => (w.front_const i).map ConstVal.entry
  | .back => (w.back_const i).map ConstVal.entry
  | .first k => (w.first_const i k).map ConstVal.entry
  | .last k => (w.last_const i k).map ConstVal.entry
  | .size => (w.size i).map ConstVal.nat
  | .empty => (w.empty i).map ConstVal.bool
  | .count k => (w.count i k).map ConstVal.nat
  | .k_begin => (w.k_begin i).map ConstVal.iter
  | .k_end => (w.k_end i).map ConstVal.iter

end ConstMethods

/-! ### More sample states -/

/-- The state after `kvfifo<int, int> x; kvfifo<int, int> y(x);`: both hold the same empty
`kv_struct`. -/
def sample_shared_empty : World Nat Nat :=
  ⟨[⟨[], []⟩], [some ⟨some 0, false⟩, some ⟨some 0, false⟩], 0⟩

/-- The program that builds `sample_shared_empty`. -/
def sample_shared_empty_program : List (Stmt Nat Nat) := [.ctor, .ctor_copy 0]

/-- The state after the program of `sample` followed by `kvfifo<int, int> y(x);`: both hold
the same `kv_struct`. -/
def sample_shared : World Nat Nat :=
  ⟨[⟨[⟨0, 1, 10⟩, ⟨1, 2, 20⟩, ⟨2, 1, 30⟩], [(1, [0, 2]), (2, [1])]⟩],
    [some ⟨some 0, false⟩, some ⟨some 0, false⟩], 3⟩

/-- The program that builds `sample_shared`. -/
def sample_shared_program : List (Stmt Nat Nat) := sample_program ++ [.ctor_copy 0]

/-- The program `kvfifo<int, string> x; x.push(1, "a"); x.push(2, "b"); x.push(1, "c");`. -/
def trace_program : List (Stmt Int String) :=
  [.ctor, .call 0 (.push 1 "a"), .call 0 (.push 2 "b"), .call 0 (.push 1 "c")]

section ForkRule

variable {K V : Type} [LinearOrder K]

/-! ### Positions, the index invariant and sharing, in the words of the spec -/

/-- The entry with key `k` standing between `s1` and `s2` in the sequence
`s1 ++ (k, v) :: s2` is the one the accessor designates: the first entry for `front`, the
last one for `back`, the earliest entry with key `k` for `first(k)`, the latest one for
`last(k)`. -/
def Accessor.designates (acc : Accessor K) (s1 : List (K × V)) (k : K) (s2 : List (K × V)) :
    Prop :=
  match acc with
  | .front => s1 = []
  | .back => s2 = []
  | .first k0 => k0 = k ∧ ∀ e ∈ s1, e.1 ≠ k
  | .last k0 => k0 = k ∧ ∀ e ∈ s2, e.1 ≠ k

/-- The index invariant as the spec words it: the bucket of every key present in the index
is non-empty and lists exactly the slots of the sequence with that key, in sequence order;
every key of the sequence has a bucket; and a slot identifies one node of the sequence. -/
def kv_struct.index_invariant (c : kv_struct K V) : Prop :=
  (∀ k l, map_find c.K_it_lists k = some l → l ≠ [] ∧ l = slots_of c.K_V_queue k) ∧
    (∀ n ∈ c.K_V_queue, ∃ l, map_find c.K_it_lists n.key = some l) ∧
    (c.K_V_queue.map Node.addr).Nodup

/-- The storage of object `i` is also held by another live container. -/
def World.shared (w : World K V) (i : Nat) : Prop :=
  ∃ j oi oj a, j ≠ i ∧ w.obj i = some oi ∧ w.obj j = some oj ∧ oi.p = some a ∧ oj.p = some a

/-- The storage address held by object `i`. -/
def World.storage (w : World K V) (i : Nat) : Option Nat := (w.obj i).bind kvfifo.p

/-- The flag `v_refs_active` of object `i`. -/
def World.refs_active (w : World K V) (i : Nat) : Option Bool :=
  (w.obj i).map kvfifo.v_refs_active

end ForkRule

/-! ### Sample states with a reference outstanding or a broken index -/

/-- The state after the program of `sample` followed by the non-const `x.front()`: the flag
of `x` is set. -/
def sample_ref : World Nat Nat :=
  ⟨[⟨[⟨0, 1, 10⟩, ⟨1, 2, 20⟩, ⟨2, 1, 30⟩], [(1, [0, 2]), (2, [1])]⟩], [some ⟨some 0, true⟩], 3⟩

/-- The program that builds `sample_ref`. -/
def sample_ref_program : List (Stmt Nat Nat) := sample_program ++ [.front 0]

/-- A state no program reaches, whose index disagrees with its sequence: key 1 has a bucket
with a slot that is no node, key 2 has none, and key 5 has an empty bucket. -/
def sample_broken : World Nat Nat :=
  ⟨[⟨[⟨0, 1, 10⟩, ⟨1, 2, 20⟩, ⟨2, 1, 30⟩], [(1, [7]), (5, [])]⟩], [some ⟨some 0, false⟩], 3⟩

/-! ### A sample state with two containers, one with a reference outstanding -/

/-- The state after `kvfifo<int, int> x, y; x.push(1, 10); x.front();` (the non-const
`front`): the flag of `x` is set, `y` is empty. -/
def sample_two_ref : World Nat Nat :=
  ⟨[⟨[⟨0, 1, 10⟩], [(1, [0])]⟩, ⟨[], []⟩], [some ⟨some 0, true⟩, some ⟨some 1, false⟩], 1⟩

/-- The program that builds `sample_two_ref`. -/
def sample_two_ref_program : List (Stmt Nat Nat) := sample_two_program ++ [.front 0]

section FailingPrograms

variable {K V : Type} [LinearOrder K]

/-! ### Programs in which an allocation fails -/

/-- A statement of a client program in which allocations may fail: a statement of `Stmt`; a
call `push(k, v)` on object `i` whose allocation at `pt` throws `std::bad_alloc`; or a call
of any mutating method or non-const accessor on object `i` whose deep copy throws at `f`
(each of them calls `p_copy_if_shared` before its `try` block, so the exception leaves the
method at once). -/
inductive FStmt (K V : Type) where
  | run (s : Stmt K V)
  | push_fails (i : Nat) (k : K) (v : V) (pt : PushFault)
  | fork_fails (i : Nat) (f : CopyFault)
deriving DecidableEq, Repr

/-- The state after one statement; for the two failing calls, the state the exception leaves
(the client catches it).  `none` when the statement has undefined behaviour, or when the
failure named by the statement does not occur in this state. -/
def World.fstep (w : World K V) : FStmt K V → Option (World K V)
  | .run s => w.step s
  | .push_fails i k v pt =>
    match w.push_faulty i k v pt with
    | some (.error _, w') => some w'
    | _ => none
  | .fork_fails i f =>
    match w.p_copy_if_shared_faulty i f with
    | some (.error _, w') => some w'
    | _ => none

/-- The state after a list of statements run in order. -/
def World.frun (w : World K V) : List (FStmt K V) → Option (World K V)
  | [] => some w
  | s :: l =>
    match w.fstep s with
    | none => none
    | some w1 => w1.frun l

/-- The states a client program can reach from the empty program state, calls that throw
`std::bad_alloc` included. -/
def ReachableF (w : World K V) : Prop := ∃ l : List (FStmt K V), World.init.frun l = some w

end FailingPrograms

/-- The program of `sample` followed by `x.push(1, 40)` whose `emplace_back` throws. -/
def failed_push_program : List (FStmt Nat Nat) :=
  sample_program.map .run ++ [.push_fails 0 1 40 .entry]

/-- The program of `sample_shared` followed by a mutating call on `y` whose deep copy throws
in round 1 of the rebuild loop, in `K_it_lists[2]`. -/
def failed_fork_program : List (FStmt Nat Nat) :=
  sample_shared_program.map .run ++ [.fork_fails 1 (.bucket 1)]

/-- The program of `sample_shared` followed by a mutating call on `y` whose deep copy throws
in round 0 of the rebuild loop, in `push_back(it)`. -/
def failed_slot_program : List (FStmt Nat Nat) :=
  sample_shared_program.map .run ++ [.fork_fails 1 (.slot 0)]

/-- The program of `sample_shared` followed by a mutating call on `y` whose deep copy throws
in round 0 of the rebuild loop, in `K_it_lists[1]`. -/
def failed_rebuild_program : List (FStmt Nat Nat) :=
  sample_shared_program.map .run ++ [.fork_fails 1 (.bucket 0)]

end Kvfifo

/-!
## `src/07/functional.h`: `compose` and `lift`

The two function templates take a parameter pack of callables.  A pack is modelled by a
typed list: for `compose` a chain in which the result type of each function is the argument
type of the next, for `lift` a list of functions on one argument type.  Callables are taken
to be pure functions.
-/

namespace Functional

/-- The lambda `Detail::identity` (line 8). -/
def identity {α : Type} (x : α) : α := x

/-- A parameter pack `Fs...` whose functions can be chained: the first takes an `α`, each
next one takes what the one before returns, the last returns a `β`; the empty pack relates a
type to itself. -/
inductive Chain : Type → Type → Type 1 where
  | nil {α : Type} : Chain α α
  | cons {α β γ : Type} (f : α → β) (fs : Chain β γ) : Chain α γ

/-- The member `compose_helper::apply` (lines 37-51) at index `N`: `f` is
`std::get<N>(functions)` and `rest` the functions after it.  With nothing after it
(`N == comps - 1`) the result is `f(t)`, otherwise `apply` at `N + 1` on `f(t)`. -/
def compose_helper.apply {α β : Type} (f : α → β) : {γ : Type} → Chain β γ → α → γ
  | _, .nil, t => f t
  | _, .cons g rest, t => compose_helper.apply g rest (f t)

/-- The call operator of `compose_helper` (lines 27-30): `apply` at index 0. -/
def compose_helper.call {α β γ : Type} (f : α → β) (rest : Chain β γ) (t : α) : γ :=
  compose_helper.apply f rest t

/-- The function template `compose` (lines 59-69): `Detail::identity` for the empty pack, a
`compose_helper` over the pack otherwise. -/
def compose : {α β : Type} → Chain α β → α → β
  | _, _, .nil => identity
  | _, _, .cons f rest => compose_helper.call f rest

/-- The type of a callable taking arguments of the types `Ts...` in order and returning an
`R`. -/
def NAry : List Type → Type → Type
  | [], R => R
  | T :: Ts, R => T → NAry Ts R

/-- A parameter pack `fs...` of functions on one argument type `X`, the results being of the
types `Ts...`. -/
inductive Pack (X : Type) : List Type → Type 1 where
  | nil : Pack X []
  | cons {T : Type} {Ts : List Type} (f : X → T) (fs : Pack X Ts) : Pack X (T :: Ts)

/-- The call `h(fs(x)...)` (line 76): the pack expansion applies every function of the pack
to `x` and passes the results to `h` in pack order. -/
def expand_call {X R : Type} : {Ts : List Type} → NAry Ts R → Pack X Ts → X → R
  | _, h, .nil, _ => h
  | _, h, .cons f fs, x => expand_call (h (f x)) fs x

/-- The overload of `lift` with a pack (lines 74-77): the closure
`[=](auto x) { return h(fs(x)...); }`. -/
def lift {X R T : Type} {Ts : List Type} (h : NAry (T :: Ts) R) (fs : Pack X (T :: Ts)) :
    X → R :=
  fun x => expand_call h fs x

/-- The overload of `lift` without a pack (lines 79-82), selected for `lift(h)` as the more
specialised template: it returns `h`. -/
def lift_one {H : Type} (h : H) : H := h

/-! ### Packs built from lists, to state the general case -/

/-- The chain made of the functions of a list, all on one type. -/
def Chain.of_list {α : Type} : List (α → α) → Chain α α
  | [] => .nil
  | f :: l => .cons f (Chain.of_list l)

/-- A chain followed by one more function. -/
def Chain.snoc : {α β γ : Type} → Chain α β → (β → γ) → Chain α γ
  | _, _, _, .nil, g => .cons g .nil
  | _, _, _, .cons f fs, g => .cons f (Chain.snoc fs g)

/-- A chain followed by another. -/
def Chain.append : {α β γ : Type} → Chain α β → Chain β γ → Chain α γ
  | _, _, _, .nil, gs => gs
  | _, _, _, .cons f fs, gs => .cons f (Chain.append fs gs)

/-- The callable with `n` parameters of type `T` that passes its arguments, in order, as a
list to `H`. -/
def NAry.of_list {T R : Type} : (n : Nat) → (List T → R) → NAry (List.replicate n T) R
  | 0, H => H []
  | n + 1, H => fun t => NAry.of_list n (fun l => H (t :: l))

/-- The pack made of the functions of a list, all with one result type. -/
def Pack.of_list {X T : Type} : (l : List (X → T)) → Pack X (List.replicate l.length T)
  | [] => .nil
  | f :: l => .cons f (Pack.of_list l)

end Functional

/-!
## `src/03/moneybag.h`: the checked arithmetic of `Moneybag`

`coin_number_t` is `uint64_t` and `size_t` is taken to be 64 bits wide: both are natural
numbers below `2 ^ 64`, and `+`, `-`, `*` on them wrap around modulo `2 ^ 64`.  A compound
assignment operator is a function from the receiver and the argument to the outcome (normal
return or the exception thrown) and the receiver afterwards.  The argument is passed by
value: every read of the argument happens before the write of the same component, so an
argument that aliases the receiver behaves like a copy of it.
-/

namespace Money

/-- The number of values of `uint64_t`. -/
def UINT64_RANGE : Nat := 18446744073709551616

/-- The sum `a + b` of two `uint64_t`. -/
def add64 (a b : Nat) : Nat := (a + b) % UINT64_RANGE

/-- The difference `a - b` of two `uint64_t`. -/
def sub64 (a b : Nat) : Nat := (a + UINT64_RANGE - b) % UINT64_RANGE

/-- The product `a * b` of two `uint64_t`. -/
def mul64 (a b : Nat) : Nat := (a * b) % UINT64_RANGE

/-- The exception `std::out_of_range`. -/
inductive Exn where
  | out_of_range
deriving DecidableEq, Repr

/-- The data members of the class `Moneybag` (lines 13-15). -/
structure Moneybag where
  livre : Nat
  solidus : Nat
  denier : Nat
deriving DecidableEq, Repr

/-- Every data member is a value of `coin_number_t`. -/
def Moneybag.valid (m : Moneybag) : Prop :=
  m.livre < UINT64_RANGE ∧ m.solidus < UINT64_RANGE ∧ m.denier < UINT64_RANGE

/-- The operator `+=` (lines 32-41): the outcome and the receiver afterwards. -/
def Moneybag.add_assign (self moneybag : Moneybag) : Except Exn Unit × Moneybag :=
  if add64 self.livre moneybag.livre < self.livre ∨
      add64 self.solidus moneybag.solidus < self.solidus ∨
      add64 self.denier moneybag.denier < self.denier then
    (.error .out_of_range, self)
  else
    (.ok (), ⟨add64 self.livre moneybag.livre, add64 self.solidus moneybag.solidus,
      add64 self.denier moneybag.denier⟩)

/-- The operator `-=` (lines 43-52): the outcome and the receiver afterwards. -/
def Moneybag.sub_assign (self moneybag : Moneybag) : Except Exn Unit × Moneybag :=
  if sub64 self.livre moneybag.livre > self.livre ∨
      sub64 self.solidus moneybag.solidus > self.solidus ∨
      sub64 self.denier moneybag.denier > self.denier then
    (.error .out_of_range, self)
  else
    (.ok (), ⟨sub64 self.livre moneybag.livre, sub64 self.solidus moneybag.solidus,
      sub64 self.denier moneybag.denier⟩)

/-- The operator `*=` (lines 54-63): the outcome and the receiver afterwards.  The divisions
are evaluated only when `n != 0`. -/
def Moneybag.mul_assign (self : Moneybag) (n : Nat) : Except Exn Unit × Moneybag :=
  if n ≠ 0 ∧ (mul64 self.livre n / n ≠ self.livre ∨ mul64 self.solidus n / n ≠ self.solidus ∨
      mul64 self.denier n / n ≠ self.denier) then
    (.error .out_of_range, self)
  else
    (.ok (), ⟨mul64 self.livre n, mul64 self.solidus n, mul64 self.denier n⟩)

end Money

namespace Kvfifo

/-! ### Lemmas on the map -/

section MapLemmas

variable {K V : Type} [LinearOrder K]

theorem map_find_eq_none_of_lt {m : List (K × List Nat)} {k : K}
    (h : ∀ e ∈ m, k < e.1) : map_find m k = none := by
  induction m with
  | nil => rfl
  | cons e m ih =>
    obtain ⟨k', l⟩ := e
    have h1 : k < k' := h (k', l) (List.mem_cons_self _ _)
    simp only [map_find, if_neg (ne_of_lt h1)]
    exact ih (fun e he => h e (List.mem_cons_of_mem _ he))

theorem KeysSorted.tail {e : K × List Nat} {m : List (K × List Nat)}
    (h : KeysSorted (e :: m)) : KeysSorted m := by
  unfold KeysSorted at *
  simp only [List.map_cons, List.pairwise_cons] at h
  exact h.2

theorem KeysSorted.head_lt {e : K × List Nat} {m : List (K × List Nat)}
    (h : KeysSorted (e :: m)) : ∀ e' ∈ m, e.1 < e'.1 := by
  unfold KeysSorted at h
  simp only [List.map_cons, List.pairwise_cons, List.mem_map] at h
  intro e' he'
  exact h.1 e'.1 ⟨e', he', rfl⟩

theorem map_find_subscript {m : List (K × List Nat)} (hm : KeysSorted m) (k k' : K) :
    map_find (map_subscript m k) k' =
      if k' = k then some ((map_find m k).getD []) else map_find m k' := by
  induction m with
  | nil =>
    by_cases h : k' = k <;> simp [map_find, map_subscript, h]
  | cons e m ih =>
    obtain ⟨k0, l⟩ := e
    simp only [map_subscript]
    by_cases h1 : k < k0
    · have hnone : map_find ((k0, l) :: m) k = none := by
        apply map_find_eq_none_of_lt
        intro e he
        rcases List.mem_cons.1 he with rfl | he
        · exact h1
        · exact lt_trans h1 (hm.head_lt e he)
      rw [if_pos h1, hnone]
      by_cases h : k' = k
      · simp [map_find, h]
      · simp only [map_find, if_neg h]
    · rw [if_neg h1]
      by_cases h2 : k = k0
      · subst h2
        rw [if_pos rfl]
        by_cases h : k' = k
        · subst h; simp [map_find]
        · simp [map_find, h]
      · rw [if_neg h2]
        by_cases h : k' = k
        · subst h
          simp only [map_find, if_neg h2, if_pos]
          rw [ih hm.tail]; simp
        · by_cases h3 : k' = k0
          · subst h3
            simp [map_find, Ne.symm h2]
          · simp only [map_find, if_neg h3, if_neg h]
            rw [ih hm.tail, if_neg h]

theorem map_find_update (m : List (K × List Nat)) (f : List Nat → List Nat) (k k' : K) :
    map_find (map_update m k f) k' =
      if k' = k then (map_find m k).map f else map_find m k' := by
  induction m with
  | nil => simp [map_find, map_update]
  | cons e m ih =>
    obtain ⟨k0, l⟩ := e
    by_cases h2 : k = k0
    · subst h2
      by_cases h : k' = k
      · subst h; simp [map_find, map_update]
      · simp [map_find, map_update, h]
    · by_cases h : k' = k
      · subst h
        simp [map_find, map_update, h2, ih]
      · by_cases h3 : k' = k0
        · subst h3
          simp [map_find, map_update, h2, Ne.symm h2]
        · simp [map_find, map_update, h2, h3, ih, h]

theorem map_find_erase {m : List (K × List Nat)} (hm : KeysSorted m) (k k' : K) :
    map_find (map_erase m k) k' = if k' = k then none else map_find m k' := by
  induction m with
  | nil => simp [map_find, map_erase]
  | cons e m ih =>
    obtain ⟨k0, l⟩ := e
    by_cases h2 : k = k0
    · subst h2
      simp only [map_erase, if_pos]
      by_cases h : k' = k
      · subst h
        rw [if_pos rfl]
        exact map_find_eq_none_of_lt (fun e he => hm.head_lt e he)
      · simp [map_find, h]
    · simp only [map_erase, if_neg h2]
      by_cases h : k' = k
      · subst h
        simp [map_find, h2, ih hm.tail]
      · by_cases h3 : k' = k0
        · subst h3
          simp [map_find, Ne.symm h2]
        · simp [map_find, h3, ih hm.tail, h]

theorem keys_map_update (m : List (K × List Nat)) (f : List Nat → List Nat) (k : K) :
    (map_update m k f).map Prod.fst = m.map Prod.fst := by
  induction m with
  | nil => rfl
  | cons e m ih =>
    obtain ⟨k0, l⟩ := e
    by_cases h : k = k0 <;> simp [map_update, h, ih]

theorem KeysSorted.update {m : List (K × List Nat)} (hm : KeysSorted m)
    (f : List Nat → List Nat) (k : K) : KeysSorted (map_update m k f) := by
  unfold KeysSorted at *
  rw [keys_map_update]; exact hm

theorem mem_map_subscript {m : List (K × List Nat)} {k : K} {e : K × List Nat}
    (he : e ∈ map_subscript m k) : e ∈ m ∨ e.1 = k := by
  induction m with
  | nil =>
    simp only [map_subscript, List.mem_singleton] at he
    right; rw [he]
  | cons e0 m ih =>
    obtain ⟨k0, l⟩ := e0
    simp only [map_subscript] at he
    split_ifs at he with h1 h2
    · rcases List.mem_cons.1 he with rfl | he
      · right; rfl
      · left; exact he
    · left; exact he
    · rcases List.mem_cons.1 he with rfl | he
      · left; exact List.mem_cons_self _ _
      · rcases ih he with h | h
        · left; exact List.mem_cons_of_mem _ h
        · right; exact h

theorem KeysSorted.subscript {m : List (K × List Nat)} (hm : KeysSorted m) (k : K) :
    KeysSorted (map_subscript m k) := by
  induction m with
  | nil => simp [KeysSorted, map_subscript]
  | cons e0 m ih =>
    obtain ⟨k0, l⟩ := e0
    simp only [map_subscript]
    split_ifs with h1 h2
    · unfold KeysSorted
      simp only [List.map_cons, List.pairwise_cons]
      refine ⟨?_, ?_⟩
      · intro a ha
        rcases List.mem_cons.1 ha with rfl | ha
        · exact h1
        · obtain ⟨e, he, rfl⟩ := List.mem_map.1 ha
          exact lt_trans h1 (hm.head_lt e he)
      · exact List.pairwise_cons.1 hm
    · exact hm
    · unfold KeysSorted
      simp only [List.map_cons, List.pairwise_cons]
      refine ⟨?_, ih hm.tail⟩
      intro a ha
      obtain ⟨e, he, rfl⟩ := List.mem_map.1 ha
      rcases mem_map_subscript he with h | h
      · exact hm.head_lt e h
      · rw [h]
        exact lt_of_le_of_ne (not_lt.1 h1) (fun h' => h2 h'.symm)

theorem map_erase_sublist (m : List (K × List Nat)) (k : K) :
    List.Sublist (map_erase m k) m := by
  induction m with
  | nil => exact List.Sublist.refl _
  | cons e0 m ih =>
    obtain ⟨k0, l⟩ := e0
    simp only [map_erase]
    split_ifs with h
    · exact List.sublist_cons_self _ _
    · exact List.Sublist.cons₂ _ ih

theorem KeysSorted.erase {m : List (K × List Nat)} (hm : KeysSorted m) (k : K) :
    KeysSorted (map_erase m k) :=
  List.Pairwise.sublist ((map_erase_sublist m k).map Prod.fst) hm

theorem map_find_isSome_iff (m : List (K × List Nat)) (k : K) :
    (map_find m k).isSome ↔ k ∈ m.map Prod.fst := by
  induction m with
  | nil => simp [map_find]
  | cons e0 m ih =>
    obtain ⟨k0, l⟩ := e0
    by_cases h : k = k0
    · simp [map_find, h]
    · simp [map_find, h, ih]

end MapLemmas

/-! ### Lemmas on the queue -/

section QueueLemmas

variable {K V : Type} [LinearOrder K]

theorem find_node_of_mem {q : List (Node K V)} {it : Nat} (h : it ∈ q.map Node.addr) :
    ∃ n, find_node q it = some n ∧ n.addr = it ∧ n ∈ q := by
  induction q with
  | nil => simp at h
  | cons n q ih =>
    by_cases hn : n.addr = it
    · exact ⟨n, by simp [find_node, hn], hn, List.mem_cons_self _ _⟩
    · have h' : it ∈ q.map Node.addr := by
        rcases List.mem_cons.1 h with h | h
        · exact absurd h.symm hn
        · exact h
      obtain ⟨n', h1, h2, h3⟩ := ih h'
      exact ⟨n', by simp [find_node, hn, h1], h2, List.mem_cons_of_mem _ h3⟩

theorem find_node_some {q : List (Node K V)} {it : Nat} {n : Node K V}
    (h : find_node q it = some n) : n.addr = it ∧ n ∈ q := by
  induction q with
  | nil => simp [find_node] at h
  | cons n0 q ih =>
    by_cases hn : n0.addr = it
    · simp only [find_node, if_pos hn, Option.some.injEq] at h
      subst h
      exact ⟨hn, List.mem_cons_self _ _⟩
    · simp only [find_node, if_neg hn] at h
      exact ⟨(ih h).1, List.mem_cons_of_mem _ (ih h).2⟩

theorem find_node_append_of_not_mem {q0 : List (Node K V)} {it : Nat}
    (h : it ∉ q0.map Node.addr) (q : List (Node K V)) :
    find_node (q0 ++ q) it = find_node q it := by
  induction q0 with
  | nil => rfl
  | cons m q0 ih =>
    rw [List.map_cons, List.mem_cons, not_or] at h
    simp only [List.cons_append, find_node, if_neg (Ne.symm h.1)]
    exact ih h.2

theorem remove_node_append_of_not_mem {q0 : List (Node K V)} {it : Nat}
    (h : it ∉ q0.map Node.addr) (q : List (Node K V)) :
    remove_node (q0 ++ q) it = q0 ++ remove_node q it := by
  induction q0 with
  | nil => rfl
  | cons m q0 ih =>
    rw [List.map_cons, List.mem_cons, not_or] at h
    have e := ih h.2
    simp only [List.cons_append, remove_node, if_neg (Ne.symm h.1)]
    exact congrArg (List.cons m) e

theorem slots_of_cons (n : Node K V) (q : List (Node K V)) (k : K) :
    slots_of (n :: q) k = if n.key = k then n.addr :: slots_of q k else slots_of q k := by
  unfold slots_of
  by_cases h : n.key = k <;> simp [List.filter_cons, h]

theorem slots_of_append (q q' : List (Node K V)) (k : K) :
    slots_of (q ++ q') k = slots_of q k ++ slots_of q' k := by
  simp [slots_of]

theorem slots_of_subset (q : List (Node K V)) (k : K) :
    ∀ it ∈ slots_of q k, it ∈ q.map Node.addr := by
  intro it hit
  obtain ⟨n, hn, rfl⟩ := List.mem_map.1 hit
  exact List.mem_map.2 ⟨n, (List.mem_filter.1 hn).1, rfl⟩

theorem remove_node_sublist (q : List (Node K V)) (it : Nat) :
    List.Sublist (remove_node q it) q := by
  induction q with
  | nil => exact List.Sublist.refl _
  | cons n q ih =>
    simp only [remove_node]
    split_ifs with h
    · exact List.sublist_cons_self _ _
    · exact List.Sublist.cons₂ _ ih

/-- With distinct addresses, erasing the node at the first iterator of the bucket of `k`
erases the first node whose key is `k`. -/
theorem remove_node_first_slot {q : List (Node K V)} (hq : (q.map Node.addr).Nodup)
    {k : K} {it : Nat} {l : List Nat} (h : slots_of q k = it :: l) :
    remove_node q it = q.eraseP (fun n => decide (n.key = k)) := by
  induction q with
  | nil => simp [slots_of] at h
  | cons n q ih =>
    rw [slots_of_cons] at h
    by_cases hk : n.key = k
    · rw [if_pos hk] at h
      have : n.addr = it := (List.cons.inj h).1
      simp [remove_node, this, List.eraseP_cons, hk]
    · rw [if_neg hk] at h
      have hmem : it ∈ q.map Node.addr :=
        slots_of_subset q k it (by rw [h]; exact List.mem_cons_self _ _)
      rw [List.map_cons, List.nodup_cons] at hq
      have hne : n.addr ≠ it := fun e => hq.1 (e ▸ hmem)
      simp only [remove_node, if_neg hne, List.eraseP_cons, hk, decide_False, cond_false]
      rw [ih hq.2 h]

theorem slots_of_eraseP (q : List (Node K V)) (k k' : K) :
    slots_of (q.eraseP (fun n => decide (n.key = k))) k' =
      if k' = k then (slots_of q k).tail else slots_of q k' := by
  induction q with
  | nil => simp [slots_of]
  | cons n q ih =>
    by_cases hk : n.key = k
    · by_cases h : k' = k
      · subst h
        simp [List.eraseP_cons, hk, slots_of_cons]
      · subst hk
        simp [List.eraseP_cons, slots_of_cons, h, Ne.symm h]
    · by_cases h : k' = k
      · subst h
        simp [List.eraseP_cons, hk, slots_of_cons, ih]
      · simp [List.eraseP_cons, hk, slots_of_cons, ih, h]

theorem slots_of_move (q : List (Node K V)) (k k' : K) :
    slots_of (q.filter (fun n => decide (n.key ≠ k)) ++ q.filter (fun n => decide (n.key = k))) k'
      = slots_of q k' := by
  rw [slots_of_append]
  unfold slots_of
  simp only [List.filter_filter]
  by_cases h : k' = k
  · subst h
    have h1 : (q.filter (fun a => decide (a.key = k') && decide (a.key ≠ k'))) = [] := by
      apply List.filter_eq_nil_iff.2
      intro a _; simp
    have h2 : (q.filter (fun a => decide (a.key = k') && decide (a.key = k')))
        = q.filter (fun a => decide (a.key = k')) := by
      congr 1; funext a; simp
    rw [h1, h2]; simp
  · have h1 : (q.filter (fun a => decide (a.key = k') && decide (a.key = k))) = [] := by
      apply List.filter_eq_nil_iff.2
      intro a _
      simp only [Bool.and_eq_true, decide_eq_true_eq, not_and]
      intro e1 e2; exact h (e1 ▸ e2)
    have h2 : (q.filter (fun a => decide (a.key = k') && decide (a.key ≠ k)))
        = q.filter (fun a => decide (a.key = k')) := by
      apply List.filter_congr
      intro a _
      by_cases e : a.key = k'
      · subst e
        simp [h]
      · simp [e]
    rw [h1, h2]; simp

/-- The splices of `move_to_back`, started on `q1 ++ q2` with the iterators of the `k`-keyed
nodes of `q1`: the other nodes of `q1`, then `q2`, then the `k`-keyed nodes of `q1`. -/
theorem splice_all_gen (k : K) (q0 q1 q2 : List (Node K V))
    (hq : ((q0 ++ q1 ++ q2).map Node.addr).Nodup) (h0 : ∀ n ∈ q0, n.key ≠ k) :
    splice_all (q0 ++ q1 ++ q2) (slots_of q1 k) =
      some (q0 ++ q1.filter (fun n => decide (n.key ≠ k)) ++ q2 ++
        q1.filter (fun n => decide (n.key = k))) := by
  induction q1 generalizing q0 q2 with
  | nil => simp [slots_of, splice_all]
  | cons n q1 ih =>
    by_cases hk : n.key = k
    · have hnot : n.addr ∉ q0.map Node.addr := by
        intro hmem
        simp only [List.append_assoc, List.map_append, List.map_cons] at hq
        have := (List.nodup_append.1 hq).2.2
        exact this hmem (List.mem_cons_self _ _)
      have hfind : find_node (q0 ++ n :: q1 ++ q2) n.addr = some n := by
        rw [List.append_assoc, find_node_append_of_not_mem hnot]
        simp [find_node]
      have hrem : remove_node (q0 ++ n :: q1 ++ q2) n.addr = q0 ++ q1 ++ q2 := by
        rw [List.append_assoc, remove_node_append_of_not_mem hnot]
        simp [remove_node]
      rw [slots_of_cons, if_pos hk]
      simp only [splice_all, list_splice_end, hfind, hrem]
      have hq2 : ((q0 ++ q1 ++ (q2 ++ [n])).map Node.addr).Nodup := by
        have hp : List.Perm (q0 ++ q1 ++ (q2 ++ [n])) (q0 ++ n :: q1 ++ q2) := by
          simp only [List.append_assoc]
          apply List.Perm.append_left
          rw [← List.append_assoc]
          refine List.Perm.trans (List.perm_append_singleton n (q1 ++ q2)) ?_
          simp
        exact (List.Perm.nodup_iff (hp.map Node.addr)).2 hq
      have := ih q0 (q2 ++ [n]) hq2 h0
      simp only [List.append_assoc] at this ⊢
      rw [this]
      simp [List.filter_cons, hk]
    · rw [slots_of_cons, if_neg hk]
      have h0' : ∀ m ∈ q0 ++ [n], m.key ≠ k := by
        intro m hm
        rcases List.mem_append.1 hm with hm | hm
        · exact h0 m hm
        · rw [List.mem_singleton.1 hm]; exact hk
      have := ih (q0 ++ [n]) q2 (by simpa using hq) h0'
      simp only [List.append_assoc, List.singleton_append] at this ⊢
      rw [this]
      simp [List.filter_cons, hk]

theorem splice_all_slots {q : List (Node K V)} (hq : (q.map Node.addr).Nodup) (k : K) :
    splice_all q (slots_of q k) =
      some (q.filter (fun n => decide (n.key ≠ k)) ++ q.filter (fun n => decide (n.key = k))) := by
  have := splice_all_gen k [] q [] (by simpa using hq) (by simp)
  simpa using this

theorem move_perm (q : List (Node K V)) (k : K) :
    List.Perm (q.filter (fun n => decide (n.key ≠ k)) ++ q.filter (fun n => decide (n.key = k)))
      q := by
  have h := List.filter_append_perm (fun n : Node K V => decide (n.key = k)) q
  refine List.Perm.trans List.perm_append_comm ?_
  have e : (fun n : Node K V => decide (n.key ≠ k)) = (fun n => !(decide (n.key = k))) := by
    funext n; simp
  rw [e]
  exact h

theorem copy_nodes_pairs (a : Nat) (q : List (Node K V)) :
    (copy_nodes a q).map Node.pair = q.map Node.pair := by
  induction q generalizing a with
  | nil => rfl
  | cons n q ih => simp [copy_nodes, Node.pair, ih]

theorem copy_nodes_addrs (a : Nat) (q : List (Node K V)) :
    (copy_nodes a q).map Node.addr = List.range' a q.length := by
  induction q generalizing a with
  | nil => rfl
  | cons n q ih => simp [copy_nodes, List.range'_succ, ih]

theorem copy_nodes_length (a : Nat) (q : List (Node K V)) :
    (copy_nodes a q).length = q.length := by
  induction q generalizing a with
  | nil => rfl
  | cons n q ih => simp [copy_nodes, ih]

end QueueLemmas

/-! ### The method bodies keep the index invariant -/

section CellLemmas

variable {K V : Type} [LinearOrder K]

theorem IndexWF.find_eq {m : List (K × List Nat)} {q : List (Node K V)} (h : IndexWF m q)
    (k : K) : map_find m k = if slots_of q k = [] then none else some (slots_of q k) := by
  have hb := h.bucket k
  have hn := h.nonempty k
  cases hf : map_find m k with
  | none =>
    rw [hf] at hb
    simp only [Option.getD_none] at hb
    rw [if_pos hb.symm]
  | some l =>
    rw [hf] at hb hn
    simp only [Option.getD_some] at hb
    have : slots_of q k ≠ [] := by
      rw [← hb]; intro e; exact hn (by rw [e])
    rw [if_neg this, hb]

theorem IndexWF.of_find {m : List (K × List Nat)} {q : List (Node K V)} (hs : KeysSorted m)
    (h : ∀ k, map_find m k = if slots_of q k = [] then none else some (slots_of q k)) :
    IndexWF m q := by
  refine ⟨hs, ?_, ?_⟩
  · intro k
    rw [h k]
    by_cases e : slots_of q k = []
    · simp [e]
    · simp [e]
  · intro k
    rw [h k]
    by_cases e : slots_of q k = []
    · simp [e]
    · simp [e]

theorem IndexWF.empty_index : IndexWF ([] : List (K × List Nat)) ([] : List (Node K V)) :=
  IndexWF.of_find (by simp [KeysSorted]) (by intro k; simp [map_find, slots_of])

/-- One step of index maintenance at the back: `K_it_lists[k].push_back(it)` for a node
appended to the queue. -/
theorem IndexWF.push {m : List (K × List Nat)} {q : List (Node K V)} (h : IndexWF m q)
    (a : Nat) (k : K) (v : V) :
    IndexWF (map_update (map_subscript m k) k (· ++ [a])) (q ++ [⟨a, k, v⟩]) := by
  apply IndexWF.of_find ((h.sorted.subscript k).update _ k)
  intro k'
  rw [map_find_update, slots_of_append]
  by_cases e : k' = k
  · subst e
    have e1 : slots_of [(⟨a, k', v⟩ : Node K V)] k' = [a] := by simp [slots_of]
    rw [if_pos rfl, map_find_subscript h.sorted, if_pos rfl, h.bucket, e1]
    simp
  · rw [if_neg e, map_find_subscript h.sorted, if_neg e, h.find_eq]
    have : slots_of [(⟨a, k, v⟩ : Node K V)] k' = [] := by
      simp [slots_of, Ne.symm e]
    rw [this, List.append_nil]

/-- One step of index maintenance at the front of a bucket: `pop_front()` on the bucket of
`k`, the bucket being erased when it becomes empty. -/
theorem IndexWF.pop_slot {m : List (K × List Nat)} {q q' : List (Node K V)} (h : IndexWF m q)
    {k : K} {it : Nat} {l : List Nat} (hf : map_find m k = some (it :: l))
    (hq : ∀ k', slots_of q' k' = if k' = k then l else slots_of q k') :
    IndexWF (if l.isEmpty then map_erase (map_update m k List.tail) k
      else map_update m k List.tail) q' := by
  have hs := h.sorted.update List.tail k
  cases l with
  | nil =>
    simp only [List.isEmpty_nil, if_true]
    apply IndexWF.of_find (hs.erase k)
    intro k'
    rw [map_find_erase hs, hq]
    by_cases e : k' = k
    · simp [e]
    · rw [if_neg e, if_neg e, map_find_update, if_neg e, h.find_eq]
  | cons x l =>
    simp only [List.isEmpty_cons, Bool.false_eq_true, if_false]
    apply IndexWF.of_find hs
    intro k'
    rw [map_find_update, hq]
    by_cases e : k' = k
    · subst e
      simp [hf]
    · rw [if_neg e, if_neg e, h.find_eq]

theorem IndexWF.rebuild {m : List (K × List Nat)} {q0 : List (Node K V)} (h : IndexWF m q0)
    (q : List (Node K V)) : IndexWF (rebuild_from m q) (q0 ++ q) := by
  induction q generalizing m q0 with
  | nil => simpa [rebuild_from] using h
  | cons n q ih =>
    have := ih (h.push n.addr n.key n.val)
    simpa [rebuild_from] using this

theorem CellWF.nil : CellWF (⟨[], []⟩ : kv_struct K V) :=
  ⟨by simp, IndexWF.empty_index⟩

theorem CellWF.push_body {c : kv_struct K V} (h : CellWF c) {a : Nat}
    (ha : ∀ n ∈ c.K_V_queue, n.addr < a) (k : K) (v : V) : CellWF (c.push_body a k v) := by
  refine ⟨?_, h.index.push a k v⟩
  simp only [kv_struct.push_body, List.map_append, List.map_cons, List.map_nil]
  apply List.Nodup.append h.nodup (by simp)
  intro x hx hx'
  rw [List.mem_singleton] at hx'
  subst hx'
  obtain ⟨n, hn, e⟩ := List.mem_map.1 hx
  exact absurd e (ne_of_lt (ha n hn))

theorem push_body_queue (c : kv_struct K V) (a : Nat) (k : K) (v : V) :
    (c.push_body a k v).K_V_queue = c.K_V_queue ++ [⟨a, k, v⟩] := rfl

/-- The deep copy of a queue together with the rebuilt index is well-formed, whatever the
source looked like. -/
theorem CellWF.copy (a : Nat) (q : List (Node K V)) :
    CellWF (⟨copy_nodes a q, rebuild_from [] (copy_nodes a q)⟩ : kv_struct K V) := by
  refine ⟨?_, ?_⟩
  · simp only [copy_nodes_addrs]
    exact List.nodup_range' _ _
  · simpa using (IndexWF.empty_index (K := K) (V := V)).rebuild (copy_nodes a q)

theorem pop_body_nil {c : kv_struct K V} (h : c.K_V_queue = []) :
    c.pop_body = some (.error .invalid_argument) := by
  simp [kv_struct.pop_body, h]

theorem CellWF.pop_body {c : kv_struct K V} (h : CellWF c) {n : Node K V}
    {q : List (Node K V)} (hq : c.K_V_queue = n :: q) :
    ∃ c', c.pop_body = some (.ok c') ∧ c'.K_V_queue = q ∧ CellWF c' := by
  obtain ⟨qq, m⟩ := c
  simp only at hq
  subst hq
  have hf : map_find m n.key = some (n.addr :: slots_of q n.key) := by
    rw [h.index.find_eq, slots_of_cons, if_pos rfl]
    simp
  have hn := h.nodup
  simp only [List.map_cons, List.nodup_cons] at hn
  refine ⟨_, by simp only [kv_struct.pop_body, hf]; rfl, rfl, hn.2, ?_⟩
  apply h.index.pop_slot hf
  intro k'
  rw [slots_of_cons]
  by_cases e : k' = n.key
  · subst e; simp
  · simp [e, Ne.symm e]

theorem pop_key_body_none {c : kv_struct K V} {k : K} (h : map_find c.K_it_lists k = none) :
    c.pop_key_body k = some (.error .invalid_argument) := by
  simp [kv_struct.pop_key_body, h]

theorem CellWF.pop_key_body {c : kv_struct K V} (h : CellWF c) {k : K}
    (hk : map_find c.K_it_lists k ≠ none) :
    ∃ c', c.pop_key_body k = some (.ok c') ∧
      c'.K_V_queue = c.K_V_queue.eraseP (fun n => decide (n.key = k)) ∧ CellWF c' := by
  obtain ⟨q, m⟩ := c
  simp only at hk
  have hfe := h.index.find_eq k
  simp only at hfe
  cases hs : slots_of q k with
  | nil => rw [hs] at hfe; simp at hfe; exact absurd hfe hk
  | cons it l =>
    rw [hs] at hfe
    simp only [reduceCtorEq, if_false] at hfe
    have hmem : it ∈ q.map Node.addr :=
      slots_of_subset q k it (by rw [hs]; exact List.mem_cons_self _ _)
    obtain ⟨n, hfn, -, -⟩ := find_node_of_mem hmem
    have hrem := remove_node_first_slot h.nodup hs
    refine ⟨⟨q.eraseP (fun n => decide (n.key = k)),
      if l.isEmpty then map_erase (map_update m k List.tail) k else map_update m k List.tail⟩,
      ?_, rfl, ?_, ?_⟩
    · simp only [kv_struct.pop_key_body, hfe, list_erase, hfn, hrem]
    · exact List.Nodup.sublist ((List.eraseP_sublist q).map Node.addr) h.nodup
    · apply h.index.pop_slot hfe
      intro k'
      rw [slots_of_eraseP, hs]
      rfl

theorem move_to_back_body_none {c : kv_struct K V} {k : K}
    (h : map_find c.K_it_lists k = none) :
    c.move_to_back_body k = some (.error .invalid_argument) := by
  simp [kv_struct.move_to_back_body, h]

theorem CellWF.move_to_back_body {c : kv_struct K V} (h : CellWF c) {k : K}
    (hk : map_find c.K_it_lists k ≠ none) :
    ∃ c', c.move_to_back_body k = some (.ok c') ∧
      c'.K_V_queue = c.K_V_queue.filter (fun n => decide (n.key ≠ k)) ++
        c.K_V_queue.filter (fun n => decide (n.key = k)) ∧
      c'.K_it_lists = c.K_it_lists ∧ CellWF c' := by
  obtain ⟨q, m⟩ := c
  simp only at hk
  have hfe := h.index.find_eq k
  simp only at hfe
  have hf : map_find m k = some (slots_of q k) := by
    by_cases e : slots_of q k = []
    · rw [if_pos e] at hfe; exact absurd hfe hk
    · rw [if_neg e] at hfe; exact hfe
  refine ⟨⟨_, m⟩, ?_, rfl, rfl, ?_, ?_⟩
  · simp only [kv_struct.move_to_back_body, hf, splice_all_slots h.nodup k]
  · exact (List.Perm.nodup_iff ((move_perm q k).map Node.addr)).2 h.nodup
  · apply IndexWF.of_find h.index.sorted
    intro k'
    rw [slots_of_move]
    exact h.index.find_eq k'

end CellLemmas

/-! ### Objects, shared pointers and forks -/

section WorldLemmas

variable {K V : Type} [LinearOrder K]

theorem obj_eq_some {w : World K V} {i : Nat} {o : kvfifo} :
    w.obj i = some o ↔ w.objs[i]? = some (some o) := by
  unfold World.obj
  cases h : w.objs[i]? with
  | none => simp
  | some x => cases x <;> simp

theorem obj_lt_length {w : World K V} {i : Nat} {o : kvfifo} (h : w.obj i = some o) :
    i < w.objs.length := by
  rw [obj_eq_some] at h
  exact (List.getElem?_eq_some.1 h).1

theorem obj_set_obj (w : World K V) (i j : Nat) (o : kvfifo) :
    (w.set_obj i o).obj j =
      if i = j then (if i < w.objs.length then some o else none) else w.obj j := by
  unfold World.obj World.set_obj
  simp only [List.getElem?_set]
  split_ifs <;> simp

theorem obj_set_cell (w : World K V) (a : Nat) (c : kv_struct K V) (j : Nat) :
    (w.set_cell a c).obj j = w.obj j := rfl

theorem cell_eq {w : World K V} {i a : Nat} {o : kvfifo} (ho : w.obj i = some o)
    (hp : o.p = some a) : w.cell i = w.heap[a]? := by
  simp [World.cell, ho, hp]

theorem cell_some {w : World K V} {i : Nat} {c : kv_struct K V} (h : w.cell i = some c) :
    ∃ o a, w.obj i = some o ∧ o.p = some a ∧ w.heap[a]? = some c := by
  unfold World.cell at h
  cases ho : w.obj i with
  | none => simp [ho] at h
  | some o =>
    cases hp : o.p with
    | none => simp [ho, hp] at h
    | some a =>
      simp only [ho, hp] at h
      exact ⟨o, a, rfl, hp, h⟩

theorem countP_one_unique {α : Type} (P : α → Bool) :
    ∀ (l : List α) (i j : Nat) (x y : α), l.countP P = 1 → l[i]? = some x → P x = true →
      l[j]? = some y → P y = true → j = i
  | [], i, _, _, _, _, hi, _, _, _ => by simp at hi
  | x0 :: xs, 0, 0, _, _, _, _, _, _, _ => rfl
  | x0 :: xs, 0, j + 1, x, y, h, hi, hx, hj, hy => by
    simp only [List.getElem?_cons_zero, Option.some.injEq] at hi
    subst hi
    simp only [List.getElem?_cons_succ] at hj
    have hpos : 0 < xs.countP P := List.countP_pos_iff.2 ⟨y, List.getElem?_mem hj, hy⟩
    rw [List.countP_cons_of_pos _ _ hx] at h
    omega
  | x0 :: xs, i + 1, 0, x, y, h, hi, hx, hj, hy => by
    simp only [List.getElem?_cons_zero, Option.some.injEq] at hj
    subst hj
    simp only [List.getElem?_cons_succ] at hi
    have hpos : 0 < xs.countP P := List.countP_pos_iff.2 ⟨x, List.getElem?_mem hi, hx⟩
    rw [List.countP_cons_of_pos _ _ hy] at h
    omega
  | x0 :: xs, i + 1, j + 1, x, y, h, hi, hx, hj, hy => by
    simp only [List.getElem?_cons_succ] at hi hj
    have hpos : 0 < xs.countP P := List.countP_pos_iff.2 ⟨x, List.getElem?_mem hi, hx⟩
    have h1 : xs.countP P = 1 := by
      by_cases h0 : P x0 = true
      · rw [List.countP_cons_of_pos _ _ h0] at h; omega
      · rw [List.countP_cons_of_neg _ _ h0] at h; exact h
    rw [countP_one_unique P xs i j x y h1 hi hx hj hy]

/-- A shared pointer whose `use_count()` is 1 has a single owner. -/
theorem sole_owner_of_use_count {w : World K V} {i a : Nat} {o : kvfifo}
    (h : w.use_count (some a) = 1) (ho : w.obj i = some o) (hp : o.p = some a) :
    w.sole_owner i a := by
  intro j o' ho' hp'
  rw [obj_eq_some] at ho ho'
  exact countP_one_unique _ w.objs i j (some o) (some o') h ho
    (by simp [hp]) ho' (by simp [hp'])

theorem WorldWF.init : WorldWF (World.init : World K V) := by
  refine ⟨?_, ?_, ?_⟩
  · intro c hc; simp [World.init] at hc
  · intro c hc; simp [World.init] at hc
  · intro i o a ho; simp [World.init, World.obj] at ho

theorem WorldWF.cell_wf {w : World K V} (hw : WorldWF w) {a : Nat} {c : kv_struct K V}
    (h : w.heap[a]? = some c) : CellWF c ∧ ∀ n ∈ c.K_V_queue, n.addr < w.next :=
  ⟨hw.cells c (List.getElem?_mem h), hw.below c (List.getElem?_mem h)⟩

theorem WorldWF.heap_some {w : World K V} (hw : WorldWF w) {i a : Nat} {o : kvfifo}
    (ho : w.obj i = some o) (hp : o.p = some a) : ∃ c, w.heap[a]? = some c := by
  have := hw.valid i o a ho hp
  exact ⟨w.heap[a], List.getElem?_eq_getElem this⟩

/-- Changing the members of an object keeps the state well-formed when the new `p` is null or
designates a `kv_struct` of the heap. -/
theorem WorldWF.set_obj {w : World K V} (hw : WorldWF w) (i : Nat) {o : kvfifo}
    (ho : ∀ a, o.p = some a → a < w.heap.length) : WorldWF (w.set_obj i o) := by
  refine ⟨hw.cells, hw.below, ?_⟩
  intro j o' a hj hp
  rw [obj_set_obj] at hj
  split_ifs at hj with h1 h2
  · simp only [Option.some.injEq] at hj
    subst hj
    exact ho a hp
  · exact hw.valid j o' a hj hp

/-- Replacing a `kv_struct` by a well-formed one made of known nodes keeps the state
well-formed. -/
theorem WorldWF.set_cell {w : World K V} (hw : WorldWF w) (a : Nat) {c : kv_struct K V}
    (hc : CellWF c) (hb : ∀ n ∈ c.K_V_queue, n.addr < w.next) : WorldWF (w.set_cell a c) := by
  refine ⟨?_, ?_, ?_⟩
  · intro c' hc'
    rcases List.mem_or_eq_of_mem_set hc' with h | h
    · exact hw.cells c' h
    · rw [h]; exact hc
  · intro c' hc'
    rcases List.mem_or_eq_of_mem_set hc' with h | h
    · exact hw.below c' h
    · rw [h]; exact hb
  · intro j o' a' hj hp
    have := hw.valid j o' a' hj hp
    simpa [World.set_cell] using this

theorem WorldWF.next_le {w : World K V} (hw : WorldWF w) {n : Nat} (h : w.next ≤ n) :
    WorldWF ({ w with next := n } : World K V) := by
  refine ⟨hw.cells, ?_, hw.valid⟩
  intro c hc x hx
  exact lt_of_lt_of_le (hw.below c hc x hx) h

/-- The state left by a successful `p_deep_copy`. -/
theorem p_deep_copy_spec {w : World K V} (hw : WorldWF w) {i a : Nat} {o : kvfifo}
    {c : kv_struct K V} (ho : w.obj i = some o) (hc : w.heap[a]? = some c) :
    ∃ w1 c1, w.p_deep_copy i (some a) = some w1 ∧ WorldWF w1 ∧
      w1.obj i = some ⟨some w.heap.length, o.v_refs_active⟩ ∧
      w1.heap[w.heap.length]? = some c1 ∧ c1.entries = c.entries ∧
      w1.sole_owner i w.heap.length ∧ (∀ j, j ≠ i → w1.obj j = w.obj j) ∧
      (∀ b, b < w.heap.length → w1.heap[b]? = w.heap[b]?) ∧
      w1.objs.length = w.objs.length ∧ w1.heap.length = w.heap.length + 1 := by
  have hi := obj_lt_length ho
  let q := copy_nodes w.next c.K_V_queue
  let c1 : kv_struct K V := ⟨q, rebuild_from [] q⟩
  let w1 : World K V :=
    { heap := w.heap ++ [c1]
      objs := w.objs.set i (some { o with p := some w.heap.length })
      next := w.next + q.length }
  have hobj : ∀ j, w1.obj j = if i = j then some ⟨some w.heap.length, o.v_refs_active⟩
      else w.obj j := by
    intro j
    have := obj_set_obj w i j { o with p := some w.heap.length }
    simp only [hi, if_true] at this
    exact this
  refine ⟨w1, c1, ?_, ?_, ?_, ?_, ?_, ?_, ?_, ?_, ?_, ?_⟩
  · simp only [World.p_deep_copy, ho, hc]
  · refine ⟨?_, ?_, ?_⟩
    · intro c' hc'
      rcases List.mem_append.1 hc' with h | h
      · exact hw.cells c' h
      · rw [List.mem_singleton.1 h]; exact CellWF.copy _ _
    · intro c' hc' n hn
      rcases List.mem_append.1 hc' with h | h
      · exact lt_of_lt_of_le (hw.below c' h n hn) (Nat.le_add_right _ _)
      · rw [List.mem_singleton.1 h] at hn
        have hm : n.addr ∈ (copy_nodes w.next c.K_V_queue).map Node.addr :=
          List.mem_map.2 ⟨n, hn, rfl⟩
        rw [copy_nodes_addrs, List.mem_range'_1] at hm
        show n.addr < w.next + (copy_nodes w.next c.K_V_queue).length
        rw [copy_nodes_length]
        exact hm.2
    · intro j o' a' hj hp
      rw [hobj] at hj
      show a' < (w.heap ++ [c1]).length
      rw [List.length_append, List.length_singleton]
      split_ifs at hj with h1
      · simp only [Option.some.injEq] at hj
        subst hj
        simp only [Option.some.injEq] at hp
        omega
      · exact Nat.lt_succ_of_lt (hw.valid j o' a' hj hp)
  · rw [hobj, if_pos rfl]
  · exact List.getElem?_concat_length _ _
  · simp only [kv_struct.entries]
    exact copy_nodes_pairs _ _
  · intro j o' hj hp
    rw [hobj] at hj
    split_ifs at hj with h1
    · exact h1.symm
    · exact absurd (hw.valid j o' _ hj hp) (lt_irrefl _)
  · intro j hj
    rw [hobj, if_neg (Ne.symm hj)]
  · intro b hb
    exact List.getElem?_append_left hb
  · simp [w1]
  · simp [w1]

/-- The state left by `p_copy_if_shared` on a live object with a non-null `p`. -/
theorem p_copy_if_shared_spec {w : World K V} (hw : WorldWF w) {i a : Nat} {o : kvfifo}
    {c : kv_struct K V} (ho : w.obj i = some o) (hp : o.p = some a)
    (hc : w.heap[a]? = some c) :
    ∃ w1 a1 c1, w.p_copy_if_shared i = some w1 ∧ Forked w w1 i o c a1 c1 := by
  by_cases hcond : w.use_count o.p ≠ 1 ∨ o.v_refs_active = true
  · obtain ⟨w1, c1, h1, h2, h3, h4, h5, h6, h7, h8, h9, -⟩ := p_deep_copy_spec hw ho hc
    refine ⟨w1, w.heap.length, c1, ?_, ⟨h2, h3, h4, h5, h6, h7, h8, Or.inr rfl, h9⟩⟩
    simp only [World.p_copy_if_shared, ho, if_pos hcond]
    rw [hp]; exact h1
  · have hu : w.use_count (some a) = 1 := by
      rw [not_or, not_not, hp] at hcond
      exact hcond.1
    have hf : o.v_refs_active = false := by
      rw [not_or] at hcond
      simpa using hcond.2
    refine ⟨w, a, c, ?_, ⟨hw, ?_, hc, rfl, sole_owner_of_use_count hu ho hp,
      fun _ _ => rfl, fun _ _ => rfl, Or.inl ⟨rfl, rfl⟩, rfl⟩⟩
    · simp only [World.p_copy_if_shared, ho, if_neg hcond]
    · rw [ho]
      cases o with
      | mk p f =>
        simp only at hp hf
        subst hp; subst hf
        rfl

end WorldLemmas

/-! ### The const methods in terms of the entry sequence -/

section ObserverLemmas

variable {K V : Type} [LinearOrder K]

theorem filter_pairs (q : List (Node K V)) (k : K) :
    (q.map Node.pair).filter (fun e => decide (e.1 = k)) =
      (q.filter (fun n => decide (n.key = k))).map Node.pair := by
  induction q with
  | nil => rfl
  | cons n q ih =>
    by_cases h : n.key = k <;> simp [List.filter_cons, Node.pair, h] at ih ⊢ <;> exact ih

theorem filter_pairs_ne (q : List (Node K V)) (k : K) :
    (q.map Node.pair).filter (fun e => decide (e.1 ≠ k)) =
      (q.filter (fun n => decide (n.key ≠ k))).map Node.pair := by
  induction q with
  | nil => rfl
  | cons n q ih =>
    by_cases h : n.key = k <;> simp [List.filter_cons, Node.pair, h] at ih ⊢ <;> exact ih

theorem eraseP_pairs (q : List (Node K V)) (k : K) :
    (q.map Node.pair).eraseP (fun e => decide (e.1 = k)) =
      (q.eraseP (fun n => decide (n.key = k))).map Node.pair := by
  induction q with
  | nil => rfl
  | cons n q ih =>
    by_cases h : n.key = k
    · simp [List.eraseP_cons, Node.pair, h]
    · simp [List.eraseP_cons, Node.pair, h] at ih ⊢
      exact ih

theorem any_pairs (q : List (Node K V)) (k : K) :
    (q.map Node.pair).any (fun e => decide (e.1 = k)) = true ↔ slots_of q k ≠ [] := by
  induction q with
  | nil => simp [slots_of]
  | cons n q ih =>
    rw [slots_of_cons]
    by_cases h : n.key = k
    · simp [Node.pair, h]
    · simp only [List.map_cons, List.any_cons, Node.pair, h, decide_False, Bool.false_or,
        if_false]
      exact ih

theorem slots_of_length (q : List (Node K V)) (k : K) :
    (slots_of q k).length = ((q.map Node.pair).filter (fun e => decide (e.1 = k))).length := by
  rw [filter_pairs]; simp [slots_of]

theorem CellWF.find_ne_none_iff {c : kv_struct K V} (h : CellWF c) (k : K) :
    map_find c.K_it_lists k ≠ none ↔ c.entries.any (fun e => decide (e.1 = k)) = true := by
  rw [h.index.find_eq, kv_struct.entries, any_pairs]
  by_cases e : slots_of c.K_V_queue k = [] <;> simp [e]

theorem CellWF.count_eq {c : kv_struct K V} (h : CellWF c) (k : K) :
    c.count k = (c.entries.filter (fun e => decide (e.1 = k))).length := by
  rw [kv_struct.count, h.index.find_eq, kv_struct.entries, ← slots_of_length]
  by_cases e : slots_of c.K_V_queue k = [] <;> simp [e]

theorem find_node_of_nodup {q : List (Node K V)} (hq : (q.map Node.addr).Nodup)
    {n : Node K V} (hn : n ∈ q) : find_node q n.addr = some n := by
  induction q with
  | nil => simp at hn
  | cons m q ih =>
    rw [List.map_cons, List.nodup_cons] at hq
    rcases List.mem_cons.1 hn with rfl | hn
    · simp [find_node]
    · have hne : m.addr ≠ n.addr := by
        intro e
        exact hq.1 (e ▸ List.mem_map.2 ⟨n, hn, rfl⟩)
      simp only [find_node, if_neg hne]
      exact ih hq.2 hn

/-- The method `first(k) const` returns the first entry with key `k` of the sequence, and throws
when there is none. -/
theorem CellWF.first_eq {c : kv_struct K V} (h : CellWF c) (k : K) :
    c.first k = some (match (c.entries.filter (fun e => decide (e.1 = k))).head? with
      | none => .error .invalid_argument
      | some e => .ok e) := by
  rw [kv_struct.entries, filter_pairs]
  unfold kv_struct.first kv_struct.first_node
  rw [h.index.find_eq]
  cases hf : c.K_V_queue.filter (fun n => decide (n.key = k)) with
  | nil =>
    simp only [slots_of, hf, List.map_nil, if_true, List.head?_nil, Option.map_some']
    rfl
  | cons n l =>
    have hn : n ∈ c.K_V_queue :=
      (List.mem_filter.1 (by rw [hf]; exact List.mem_cons_self _ _)).1
    have hs : slots_of c.K_V_queue k = n.addr :: l.map Node.addr := by simp [slots_of, hf]
    rw [hs]
    simp only [reduceCtorEq, if_false, find_node_of_nodup h.nodup hn]
    rfl

/-- The method `last(k) const` returns the last entry with key `k` of the sequence, and throws
when there is none. -/
theorem CellWF.last_eq {c : kv_struct K V} (h : CellWF c) (k : K) :
    c.last k = some (match (c.entries.filter (fun e => decide (e.1 = k))).getLast? with
      | none => .error .invalid_argument
      | some e => .ok e) := by
  rw [kv_struct.entries, filter_pairs]
  unfold kv_struct.last kv_struct.last_node
  rw [h.index.find_eq]
  cases hl : (c.K_V_queue.filter (fun n => decide (n.key = k))).getLast? with
  | none =>
    rw [List.getLast?_eq_none_iff] at hl
    simp only [slots_of, hl, List.map_nil, if_true, List.getLast?_nil, Option.map_some']
    rfl
  | some n =>
    have hn : n ∈ c.K_V_queue := (List.mem_filter.1 (List.mem_of_getLast?_eq_some hl)).1
    have hs : (slots_of c.K_V_queue k).getLast? = some n.addr := by
      simp [slots_of, List.getLast?_map, hl]
    have hne : slots_of c.K_V_queue k ≠ [] := by
      intro e; rw [e] at hs; simp at hs
    simp only [if_neg hne, hs, find_node_of_nodup h.nodup hn, List.getLast?_map, hl]
    rfl

theorem front_eq (c : kv_struct K V) :
    c.front = match c.entries.head? with
      | none => .error .invalid_argument
      | some e => .ok e := by
  unfold kv_struct.front kv_struct.entries
  cases c.K_V_queue <;> rfl

theorem back_eq (c : kv_struct K V) :
    c.back = match c.entries.getLast? with
      | none => .error .invalid_argument
      | some e => .ok e := by
  unfold kv_struct.back kv_struct.entries
  rw [List.getLast?_map]
  cases c.K_V_queue.getLast? <;> rfl

theorem size_eq (c : kv_struct K V) : c.size = c.entries.length := by
  simp [kv_struct.size, kv_struct.entries]

theorem empty_eq (c : kv_struct K V) : c.empty = c.entries.isEmpty := by
  unfold kv_struct.empty kv_struct.entries
  cases c.K_V_queue <;> rfl

theorem CellWF.keys_sorted {c : kv_struct K V} (h : CellWF c) : c.keys.Pairwise (· < ·) :=
  h.index.sorted

theorem CellWF.mem_keys {c : kv_struct K V} (h : CellWF c) (k : K) :
    k ∈ c.keys ↔ c.entries.any (fun e => decide (e.1 = k)) = true := by
  rw [← h.find_ne_none_iff, kv_struct.keys, ← map_find_isSome_iff, Option.isSome_iff_ne_none]

/-- Two well-formed `kv_struct`s with the same entries answer every const method alike. -/
theorem CellWF.observers_eq {c c' : kv_struct K V} (h : CellWF c) (h' : CellWF c')
    (he : c.entries = c'.entries) :
    c.size = c'.size ∧ c.empty = c'.empty ∧ c.front = c'.front ∧ c.back = c'.back ∧
      (∀ k, c.count k = c'.count k) ∧ (∀ k, c.first k = c'.first k) ∧
      (∀ k, c.last k = c'.last k) ∧ c.keys = c'.keys := by
  refine ⟨by rw [size_eq, size_eq, he], by rw [empty_eq, empty_eq, he],
    by rw [front_eq, front_eq, he], by rw [back_eq, back_eq, he],
    fun k => by rw [h.count_eq, h'.count_eq, he], fun k => by rw [h.first_eq, h'.first_eq, he],
    fun k => by rw [h.last_eq, h'.last_eq, he], ?_⟩
  apply List.eq_of_perm_of_sorted (r := (· < ·)) ?_ h.keys_sorted h'.keys_sorted
  apply (List.perm_ext_iff_of_nodup h.keys_sorted.nodup h'.keys_sorted.nodup).2
  intro k
  rw [h.mem_keys, h'.mem_keys, he]

end ObserverLemmas

/-! ### The mutating methods on a well-formed state -/

section MutatorLemmas

variable {K V : Type} [LinearOrder K]

/-- After the fork, object `i` works on its own `kv_struct`: replacing that `kv_struct` and
the flag of `i` touches no other object. -/
theorem Forked.post {w w1 w2 : World K V} {i a1 : Nat} {o : kvfifo} {c c1 c2 : kv_struct K V}
    {fl : Bool} (hw : WorldWF w) (hf : Forked w w1 i o c a1 c1)
    (hheap : ∀ b, w2.heap[b]? = if b = a1 then some c2 else w1.heap[b]?)
    (hlen : w2.heap.length = w1.heap.length)
    (hobjs : ∀ j, j ≠ i → w2.obj j = w1.obj j) (hobj : w2.obj i = some ⟨some a1, fl⟩)
    (hnext : w1.next ≤ w2.next) (hc2 : CellWF c2)
    (hb : ∀ n ∈ c2.K_V_queue, n.addr < w2.next) :
    Post w w2 i c2.entries fl := by
  have ha1 : a1 < w1.heap.length := (List.getElem?_eq_some.1 hf.cell_i).1
  have hmem : ∀ c', c' ∈ w2.heap → c' = c2 ∨ c' ∈ w1.heap := by
    intro c' hc'
    obtain ⟨b, hb'⟩ := List.mem_iff_getElem?.1 hc'
    rw [hheap] at hb'
    split_ifs at hb' with e
    · left; exact (Option.some.inj hb').symm
    · right; exact List.getElem?_mem hb'
  refine ⟨⟨?_, ?_, ?_⟩, ?_, ?_, ⟨a1, ?_, ?_⟩, ?_⟩
  · intro c' hc'
    rcases hmem c' hc' with h | h
    · rw [h]; exact hc2
    · exact hf.wf.cells c' h
  · intro c' hc' n hn
    rcases hmem c' hc' with h | h
    · rw [h] at hn; exact hb n hn
    · exact lt_of_lt_of_le (hf.wf.below c' h n hn) hnext
  · intro j o' a' hj hp
    rw [hlen]
    by_cases e : j = i
    · subst e
      rw [hobj] at hj
      simp only [Option.some.injEq] at hj
      subst hj
      simp only [Option.some.injEq] at hp
      omega
    · rw [hobjs j e] at hj
      exact hf.wf.valid j o' a' hj hp
  · simp only [World.entries, cell_eq hobj rfl, hheap, if_true, Option.map_some']
  · rw [hobj]; rfl
  · rw [hobj]; rfl
  · intro j o' hj hp
    by_contra e
    rw [hobjs j e] at hj
    exact e (hf.sole j o' hj hp)
  · intro j hj
    have ho : w2.obj j = w.obj j := by rw [hobjs j hj, hf.others j hj]
    refine ⟨ho, ?_⟩
    cases hoj : w.obj j with
    | none => simp [World.cell, ho, hoj]
    | some oj =>
      cases hpj : oj.p with
      | none => simp [World.cell, ho, hoj, hpj]
      | some b =>
        have hne : b ≠ a1 := by
          intro e
          have h1 : w1.obj j = some oj := by rw [hf.others j hj, hoj]
          exact hj (hf.sole j oj h1 (by rw [hpj, e]))
        rw [cell_eq (ho.trans hoj) hpj, cell_eq hoj hpj, hheap, if_neg hne]
        exact hf.heap b (hw.valid j oj b hoj hpj)

/-- The state left by the fork alone, as after a call that throws. -/
theorem Forked.post_same {w w1 : World K V} {i a1 : Nat} {o : kvfifo} {c c1 : kv_struct K V}
    (hw : WorldWF w) (hf : Forked w w1 i o c a1 c1) :
    Post w w1 i c.entries o.v_refs_active := by
  rw [← hf.entries]
  apply hf.post hw
  · intro b
    split_ifs with e
    · rw [e]; exact hf.cell_i
    · rfl
  · rfl
  · exact fun _ _ => rfl
  · exact hf.obj_i
  · exact le_refl _
  · exact (hf.wf.cell_wf hf.cell_i).1
  · exact (hf.wf.cell_wf hf.cell_i).2

theorem heap_set_cell (w : World K V) (a : Nat) (c : kv_struct K V)
    (ha : a < w.heap.length) (b : Nat) :
    (w.set_cell a c).heap[b]? = if b = a then some c else w.heap[b]? := by
  simp only [World.set_cell, List.getElem?_set]
  by_cases e : a = b
  · subst e; simp [ha]
  · simp [e, Ne.symm e]

theorem push_spec {w : World K V} (hw : WorldWF w) {i : Nat} {c : kv_struct K V}
    (hc : w.cell i = some c) (k : K) (v : V) :
    ∃ w', w.push i k v = some (.ok (), w') ∧ Post w w' i (c.entries ++ [(k, v)]) false := by
  obtain ⟨o, a, ho, hp, hh⟩ := cell_some hc
  obtain ⟨w1, a1, c1, h1, hf⟩ := p_copy_if_shared_spec hw ho hp hh
  have hcell : w1.cell i = some c1 := by rw [cell_eq hf.obj_i rfl]; exact hf.cell_i
  have ha1 : a1 < w1.heap.length := (List.getElem?_eq_some.1 hf.cell_i).1
  have hi : i < w1.objs.length := obj_lt_length hf.obj_i
  have hwf1 := hf.wf.cell_wf hf.cell_i
  refine ⟨_, (by simp only [World.push, h1, hf.obj_i, hcell]; rfl), ?_⟩
  have he : (c1.push_body w1.next k v).entries = c.entries ++ [(k, v)] := by
    rw [← hf.entries]
    simp [kv_struct.entries, kv_struct.push_body, Node.pair]
  rw [← he]
  apply hf.post hw
  · intro b
    exact heap_set_cell w1 a1 _ ha1 b
  · simp [World.set_obj, World.set_cell]
  · intro j hj
    rw [obj_set_obj, if_neg (Ne.symm hj)]
    rfl
  · rw [obj_set_obj, if_pos rfl]
    simp [World.set_cell, hi]
  · simp [World.set_obj]
  · exact hwf1.1.push_body hwf1.2 k v
  · intro n hn
    show n.addr < w1.next + 1
    rw [push_body_queue] at hn
    rcases List.mem_append.1 hn with h | h
    · exact Nat.lt_succ_of_lt (hwf1.2 n h)
    · rw [List.mem_singleton.1 h]; exact Nat.lt_succ_self _

/-- A call of `pop()`, `pop(k)` or `move_to_back(k)` whose `try` block returns. -/
theorem mutate_ok {w : World K V} (hw : WorldWF w) {i : Nat} {c : kv_struct K V}
    (hc : w.cell i = some c) (body : kv_struct K V → Option (Except Err (kv_struct K V)))
    (s' : List (K × V))
    (hbody : ∀ c1, CellWF c1 → c1.entries = c.entries →
      ∃ c2, body c1 = some (.ok c2) ∧ CellWF c2 ∧ (∀ n ∈ c2.K_V_queue, n ∈ c1.K_V_queue) ∧
        c2.entries = s') :
    ∃ w', w.mutate i body = some (.ok (), w') ∧ Post w w' i s' false := by
  obtain ⟨o, a, ho, hp, hh⟩ := cell_some hc
  obtain ⟨w1, a1, c1, h1, hf⟩ := p_copy_if_shared_spec hw ho hp hh
  have hcell : w1.cell i = some c1 := by rw [cell_eq hf.obj_i rfl]; exact hf.cell_i
  have ha1 : a1 < w1.heap.length := (List.getElem?_eq_some.1 hf.cell_i).1
  have hi : i < w1.objs.length := obj_lt_length hf.obj_i
  have hwf1 := hf.wf.cell_wf hf.cell_i
  obtain ⟨c2, hb, hc2, hsub, he⟩ := hbody c1 hwf1.1 hf.entries
  refine ⟨_, (by simp only [World.mutate, h1, hf.obj_i, hcell, hb]; rfl), ?_⟩
  rw [← he]
  apply hf.post hw
  · intro b
    exact heap_set_cell w1 a1 _ ha1 b
  · simp [World.set_obj, World.set_cell]
  · intro j hj
    rw [obj_set_obj, if_neg (Ne.symm hj)]
    rfl
  · rw [obj_set_obj, if_pos rfl]
    simp [World.set_cell, hi]
  · simp [World.set_obj, World.set_cell]
  · exact hc2
  · intro n hn
    exact hwf1.2 n (hsub n hn)

/-- A call of `pop()`, `pop(k)` or `move_to_back(k)` whose `try` block throws. -/
theorem mutate_error {w : World K V} (hw : WorldWF w) {i : Nat} {c : kv_struct K V}
    (hc : w.cell i = some c) (body : kv_struct K V → Option (Except Err (kv_struct K V)))
    (e : Err) (hbody : ∀ c1, CellWF c1 → c1.entries = c.entries → body c1 = some (.error e)) :
    ∃ w' fl, w.mutate i body = some (.error e, w') ∧
      (w.obj i).map kvfifo.v_refs_active = some fl ∧ Post w w' i c.entries fl := by
  obtain ⟨o, a, ho, hp, hh⟩ := cell_some hc
  obtain ⟨w1, a1, c1, h1, hf⟩ := p_copy_if_shared_spec hw ho hp hh
  have hcell : w1.cell i = some c1 := by rw [cell_eq hf.obj_i rfl]; exact hf.cell_i
  have hwf1 := hf.wf.cell_wf hf.cell_i
  have hb := hbody c1 hwf1.1 hf.entries
  refine ⟨w1, o.v_refs_active, by simp only [World.mutate, h1, hf.obj_i, hcell, hb],
    by rw [ho]; rfl, hf.post_same hw⟩

theorem clear_spec {w : World K V} (hw : WorldWF w) {i : Nat} {c : kv_struct K V}
    (hc : w.cell i = some c) :
    ∃ w' fl, w.clear i = some (.ok (), w') ∧
      (w.obj i).map kvfifo.v_refs_active = some fl ∧ Post w w' i [] fl := by
  obtain ⟨o, a, ho, hp, hh⟩ := cell_some hc
  obtain ⟨w1, a1, c1, h1, hf⟩ := p_copy_if_shared_spec hw ho hp hh
  have hcell : w1.cell i = some c1 := by rw [cell_eq hf.obj_i rfl]; exact hf.cell_i
  have ha1 : a1 < w1.heap.length := (List.getElem?_eq_some.1 hf.cell_i).1
  refine ⟨_, o.v_refs_active, (by simp only [World.clear, h1, hf.obj_i, hcell]; rfl),
    by rw [ho]; rfl, ?_⟩
  have he : (c1.clear_body).entries = ([] : List (K × V)) := rfl
  rw [← he]
  apply hf.post hw
  · intro b
    exact heap_set_cell w1 a1 _ ha1 b
  · simp [World.set_cell]
  · intro j _; rfl
  · exact hf.obj_i
  · exact le_refl _
  · exact CellWF.nil
  · intro n hn
    simp [kv_struct.clear_body] at hn

theorem entries_eq_nil {c : kv_struct K V} (h : c.entries = []) : c.K_V_queue = [] := by
  simpa [kv_struct.entries] using h

theorem entries_eq_cons {c : kv_struct K V} {e : K × V} {s : List (K × V)}
    (h : c.entries = e :: s) :
    ∃ n q, c.K_V_queue = n :: q ∧ n.pair = e ∧ q.map Node.pair = s := by
  unfold kv_struct.entries at h
  cases hq : c.K_V_queue with
  | nil => rw [hq] at h; simp at h
  | cons n q =>
    rw [hq] at h
    simp only [List.map_cons, List.cons.injEq] at h
    exact ⟨n, q, rfl, h.1, h.2⟩

/-- Every mutating method acts on the entry sequence of its own object as `MutOp.spec` says,
and on nothing else. -/
theorem apply_spec {w : World K V} (hw : WorldWF w) {i : Nat} {s : List (K × V)}
    (hs : w.entries i = some s) (op : MutOp K V) :
    ∃ r w' fl, w.apply i op = some (r, w') ∧ r = (op.spec s).map (fun _ => ()) ∧
      Post w w' i (op.after s) fl := by
  unfold World.entries at hs
  cases hc : w.cell i with
  | none => rw [hc] at hs; simp at hs
  | some c =>
    rw [hc] at hs
    simp only [Option.map_some', Option.some.injEq] at hs
    subst hs
    cases op with
    | push k v =>
      obtain ⟨w', h1, h2⟩ := push_spec hw hc k v
      exact ⟨_, w', false, h1, rfl, h2⟩
    | clear =>
      obtain ⟨w', fl, h1, -, h2⟩ := clear_spec hw hc
      exact ⟨_, w', fl, h1, rfl, h2⟩
    | pop =>
      cases he : c.entries with
      | nil =>
        obtain ⟨w', fl, h1, -, h2⟩ := mutate_error hw hc kv_struct.pop_body .invalid_argument
          (fun c1 _ h => pop_body_nil (entries_eq_nil (h.trans he)))
        refine ⟨_, w', fl, h1, rfl, ?_⟩
        rw [he] at h2
        exact h2
      | cons e s =>
        obtain ⟨w', h1, h2⟩ := mutate_ok hw hc kv_struct.pop_body s (by
          intro c1 hwf h
          obtain ⟨n, q, hq, -, hqs⟩ := entries_eq_cons (h.trans he)
          obtain ⟨c2, hb, hq2, hwf2⟩ := hwf.pop_body hq
          refine ⟨c2, hb, hwf2, ?_, ?_⟩
          · intro x hx
            rw [hq2] at hx; rw [hq]
            exact List.mem_cons_of_mem _ hx
          · rw [kv_struct.entries, hq2, hqs])
        exact ⟨_, w', false, h1, rfl, h2⟩
    | pop_key k =>
      by_cases hk : c.entries.any (fun e => decide (e.1 = k)) = true
      · obtain ⟨w', h1, h2⟩ := mutate_ok hw hc (fun c => c.pop_key_body k)
          (c.entries.eraseP (fun e => decide (e.1 = k))) (by
          intro c1 hwf h
          obtain ⟨c2, hb, hq2, hwf2⟩ := hwf.pop_key_body
            ((hwf.find_ne_none_iff k).2 (by rw [h]; exact hk))
          refine ⟨c2, hb, hwf2, ?_, ?_⟩
          · intro x hx
            rw [hq2] at hx
            exact (List.eraseP_sublist _).subset hx
          · rw [kv_struct.entries, hq2, ← eraseP_pairs, ← h]; rfl)
        refine ⟨_, w', false, h1, by simp [MutOp.spec, hk, Except.map], ?_⟩
        simpa [MutOp.after, MutOp.spec, hk] using h2
      · obtain ⟨w', fl, h1, -, h2⟩ := mutate_error hw hc (fun c => c.pop_key_body k)
          .invalid_argument (by
          intro c1 hwf h
          apply pop_key_body_none
          by_contra hne
          exact hk (by rw [← h]; exact (hwf.find_ne_none_iff k).1 hne))
        refine ⟨_, w', fl, h1, by simp [MutOp.spec, hk, Except.map], ?_⟩
        simpa [MutOp.after, MutOp.spec, hk] using h2
    | move_to_back k =>
      by_cases hk : c.entries.any (fun e => decide (e.1 = k)) = true
      · obtain ⟨w', h1, h2⟩ := mutate_ok hw hc (fun c => c.move_to_back_body k)
          (c.entries.filter (fun e => decide (e.1 ≠ k)) ++
            c.entries.filter (fun e => decide (e.1 = k))) (by
          intro c1 hwf h
          obtain ⟨c2, hb, hq2, -, hwf2⟩ := hwf.move_to_back_body
            ((hwf.find_ne_none_iff k).2 (by rw [h]; exact hk))
          refine ⟨c2, hb, hwf2, ?_, ?_⟩
          · intro x hx
            rw [hq2] at hx
            exact (move_perm _ k).subset hx
          · rw [kv_struct.entries, hq2, List.map_append, ← filter_pairs, ← filter_pairs_ne, ← h]
            rfl)
        refine ⟨_, w', false, h1, by simp [MutOp.spec, hk, Except.map], ?_⟩
        simpa [MutOp.after, MutOp.spec, hk] using h2
      · obtain ⟨w', fl, h1, -, h2⟩ := mutate_error hw hc (fun c => c.move_to_back_body k)
          .invalid_argument (by
          intro c1 hwf h
          apply move_to_back_body_none
          by_contra hne
          exact hk (by rw [← h]; exact (hwf.find_ne_none_iff k).1 hne))
        refine ⟨_, w', fl, h1, by simp [MutOp.spec, hk, Except.map], ?_⟩
        simpa [MutOp.after, MutOp.spec, hk] using h2

end MutatorLemmas

/-! ### Constructors, destructor and assignment -/

section LifetimeLemmas

variable {K V : Type} [LinearOrder K]

/-- A state with the same heap and allocator whose non-null pointers are valid is
well-formed. -/
theorem WorldWF.of_objs {w w' : World K V} (hw : WorldWF w) (hh : w'.heap = w.heap)
    (hn : w'.next = w.next)
    (hv : ∀ j o a, w'.obj j = some o → o.p = some a → a < w.heap.length) : WorldWF w' := by
  refine ⟨?_, ?_, ?_⟩
  · rw [hh]; exact hw.cells
  · rw [hh, hn]; exact hw.below
  · rw [hh]; exact hv

theorem obj_append_left {w : World K V} (x : Option kvfifo) {j : Nat}
    (hj : j < w.objs.length) :
    ({ w with objs := w.objs ++ [x] } : World K V).obj j = w.obj j := by
  simp only [World.obj, List.getElem?_append_left hj]

theorem obj_append_length (w : World K V) (x : Option kvfifo) :
    ({ w with objs := w.objs ++ [x] } : World K V).obj w.objs.length = x := by
  simp only [World.obj, List.getElem?_concat_length]
  rfl

theorem obj_append_ge {w : World K V} (x : Option kvfifo) {j : Nat}
    (hj : w.objs.length < j) :
    ({ w with objs := w.objs ++ [x] } : World K V).obj j = none := by
  have : (w.objs ++ [x])[j]? = none := by
    apply List.getElem?_eq_none
    simp only [List.length_append, List.length_singleton]
    omega
  simp only [World.obj, this]
  rfl

theorem obj_of_ge {w : World K V} {j : Nat} (hj : w.objs.length ≤ j) : w.obj j = none := by
  simp only [World.obj, List.getElem?_eq_none hj]
  rfl

theorem WorldWF.append_obj {w : World K V} (hw : WorldWF w) {x : Option kvfifo}
    (hx : ∀ o a, x = some o → o.p = some a → a < w.heap.length) :
    WorldWF ({ w with objs := w.objs ++ [x] } : World K V) := by
  refine hw.of_objs ?_ ?_ ?_
  · rfl
  · rfl
  intro j o a hj hp
  rcases Nat.lt_trichotomy j w.objs.length with h | h | h
  · rw [obj_append_left x h] at hj
    exact hw.valid j o a hj hp
  · rw [h, obj_append_length] at hj
    exact hx o a hj hp
  · rw [obj_append_ge x h] at hj
    simp at hj

theorem WorldWF.ctor {w : World K V} (hw : WorldWF w) : WorldWF w.ctor := by
  have h1 : WorldWF ({ w with heap := w.heap ++ [⟨[], []⟩] } : World K V) := by
    refine ⟨?_, ?_, ?_⟩
    · intro c hc
      rcases List.mem_append.1 hc with h | h
      · exact hw.cells c h
      · rw [List.mem_singleton.1 h]; exact CellWF.nil
    · intro c hc n hn
      rcases List.mem_append.1 hc with h | h
      · exact hw.below c h n hn
      · rw [List.mem_singleton.1 h] at hn; simp at hn
    · intro j o a hj hp
      have := hw.valid j o a hj hp
      simp only [List.length_append, List.length_singleton]
      omega
  have h2 := h1.append_obj (x := some ⟨some w.heap.length, false⟩) (by
    intro o a ho hp
    simp only [Option.some.injEq] at ho
    subst ho
    simp only [Option.some.injEq] at hp
    simp only [List.length_append, List.length_singleton]
    omega)
  exact h2

theorem ctor_entries (w : World K V) : w.ctor.entries w.objs.length = some [] := by
  have ho : w.ctor.obj w.objs.length = some ⟨some w.heap.length, false⟩ := by
    simp only [World.ctor, World.obj, List.getElem?_concat_length]
    rfl
  unfold World.entries
  rw [cell_eq ho rfl]
  simp [World.ctor, kv_struct.entries]

/-- The state left by the copy constructor: the new object, at index `w.objs.length`, has the
flag cleared and holds a `kv_struct` with the entries of the source, which is the source's own
`kv_struct` when the source's flag is off and a new one when it is on; nothing else
changes. -/
theorem ctor_copy_spec {w : World K V} (hw : WorldWF w) {j a : Nat} {other : kvfifo}
    {c : kv_struct K V} (ho : w.obj j = some other) (hp : other.p = some a)
    (hc : w.heap[a]? = some c) :
    ∃ w' a' c', w.ctor_copy j = some w' ∧ WorldWF w' ∧
      w'.objs.length = w.objs.length + 1 ∧
      w'.obj w.objs.length = some ⟨some a', false⟩ ∧
      w'.heap[a']? = some c' ∧ c'.entries = c.entries ∧
      (∀ i, i < w.objs.length → w'.obj i = w.obj i) ∧
      (∀ b, b < w.heap.length → w'.heap[b]? = w.heap[b]?) ∧
      ((other.v_refs_active = true ∧ a' = w.heap.length) ∨
        (other.v_refs_active = false ∧ a' = a ∧ w'.heap = w.heap)) := by
  let w1 : World K V := { w with objs := w.objs ++ [some ⟨none, false⟩] }
  have hw1 : WorldWF w1 := hw.append_obj (by
    intro o a ho hp
    simp only [Option.some.injEq] at ho
    subst ho
    simp at hp)
  have hnew : w1.obj w.objs.length = some ⟨none, false⟩ := obj_append_length w _
  have hlen1 : w1.objs.length = w.objs.length + 1 := by simp [w1]
  by_cases hfl : other.v_refs_active = true
  · obtain ⟨w2, c2, h1, h2, h3, h4, h5, h6, h7, h8, h9, h10⟩ :=
      p_deep_copy_spec hw1 hnew (a := a) (c := c) hc
    have hset : w2.set_obj w.objs.length ⟨(w2.obj w.objs.length).bind kvfifo.p, false⟩ = w2 := by
      have hx : w2.objs[w.objs.length]? = some (some ⟨some w.heap.length, false⟩) :=
        obj_eq_some.1 h3
      rw [h3]
      simp only [World.set_obj, Option.bind]
      have : w2.objs.set w.objs.length (some ⟨some w.heap.length, false⟩) = w2.objs := by
        apply List.ext_getElem? 
        intro n
        rw [List.getElem?_set]
        split_ifs with e1 e2
        · rw [← e1, hx]
        · rw [← e1]
          exact (List.getElem?_eq_none (not_lt.1 e2)).symm
        · rfl
      rw [this]
    refine ⟨w2, w.heap.length, c2, ?_, h2, ?_, h3, h4, h5, ?_, h8, Or.inl ⟨hfl, rfl⟩⟩
    · simp only [World.ctor_copy, ho, if_pos hfl, hp]
      have h1' : World.p_deep_copy
          ({ w with objs := w.objs ++ [some ⟨none, false⟩] } : World K V) w.objs.length
          (some a) = some w2 := h1
      rw [h1']
      simp only [hset]
    · rw [h9, hlen1]
    · intro i hi
      rw [h7 i (ne_of_lt hi)]
      exact obj_append_left _ hi
  · have hfl' : other.v_refs_active = false := by simpa using hfl
    have ha : a < w.heap.length := hw.valid j other a ho hp
    have hobj : ∀ i, (w1.set_obj w.objs.length ⟨other.p, false⟩).obj i =
        if w.objs.length = i then some ⟨other.p, false⟩ else w1.obj i := by
      intro i
      rw [obj_set_obj]
      simp [hlen1]
    refine ⟨w1.set_obj w.objs.length ⟨other.p, false⟩, a, c, ?_, ?_, ?_, ?_, hc, rfl, ?_,
      fun _ _ => rfl, Or.inr ⟨hfl', rfl, rfl⟩⟩
    · simp only [World.ctor_copy, ho, if_neg hfl]
    · apply hw1.set_obj
      intro a' ha'
      rw [hp] at ha'
      simp only [Option.some.injEq] at ha'
      rw [← ha']; exact ha
    · simp [World.set_obj, w1]
    · rw [hobj, if_pos rfl, hp]
    · intro i hi
      rw [hobj, if_neg (ne_of_gt hi)]
      exact obj_append_left _ hi

theorem WorldWF.ctor_copy {w w' : World K V} (hw : WorldWF w) {j : Nat}
    (h : w.ctor_copy j = some w') : WorldWF w' := by
  cases ho : w.obj j with
  | none => simp [World.ctor_copy, ho] at h
  | some other =>
    cases hp : other.p with
    | some a =>
      obtain ⟨c, hc⟩ := hw.heap_some ho hp
      obtain ⟨w2, a', c', h1, h2, -⟩ := ctor_copy_spec hw ho hp hc
      rw [h1] at h
      simp only [Option.some.injEq] at h
      rw [← h]; exact h2
    | none =>
      have hw1 : WorldWF ({ w with objs := w.objs ++ [some ⟨none, false⟩] } : World K V) :=
        hw.append_obj (by
          intro o a ho hp
          simp only [Option.some.injEq] at ho
          subst ho
          simp at hp)
      simp only [World.ctor_copy, ho, hp] at h
      split_ifs at h with hfl
      · simp [World.p_deep_copy] at h
      · simp only [Option.some.injEq] at h
        rw [← h]
        apply hw1.set_obj
        intro a ha
        simp at ha

theorem WorldWF.ctor_move {w w' : World K V} (hw : WorldWF w) {j : Nat}
    (h : w.ctor_move j = some w') : WorldWF w' := by
  cases ho : w.obj j with
  | none => simp [World.ctor_move, ho] at h
  | some other =>
    simp only [World.ctor_move, ho, Option.some.injEq] at h
    rw [← h]
    have h1 : WorldWF (w.set_obj j { other with p := none }) :=
      hw.set_obj j (by intro a ha; simp at ha)
    exact h1.append_obj (by
      intro o a hx hp
      simp only [Option.some.injEq] at hx
      subst hx
      exact hw.valid j other a ho hp)

theorem obj_set_none (w : World K V) (i j : Nat) :
    ({ w with objs := w.objs.set i none } : World K V).obj j =
      if i = j then none else w.obj j := by
  simp only [World.obj, List.getElem?_set]
  split_ifs <;> simp

theorem WorldWF.dtor {w w' : World K V} (hw : WorldWF w) {i : Nat}
    (h : w.dtor i = some w') : WorldWF w' := by
  cases ho : w.obj i with
  | none => simp [World.dtor, ho] at h
  | some o =>
    simp only [World.dtor, ho, Option.some.injEq] at h
    rw [← h]
    refine hw.of_objs ?_ ?_ ?_
    · rfl
    · rfl
    intro j o' a hj hp
    rw [obj_set_none] at hj
    split_ifs at hj
    exact hw.valid j o' a hj hp

theorem WorldWF.assign_body {w w' : World K V} (hw : WorldWF w) {i t : Nat}
    (h : w.assign_body i t = some w') : WorldWF w' := by
  cases ho : w.obj i with
  | none => simp [World.assign_body, ho] at h
  | some o =>
    cases hot : w.obj t with
    | none => simp [World.assign_body, ho, hot] at h
    | some other =>
      simp only [World.assign_body, ho, hot] at h
      refine WorldWF.dtor (hw.set_obj i ?_) h
      intro a ha
      exact hw.valid t other a hot ha

theorem WorldWF.assign {w w' : World K V} (hw : WorldWF w) {i j : Nat}
    (h : w.assign i j = some w') : WorldWF w' := by
  unfold World.assign at h
  cases ho : w.obj i with
  | none => simp [ho] at h
  | some o =>
    cases hc : w.ctor_copy j with
    | none => simp [ho, hc] at h
    | some w1 =>
      simp only [ho, hc] at h
      exact (hw.ctor_copy hc).assign_body h

theorem WorldWF.assign_move {w w' : World K V} (hw : WorldWF w) {i j : Nat}
    (h : w.assign_move i j = some w') : WorldWF w' := by
  unfold World.assign_move at h
  cases ho : w.obj i with
  | none => simp [ho] at h
  | some o =>
    cases hc : w.ctor_move j with
    | none => simp [ho, hc] at h
    | some w1 =>
      simp only [ho, hc] at h
      exact (hw.ctor_move hc).assign_body h

end LifetimeLemmas

/-! ### Non-const accessors, writes through references, reachable states -/

section AccessLemmas

variable {K V : Type} [LinearOrder K]

/-- On an object that is dead or holds a null `p`, `p_copy_if_shared` is undefined. -/
theorem p_copy_if_shared_none {w : World K V} (hw : WorldWF w) {i : Nat}
    (hc : w.cell i = none) : w.p_copy_if_shared i = none := by
  cases ho : w.obj i with
  | none => simp [World.p_copy_if_shared, ho]
  | some o =>
    cases hp : o.p with
    | none => simp [World.p_copy_if_shared, ho, hp, World.use_count, World.p_deep_copy]
    | some a =>
      obtain ⟨c, hc'⟩ := hw.heap_some ho hp
      rw [cell_eq ho hp, hc'] at hc
      simp at hc

theorem WorldWF.apply {w w' : World K V} (hw : WorldWF w) {i : Nat} {op : MutOp K V}
    {r : Except Err Unit} (h : w.apply i op = some (r, w')) : WorldWF w' := by
  cases hc : w.cell i with
  | none =>
    have hn := p_copy_if_shared_none hw hc
    cases op <;>
      simp [World.apply, World.push, World.pop, World.pop_key, World.move_to_back,
        World.clear, World.mutate, hn] at h
  | some c =>
    have hs : w.entries i = some c.entries := by rw [World.entries, hc]; rfl
    obtain ⟨r', w'', fl, h1, -, h2⟩ := apply_spec hw hs op
    rw [h1] at h
    simp only [Option.some.injEq, Prod.mk.injEq] at h
    rw [← h.2]; exact h2.wf

/-- A non-const accessor that finds its node: the fork, then the flag is set and a reference
into the object's own `kv_struct` is returned. -/
theorem access_ok {w : World K V} (hw : WorldWF w) {i : Nat} {c : kv_struct K V}
    (hc : w.cell i = some c) (sel : kv_struct K V → Option (Except Err (Node K V)))
    (hsel : ∀ c1, CellWF c1 → c1.entries = c.entries → ∃ n, sel c1 = some (.ok n)) :
    ∃ w' a1 c1 n, w.access i sel = some (.ok (n.key, ⟨a1, n.addr⟩), w') ∧
      Post w w' i c.entries true ∧ w'.obj i = some ⟨some a1, true⟩ ∧
      w'.heap[a1]? = some c1 ∧ c1.entries = c.entries ∧ CellWF c1 ∧ sel c1 = some (.ok n) := by
  obtain ⟨o, a, ho, hp, hh⟩ := cell_some hc
  obtain ⟨w1, a1, c1, h1, hf⟩ := p_copy_if_shared_spec hw ho hp hh
  have hcell : w1.cell i = some c1 := by rw [cell_eq hf.obj_i rfl]; exact hf.cell_i
  have hi : i < w1.objs.length := obj_lt_length hf.obj_i
  have hwf1 := hf.wf.cell_wf hf.cell_i
  obtain ⟨n, hn⟩ := hsel c1 hwf1.1 hf.entries
  have hobj : (w1.set_obj i ⟨some a1, true⟩).obj i = some ⟨some a1, true⟩ := by
    rw [obj_set_obj, if_pos rfl, if_pos hi]
  refine ⟨_, a1, c1, n, (by simp only [World.access, h1, hf.obj_i, hcell, hn]), ?_,
    hobj, hf.cell_i, hf.entries, hwf1.1, hn⟩
  rw [← hf.entries]
  apply hf.post hw
  · intro b
    split_ifs with e
    · rw [e]; exact hf.cell_i
    · rfl
  · rfl
  · intro j hj
    rw [obj_set_obj, if_neg (Ne.symm hj)]
  · exact hobj
  · exact le_refl _
  · exact hwf1.1
  · exact hwf1.2

/-- A non-const accessor that throws: the fork stays, the flag keeps its value. -/
theorem access_error {w : World K V} (hw : WorldWF w) {i : Nat} {c : kv_struct K V}
    (hc : w.cell i = some c) (sel : kv_struct K V → Option (Except Err (Node K V)))
    (e : Err) (hsel : ∀ c1, CellWF c1 → c1.entries = c.entries → sel c1 = some (.error e)) :
    ∃ w' fl, w.access i sel = some (.error e, w') ∧
      (w.obj i).map kvfifo.v_refs_active = some fl ∧ Post w w' i c.entries fl := by
  obtain ⟨o, a, ho, hp, hh⟩ := cell_some hc
  obtain ⟨w1, a1, c1, h1, hf⟩ := p_copy_if_shared_spec hw ho hp hh
  have hcell : w1.cell i = some c1 := by rw [cell_eq hf.obj_i rfl]; exact hf.cell_i
  have hwf1 := hf.wf.cell_wf hf.cell_i
  have hb := hsel c1 hwf1.1 hf.entries
  exact ⟨w1, o.v_refs_active, by simp only [World.access, h1, hf.obj_i, hcell, hb],
    by rw [ho]; rfl, hf.post_same hw⟩

theorem WorldWF.access {w w' : World K V} (hw : WorldWF w) {i : Nat}
    {sel : kv_struct K V → Option (Except Err (Node K V))} {r : Except Err (K × Ref)}
    (h : w.access i sel = some (r, w')) : WorldWF w' := by
  cases hc : w.cell i with
  | none => simp [World.access, p_copy_if_shared_none hw hc] at h
  | some c =>
    obtain ⟨o, a, ho, hp, hh⟩ := cell_some hc
    obtain ⟨w1, a1, c1, h1, hf⟩ := p_copy_if_shared_spec hw ho hp hh
    have hcell : w1.cell i = some c1 := by rw [cell_eq hf.obj_i rfl]; exact hf.cell_i
    simp only [World.access, h1, hf.obj_i, hcell] at h
    cases hs : sel c1 with
    | none => simp [hs] at h
    | some x =>
      cases x with
      | error e =>
        simp only [hs, Option.some.injEq, Prod.mk.injEq] at h
        rw [← h.2]; exact hf.wf
      | ok n =>
        simp only [hs, Option.some.injEq, Prod.mk.injEq] at h
        rw [← h.2]
        apply hf.wf.set_obj
        intro a' ha'
        simp only [Option.some.injEq] at ha'
        rw [← ha']
        exact (List.getElem?_eq_some.1 hf.cell_i).1

/-- The queue after an assignment through a reference to the value of the node at `it`. -/
theorem slots_of_write (q : List (Node K V)) (it : Nat) (v : V) (k : K) :
    slots_of (write_node q it v) k = slots_of q k := by
  induction q with
  | nil => rfl
  | cons n q ih =>
    unfold write_node at ih ⊢
    rw [List.map_cons, slots_of_cons, slots_of_cons, ih]
    by_cases e : n.addr = it <;> simp [e]

theorem addrs_write (q : List (Node K V)) (it : Nat) (v : V) :
    (write_node q it v).map Node.addr = q.map Node.addr := by
  induction q with
  | nil => rfl
  | cons n q ih =>
    unfold write_node at ih ⊢
    rw [List.map_cons, List.map_cons, List.map_cons, ih]
    by_cases e : n.addr = it <;> simp [e]

theorem CellWF.written {c : kv_struct K V} (h : CellWF c) (it : Nat) (v : V) :
    CellWF { c with K_V_queue := write_node c.K_V_queue it v } := by
  refine ⟨?_, h.index.sorted, ?_, h.index.nonempty⟩
  · simp only [addrs_write]; exact h.nodup
  · intro k
    simp only [slots_of_write]
    exact h.index.bucket k

theorem WorldWF.write {w w' : World K V} (hw : WorldWF w) {r : Ref} {v : V}
    (h : w.write r v = some w') : WorldWF w' := by
  unfold World.write at h
  split_ifs at h with hu
  cases hc : w.heap[r.cell]? with
  | none => simp [hc] at h
  | some c =>
    cases hn : find_node c.K_V_queue r.node with
    | none => simp [hc, hn] at h
    | some n =>
      simp only [hc, hn, Option.some.injEq] at h
      rw [← h]
      have hwf := hw.cell_wf hc
      apply hw.set_cell _ (hwf.1.written r.node v)
      intro x hx
      have : x.addr ∈ (write_node c.K_V_queue r.node v).map Node.addr :=
        List.mem_map.2 ⟨x, hx, rfl⟩
      rw [addrs_write] at this
      obtain ⟨y, hy, e⟩ := List.mem_map.1 this
      rw [← e]; exact hwf.2 y hy

theorem WorldWF.step {w w' : World K V} (hw : WorldWF w) {s : Stmt K V}
    (h : w.step s = some w') : WorldWF w' := by
  cases s with
  | ctor =>
    simp only [World.step, Option.some.injEq] at h
    rw [← h]; exact hw.ctor
  | ctor_copy j => exact hw.ctor_copy h
  | ctor_move j => exact hw.ctor_move h
  | dtor i => exact hw.dtor h
  | assign i j => exact hw.assign h
  | assign_move i j => exact hw.assign_move h
  | call i op =>
    simp only [World.step, Option.map_eq_some'] at h
    obtain ⟨⟨r, w''⟩, h1, h2⟩ := h
    simp only at h2
    rw [← h2]; exact hw.apply h1
  | front i =>
    simp only [World.step, Option.map_eq_some'] at h
    obtain ⟨⟨r, w''⟩, h1, h2⟩ := h
    simp only at h2
    rw [← h2]; exact hw.access h1
  | back i =>
    simp only [World.step, Option.map_eq_some'] at h
    obtain ⟨⟨r, w''⟩, h1, h2⟩ := h
    simp only at h2
    rw [← h2]; exact hw.access h1
  | first i k =>
    simp only [World.step, Option.map_eq_some'] at h
    obtain ⟨⟨r, w''⟩, h1, h2⟩ := h
    simp only at h2
    rw [← h2]; exact hw.access h1
  | last i k =>
    simp only [World.step, Option.map_eq_some'] at h
    obtain ⟨⟨r, w''⟩, h1, h2⟩ := h
    simp only at h2
    rw [← h2]; exact hw.access h1
  | write r v => exact hw.write h

theorem WorldWF.run {w w' : World K V} (hw : WorldWF w) {l : List (Stmt K V)}
    (h : w.run l = some w') : WorldWF w' := by
  induction l generalizing w with
  | nil =>
    simp only [World.run, Option.some.injEq] at h
    rw [← h]; exact hw
  | cons s l ih =>
    simp only [World.run] at h
    cases hs : w.step s with
    | none => simp [hs] at h
    | some w1 =>
      simp only [hs] at h
      exact ih (hw.step hs) h

/-- Every state a client program can reach is well-formed: in particular the index invariant
holds in every `kv_struct`. -/
theorem Reachable.wf {w : World K V} (h : Reachable w) : WorldWF w := by
  obtain ⟨l, hl⟩ := h
  exact WorldWF.init.run hl

theorem Reachable.after_step {w w' : World K V} (h : Reachable w) {s : Stmt K V}
    (hs : w.step s = some w') : Reachable w' := by
  obtain ⟨l, hl⟩ := h
  refine ⟨l ++ [s], ?_⟩
  have : ∀ (l : List (Stmt K V)) (w0 : World K V), w0.run l = some w →
      w0.run (l ++ [s]) = some w' := by
    intro l
    induction l with
    | nil =>
      intro w0 h0
      simp only [World.run, Option.some.injEq] at h0
      subst h0
      simp [World.run, hs]
    | cons x l ih =>
      intro w0 h0
      simp only [World.run, List.cons_append] at h0 ⊢
      cases hx : w0.step x with
      | none => simp [hx] at h0
      | some w1 =>
        simp only [hx] at h0 ⊢
        exact ih w1 h0
  exact this l _ hl

end AccessLemmas

/-! ### Objects as values -/

section ValueLemmas

variable {K V : Type} [LinearOrder K]

theorem entries_some {w : World K V} {i : Nat} {s : List (K × V)}
    (h : w.entries i = some s) : ∃ c, w.cell i = some c ∧ c.entries = s := by
  unfold World.entries at h
  cases hc : w.cell i with
  | none => rw [hc] at h; simp at h
  | some c =>
    rw [hc] at h
    simp only [Option.map_some', Option.some.injEq] at h
    exact ⟨c, rfl, h⟩

theorem WorldWF.cell_wf_of {w : World K V} (hw : WorldWF w) {i : Nat} {c : kv_struct K V}
    (h : w.cell i = some c) : CellWF c := by
  obtain ⟨o, a, -, -, hh⟩ := cell_some h
  exact (hw.cell_wf hh).1

/-- In a well-formed state every const method is a function of the entry sequence. -/
theorem WorldWF.view {w : World K V} (hw : WorldWF w) {i : Nat} {s : List (K × V)}
    (hs : w.entries i = some s) :
    w.size i = some s.length ∧ w.empty i = some s.isEmpty ∧
      w.front_const i = some (match s.head? with
        | none => .error .invalid_argument
        | some e => .ok e) ∧
      w.back_const i = some (match s.getLast? with
        | none => .error .invalid_argument
        | some e => .ok e) ∧
      (∀ k, w.count i k = some (s.filter (fun e => decide (e.1 = k))).length) ∧
      (∀ k, w.first_const i k = some (match (s.filter (fun e => decide (e.1 = k))).head? with
        | none => .error .invalid_argument
        | some e => .ok e)) ∧
      (∀ k, w.last_const i k = some (match (s.filter (fun e => decide (e.1 = k))).getLast? with
        | none => .error .invalid_argument
        | some e => .ok e)) ∧
      ∃ ks, w.keys i = some ks ∧ ks.Pairwise (· < ·) ∧
        ∀ k, k ∈ ks ↔ s.any (fun e => decide (e.1 = k)) = true := by
  obtain ⟨c, hc, he⟩ := entries_some hs
  have hwf := hw.cell_wf_of hc
  subst he
  refine ⟨?_, ?_, ?_, ?_, ?_, ?_, ?_, c.keys, ?_, hwf.keys_sorted, hwf.mem_keys⟩
  · simp [World.size, hc, size_eq]
  · simp [World.empty, hc, empty_eq]
  · rw [World.front_const, hc, Option.map_some', front_eq]
  · rw [World.back_const, hc, Option.map_some', back_eq]
  · intro k; simp [World.count, hc, hwf.count_eq]
  · intro k; rw [World.first_const, hc, Option.some_bind, hwf.first_eq]
  · intro k; rw [World.last_const, hc, Option.some_bind, hwf.last_eq]
  · simp [World.keys, hc]

theorem same_view_of_entries {w w' : World K V} (hw : WorldWF w) (hw' : WorldWF w')
    {i : Nat} {s : List (K × V)} (h : w.entries i = some s) (h' : w'.entries i = some s) :
    w.same_view w' i := by
  obtain ⟨c, hc, he⟩ := entries_some h
  obtain ⟨c', hc', he'⟩ := entries_some h'
  obtain ⟨h1, h2, h3, h4, h5, h6, h7, h8⟩ :=
    (hw'.cell_wf_of hc').observers_eq (hw.cell_wf_of hc) (he'.trans he.symm)
  refine ⟨by rw [h, h'], ?_, ?_, ?_, ?_, ?_, ?_, ?_, ?_⟩
  · simp [World.size, hc, hc', h1]
  · simp [World.empty, hc, hc', h2]
  · simp [World.front_const, hc, hc', h3]
  · simp [World.back_const, hc, hc', h4]
  · intro k; simp [World.count, hc, hc', h5]
  · intro k; simp [World.first_const, hc, hc', h6]
  · intro k; simp [World.last_const, hc, hc', h7]
  · simp [World.keys, hc, hc', h8]

/-- A program of mutating calls acts on every object as on a value of its own: the entries of
an object after the program are those its own calls give, whatever was called on the others in
between. -/
theorem run_calls_spec {w : World K V} (hw : WorldWF w) (l : List (Nat × MutOp K V))
    (hl : ∀ x ∈ l, w.entries x.1 ≠ none) :
    ∃ w', w.run (calls l) = some w' ∧ WorldWF w' ∧
      ∀ j s, w.entries j = some s → w'.entries j = some (after_all (calls_on j l) s) := by
  induction l generalizing w with
  | nil => exact ⟨w, rfl, hw, fun j s h => h⟩
  | cons x l ih =>
    obtain ⟨i, op⟩ := x
    have hi : w.entries i ≠ none := hl (i, op) (List.mem_cons_self _ _)
    obtain ⟨s, hs⟩ := Option.ne_none_iff_exists'.1 hi
    obtain ⟨r, w1, fl, h1, -, hpost⟩ := apply_spec hw hs op
    have hframe : ∀ j, j ≠ i → w1.entries j = w.entries j := by
      intro j hj
      simp only [World.entries, (hpost.frame j hj).2]
    have hl1 : ∀ x ∈ l, w1.entries x.1 ≠ none := by
      intro x hx
      by_cases e : x.1 = i
      · rw [e, hpost.entries]; simp
      · rw [hframe _ e]
        exact hl x (List.mem_cons_of_mem _ hx)
    obtain ⟨w', h2, h3, h4⟩ := ih hpost.wf hl1
    refine ⟨w', ?_, h3, ?_⟩
    · simp only [calls, List.map_cons, World.run, World.step, h1, Option.map_some']
      exact h2
    · intro j sj hj
      by_cases e : j = i
      · subst e
        rw [hs] at hj
        simp only [Option.some.injEq] at hj
        subst hj
        rw [h4 j _ hpost.entries]
        simp [calls_on, after_all]
      · rw [h4 j sj (by rw [hframe j e]; exact hj)]
        have : calls_on j ((i, op) :: l) = calls_on j l := by
          simp [calls_on, List.filter_cons, Ne.symm e]
        rw [this]

theorem push_all_spec {w : World K V} (hw : WorldWF w) {i : Nat} {s : List (K × V)}
    (hs : w.entries i = some s) (l : List (K × V)) :
    ∃ w', w.push_all i l = some w' ∧ WorldWF w' ∧ w'.entries i = some (s ++ l) := by
  induction l generalizing w s with
  | nil => exact ⟨w, rfl, hw, by simpa using hs⟩
  | cons e l ih =>
    obtain ⟨c, hc, he⟩ := entries_some hs
    obtain ⟨w1, h1, hpost⟩ := push_spec hw hc e.1 e.2
    obtain ⟨w', h2, h3, h4⟩ := ih hpost.wf hpost.entries
    refine ⟨w', ?_, h3, ?_⟩
    · simp only [World.push_all, h1]
      exact h2
    · rw [h4, he]; simp

/-- An assignment through a live reference changes the value of the designated node of the
designated `kv_struct` and nothing else. -/
theorem write_spec {w : World K V} {i a : Nat} {o : kvfifo} {c : kv_struct K V}
    (ho : w.obj i = some o) (hp : o.p = some a) (hc : w.heap[a]? = some c) {n : Node K V}
    (hn : n ∈ c.K_V_queue) (v : V) :
    ∃ w', w.write ⟨a, n.addr⟩ v = some w' ∧ w'.objs = w.objs ∧
      w'.heap[a]? = some { c with K_V_queue := write_node c.K_V_queue n.addr v } ∧
      ∀ b, b ≠ a → w'.heap[b]? = w.heap[b]? := by
  have hu : w.use_count (some a) ≠ 0 := by
    have : 0 < w.use_count (some a) := by
      apply List.countP_pos_iff.2
      exact ⟨some o, List.getElem?_mem (obj_eq_some.1 ho), by simp [hp]⟩
    omega
  obtain ⟨m, hm, -, -⟩ := find_node_of_mem (List.mem_map.2 ⟨n, hn, rfl⟩)
  have ha : a < w.heap.length := (List.getElem?_eq_some.1 hc).1
  refine ⟨w.set_cell a { c with K_V_queue := write_node c.K_V_queue n.addr v },
    (by simp only [World.write, if_neg hu, hc, hm]), rfl, ?_, ?_⟩
  · rw [heap_set_cell w a _ ha, if_pos rfl]
  · intro b hb
    rw [heap_set_cell w a _ ha, if_neg hb]

theorem entries_write_head {n : Node K V} {q : List (Node K V)}
    (hq : ((n :: q).map Node.addr).Nodup) (v : V) :
    (write_node (n :: q) n.addr v).map Node.pair = (n.key, v) :: q.map Node.pair := by
  unfold write_node
  rw [List.map_cons, List.nodup_cons] at hq
  have : q.map (fun m => if m.addr = n.addr then { m with val := v } else m) = q := by
    conv_rhs => rw [← List.map_id q]
    apply List.map_congr_left
    intro m hm
    have : m.addr ≠ n.addr := fun e => hq.1 (e ▸ List.mem_map.2 ⟨m, hm, rfl⟩)
    simp [this]
  simp only [List.map_cons, if_true, this]
  rfl

/-- The state left by the assignment `x_i = x_j`: object `i` keeps its flag and holds a
`kv_struct` with the entries of `j`, which is the one of `j` when the flag of `j` is off and a
new one when it is on; the temporary is gone and nothing else changes. -/
theorem assign_spec {w : World K V} (hw : WorldWF w) {i j a : Nat} {oi other : kvfifo}
    {c : kv_struct K V} (hoi : w.obj i = some oi) (ho : w.obj j = some other)
    (hp : other.p = some a) (hc : w.heap[a]? = some c) :
    ∃ w' a' c', w.assign i j = some w' ∧ WorldWF w' ∧
      w'.obj i = some ⟨some a', oi.v_refs_active⟩ ∧
      w'.heap[a']? = some c' ∧ c'.entries = c.entries ∧
      (∀ k, k ≠ i → w'.obj k = w.obj k) ∧
      (∀ b, b < w.heap.length → w'.heap[b]? = w.heap[b]?) ∧
      ((other.v_refs_active = true ∧ a' = w.heap.length) ∨
        (other.v_refs_active = false ∧ a' = a ∧ w'.heap = w.heap)) := by
  obtain ⟨w1, a', c', h1, h2, h3, h4, h5, h6, h7, h8, h9⟩ := ctor_copy_spec hw ho hp hc
  have hi : i < w.objs.length := obj_lt_length hoi
  have hoi1 : w1.obj i = some oi := by rw [h7 i hi, hoi]
  have hne : i ≠ w.objs.length := ne_of_lt hi
  let w2 : World K V := w1.set_obj i { oi with p := some a' }
  have hot2 : w2.obj w.objs.length = some ⟨some a', false⟩ := by
    rw [obj_set_obj, if_neg hne, h4]
  have hobj : ∀ k, ({ w2 with objs := w2.objs.set w.objs.length none } : World K V).obj k =
      if w.objs.length = k then none
      else if i = k then some ⟨some a', oi.v_refs_active⟩ else w1.obj k := by
    intro k
    rw [obj_set_none, obj_set_obj]
    have : i < w1.objs.length := by rw [h3]; omega
    simp [this]
  have hrun : w.assign i j =
      some ({ w2 with objs := w2.objs.set w.objs.length none } : World K V) := by
    simp only [World.assign, hoi, h1, World.assign_body, hoi1, h4, World.dtor]
    have : (w1.set_obj i { oi with p := some a' }).obj w.objs.length
        = some ⟨some a', false⟩ := hot2
    simp only [this]
  refine ⟨_, a', c', hrun, hw.assign hrun, ?_, h5, h6, ?_, h8, ?_⟩
  · rw [hobj, if_neg (Ne.symm hne), if_pos rfl]
  · intro k hk
    rw [hobj]
    by_cases e : w.objs.length = k
    · rw [if_pos e, ← e]
      exact (obj_of_ge (le_refl _)).symm
    · rw [if_neg e, if_neg (Ne.symm hk)]
      rcases Nat.lt_or_ge k w.objs.length with h | h
      · exact h7 k h
      · rw [obj_of_ge h, obj_of_ge]
        rw [h3]
        omega
  · rcases h9 with h | h
    · exact Or.inl h
    · exact Or.inr h

end ValueLemmas

/-! ### Copies -/

section CopyClaims

variable {K V : Type} [LinearOrder K]

theorem sample_reachable : Reachable sample := ⟨sample_program, by decide⟩

theorem sample_two_reachable : Reachable sample_two := ⟨sample_two_program, by decide⟩

/-- Two distinct live objects with the same entries are independent copies. -/
theorem independent_of_entries {w1 : World K V} (hw : WorldWF w1) {a b : Nat}
    {s : List (K × V)} (ha : w1.entries a = some s) (hb : w1.entries b = some s) :
    IndependentCopies w1 a b s := by
  refine ⟨ha, hb, ?_⟩
  intro l hl
  obtain ⟨w2, h1, h2, h3⟩ := run_calls_spec hw l (by
    intro x hx
    rcases hl x hx with e | e
    · rw [e, ha]; simp
    · rw [e, hb]; simp)
  refine ⟨w2, h1, h3 a s ha, h3 b s hb, ?_, ?_⟩
  · intro e
    have := h3 a s ha
    rw [e] at this
    exact same_view_of_entries hw h2 ha this
  · intro e
    have := h3 b s hb
    rw [e] at this
    exact same_view_of_entries hw h2 hb this

theorem entries_of_obj {w : World K V} {i a : Nat} {o : kvfifo} {c : kv_struct K V}
    (ho : w.obj i = some o) (hp : o.p = some a) (hc : w.heap[a]? = some c) :
    w.entries i = some c.entries := by
  rw [World.entries, cell_eq ho hp, hc]; rfl

/-- C1. Copy independence: for a container `a` of a reachable state and `b` made from it by
the copy constructor or by the assignment `b = a`, both have the entries of `a`, and after any
program of `push` / `pop()` / `pop(k)` / `move_to_back(k)` / `clear()` calls on `a` and `b`,
in any order, each has exactly the entries its own calls give; a container on which nothing
was called answers `size`, `empty`, `count`, `front`, `back`, `first`, `last` and the key
iteration as before. -/
theorem copy_independence {w : World K V} (hw : Reachable w) {a : Nat} {s : List (K × V)}
    (hs : w.entries a = some s) :
    (∃ w1, w.ctor_copy a = some w1 ∧ IndependentCopies w1 a w.objs.length s) ∧
      ∀ b, b ≠ a → w.obj b ≠ none →
        ∃ w1, w.assign b a = some w1 ∧ IndependentCopies w1 a b s := by
  obtain ⟨c, hc, he⟩ := entries_some hs
  obtain ⟨o, p, ho, hp, hh⟩ := cell_some hc
  have ha : a < w.objs.length := obj_lt_length ho
  have hp' : p < w.heap.length := hw.wf.valid a o p ho hp
  subst he
  refine ⟨?_, ?_⟩
  · obtain ⟨w1, a', c', h1, h2, h3, h4, h5, h6, h7, h8, -⟩ :=
      ctor_copy_spec hw.wf ho hp hh
    refine ⟨w1, h1, independent_of_entries h2 ?_ ?_⟩
    · exact entries_of_obj ((h7 a ha).trans ho) hp ((h8 p hp').trans hh)
    · rw [entries_of_obj h4 rfl h5, h6]
  · intro b hb hob
    obtain ⟨ob, hob⟩ := Option.ne_none_iff_exists'.1 hob
    obtain ⟨w1, a', c', h1, h2, h3, h4, h5, h6, h7, -⟩ := assign_spec hw.wf hob ho hp hh
    refine ⟨w1, h1, independent_of_entries h2 ?_ ?_⟩
    · exact entries_of_obj ((h6 a (Ne.symm hb)).trans ho) hp ((h7 p hp').trans hh)
    · rw [entries_of_obj h3 rfl h4, h5]

theorem copy_independence_witness :
    Reachable sample_two ∧ sample_two.entries 0 = some [(1, 10)] ∧
      ((∃ w1, sample_two.ctor_copy 0 = some w1 ∧ IndependentCopies w1 0 2 [(1, 10)]) ∧
        ∀ b, b ≠ 0 → sample_two.obj b ≠ none →
          ∃ w1, sample_two.assign b 0 = some w1 ∧ IndependentCopies w1 0 b [(1, 10)]) :=
  ⟨sample_two_reachable, by decide, copy_independence sample_two_reachable (by decide)⟩

/-- A write through a reference into the `kv_struct` of `a` (its front node) leaves an object
`b` that holds another `kv_struct` untouched. -/
theorem write_front_isolated {w2 : World K V} {a b a1 a' : Nat} {oa ob : kvfifo}
    {c1 c' : kv_struct K V} {n : Node K V} {q : List (Node K V)}
    (hoa : w2.obj a = some oa) (hpa : oa.p = some a1) (hc1 : w2.heap[a1]? = some c1)
    (hwf : CellWF c1) (hq : c1.K_V_queue = n :: q)
    (hob : w2.obj b = some ob) (hpb : ob.p = some a') (hne : a' ≠ a1)
    (hc' : w2.heap[a']? = some c') (v' : V) :
    ∃ w3, w2.write ⟨a1, n.addr⟩ v' = some w3 ∧ w3.entries b = some c'.entries ∧
      w3.entries a = some ((n.key, v') :: q.map Node.pair) := by
  have hn : n ∈ c1.K_V_queue := by rw [hq]; exact List.mem_cons_self _ _
  obtain ⟨w3, h1, h2, h3, h4⟩ := write_spec hoa hpa hc1 hn v'
  have hobj : ∀ j, w3.obj j = w2.obj j := by
    intro j; simp only [World.obj, h2]
  refine ⟨w3, h1, ?_, ?_⟩
  · exact entries_of_obj ((hobj b).trans hob) hpb ((h4 a' hne).trans hc')
  · rw [entries_of_obj ((hobj a).trans hoa) hpa h3]
    have hnd := hwf.nodup
    rw [hq] at hnd
    simp only [kv_struct.entries, hq, entries_write_head hnd]

/-- C2. Reference-fork isolation: on a non-empty container `a` of a reachable state, the
non-const `front()` returns a reference `r`; when `b` is then made as a copy of `a` (by the
copy constructor, or by `b = a` for an existing `b`) and a new value is then written through
`r`, the entries of `b` are still those it was copied with (front entry included), while the
front entry of `a` has the new value. -/
theorem reference_fork_isolation {w : World K V} (hw : Reachable w) {a : Nat} {k : K} {v : V}
    {s : List (K × V)} (hs : w.entries a = some ((k, v) :: s)) (v' : V) :
    ∃ w1 r, w.front a = some (.ok (k, r), w1) ∧
      (∃ w2 w3, w1.ctor_copy a = some w2 ∧ w2.entries w1.objs.length = some ((k, v) :: s) ∧
        w2.write r v' = some w3 ∧ w3.entries w1.objs.length = some ((k, v) :: s) ∧
        w3.entries a = some ((k, v') :: s)) ∧
      ∀ b, b ≠ a → w1.obj b ≠ none →
        ∃ w2 w3, w1.assign b a = some w2 ∧ w2.entries b = some ((k, v) :: s) ∧
          w2.write r v' = some w3 ∧ w3.entries b = some ((k, v) :: s) ∧
          w3.entries a = some ((k, v') :: s) := by
  obtain ⟨c, hc, he⟩ := entries_some hs
  obtain ⟨w1, a1, c1, n, h1, hpost, hobj, hcell, hent, hwf, hsel⟩ :=
    access_ok hw.wf hc kv_struct.front_node (by
      intro c1 _ h1
      obtain ⟨n, q, hq, -, -⟩ := entries_eq_cons (h1.trans he)
      exact ⟨n, by simp [kv_struct.front_node, hq]⟩)
  obtain ⟨n', q, hq, hn', hqs⟩ := entries_eq_cons (hent.trans he)
  have hnn : n = n' := by
    simp only [kv_struct.front_node, hq, Option.some.injEq, Except.ok.injEq] at hsel
    exact hsel.symm
  subst hnn
  have hk : n.key = k := congrArg Prod.fst hn'
  have ha : a < w1.objs.length := obj_lt_length hobj
  have ha1 : a1 < w1.heap.length := (List.getElem?_eq_some.1 hcell).1
  have hc1e : c1.entries = (k, v) :: s := hent.trans he
  refine ⟨w1, ⟨a1, n.addr⟩, by rw [← hk]; exact h1, ?_, ?_⟩
  · obtain ⟨w2, a', c', g1, g2, g3, g4, g5, g6, g7, g8, g9⟩ :=
      ctor_copy_spec hpost.wf hobj rfl hcell
    have ha' : a' = w1.heap.length := by
      rcases g9 with h | h
      · exact h.2
      · simp at h
    obtain ⟨w3, f1, f2, f3⟩ := write_front_isolated (a := a) (b := w1.objs.length)
      ((g7 a ha).trans hobj) rfl ((g8 a1 ha1).trans hcell) hwf hq g4 rfl
      (by rw [ha']; exact ne_of_gt ha1) g5 v'
    refine ⟨w2, w3, g1, ?_, f1, ?_, ?_⟩
    · rw [entries_of_obj g4 rfl g5, g6, hc1e]
    · rw [f2, g6, hc1e]
    · rw [f3, hk, hqs]
  · intro b hb hob
    obtain ⟨ob, hob⟩ := Option.ne_none_iff_exists'.1 hob
    obtain ⟨w2, a', c', g1, g2, g3, g4, g5, g6, g7, g8⟩ :=
      assign_spec hpost.wf hob hobj rfl hcell
    have ha' : a' = w1.heap.length := by
      rcases g8 with h | h
      · exact h.2
      · simp at h
    obtain ⟨w3, f1, f2, f3⟩ := write_front_isolated (a := a) (b := b)
      ((g6 a (Ne.symm hb)).trans hobj) rfl ((g7 a1 ha1).trans hcell) hwf hq g3 rfl
      (by rw [ha']; exact ne_of_gt ha1) g4 v'
    refine ⟨w2, w3, g1, ?_, f1, ?_, ?_⟩
    · rw [entries_of_obj g3 rfl g4, g5, hc1e]
    · rw [f2, g5, hc1e]
    · rw [f3, hk, hqs]

theorem reference_fork_isolation_witness :
    Reachable sample ∧ sample.entries 0 = some [(1, 10), (2, 20), (1, 30)] ∧
      ∃ w1 r, sample.front 0 = some (.ok (1, r), w1) ∧
        (∃ w2 w3, w1.ctor_copy 0 = some w2 ∧
          w2.entries w1.objs.length = some [(1, 10), (2, 20), (1, 30)] ∧
          w2.write r 77 = some w3 ∧
          w3.entries w1.objs.length = some [(1, 10), (2, 20), (1, 30)] ∧
          w3.entries 0 = some [(1, 77), (2, 20), (1, 30)]) ∧
        ∀ b, b ≠ 0 → w1.obj b ≠ none →
          ∃ w2 w3, w1.assign b 0 = some w2 ∧ w2.entries b = some [(1, 10), (2, 20), (1, 30)] ∧
            w2.write r 77 = some w3 ∧ w3.entries b = some [(1, 10), (2, 20), (1, 30)] ∧
            w3.entries 0 = some [(1, 77), (2, 20), (1, 30)] :=
  ⟨sample_reachable, by decide, reference_fork_isolation sample_reachable (by decide) 77⟩

end CopyClaims

/-! ### The index and the queue operations -/

section QueueClaims

variable {K V : Type} [LinearOrder K]

/-- When no allocation has failed: in every state of `Reachable`, for every live container
with entry sequence `s` and every key `k`, `count(k)` is the number of entries of `s` whose
key is `k` (0 when there is none). -/
theorem count_eq_occurrences {w : World K V} (hw : Reachable w) {i : Nat} {s : List (K × V)}
    (hs : w.entries i = some s) (k : K) :
    w.count i k = some (s.filter (fun e => decide (e.1 = k))).length :=
  (hw.wf.view hs).2.2.2.2.1 k

theorem count_eq_occurrences_witness :
    Reachable sample ∧ sample.entries 0 = some [(1, 10), (2, 20), (1, 30)] ∧
      sample.count 0 1 =
        some ([(1, 10), (2, 20), (1, 30)].filter (fun e => decide (e.1 = 1))).length :=
  ⟨sample_reachable, by decide, count_eq_occurrences sample_reachable (by decide) 1⟩

/-- When no allocation has failed: in every state of `Reachable`, for every live container
with entry sequence `s` and every key `k` with `count(k) > 0`, `first(k)` returns the first
entry of `s` with key `k` and `last(k)` the last one. -/
theorem first_last_match {w : World K V} (hw : Reachable w) {i : Nat} {s : List (K × V)}
    (hs : w.entries i = some s) (k : K) {m : Nat} (hm : w.count i k = some m) (hpos : 0 < m) :
    ∃ e e', (s.filter (fun x => decide (x.1 = k))).head? = some e ∧
      (s.filter (fun x => decide (x.1 = k))).getLast? = some e' ∧
      w.first_const i k = some (.ok e) ∧ w.last_const i k = some (.ok e') := by
  obtain ⟨-, -, -, -, hcount, hfirst, hlast, -⟩ := hw.wf.view hs
  rw [hcount k] at hm
  simp only [Option.some.injEq] at hm
  have hne : s.filter (fun x => decide (x.1 = k)) ≠ [] := by
    intro e; rw [e] at hm; simp at hm; omega
  obtain ⟨e, he⟩ : ∃ e, (s.filter (fun x => decide (x.1 = k))).head? = some e := by
    cases h : s.filter (fun x => decide (x.1 = k)) with
    | nil => exact absurd h hne
    | cons x l => exact ⟨x, rfl⟩
  obtain ⟨e', he'⟩ : ∃ e', (s.filter (fun x => decide (x.1 = k))).getLast? = some e' :=
    ⟨_, List.getLast?_eq_getLast _ hne⟩
  refine ⟨e, e', he, he', ?_, ?_⟩
  · rw [hfirst k, he]
  · rw [hlast k, he']

theorem first_last_match_witness :
    Reachable sample ∧ sample.entries 0 = some [(1, 10), (2, 20), (1, 30)] ∧
      sample.count 0 1 = some 2 ∧ 0 < 2 ∧
      ∃ e e', ([(1, 10), (2, 20), (1, 30)].filter (fun x => decide (x.1 = 1))).head? = some e ∧
        ([(1, 10), (2, 20), (1, 30)].filter (fun x => decide (x.1 = 1))).getLast? = some e' ∧
        sample.first_const 0 1 = some (.ok e) ∧ sample.last_const 0 1 = some (.ok e') :=
  ⟨sample_reachable, by decide, by decide, by decide,
    first_last_match sample_reachable (by decide) 1 (by decide : sample.count 0 1 = some 2)
      (by decide)⟩

/-- C5. FIFO order: when a non-empty list `l` of pairs is pushed in order onto an empty
container of a reachable state, every `push` returns, and afterwards the entry sequence is
`l`, `front()` is the first pushed pair, `back()` the last pushed pair and `size()` the number
of pushes. -/
theorem fifo_order {w : World K V} (hw : Reachable w) {i : Nat} (hs : w.entries i = some [])
    (l : List (K × V)) (hl : l ≠ []) :
    ∃ w', w.push_all i l = some w' ∧ w'.entries i = some l ∧
      w'.front_const i = some (.ok (l.head hl)) ∧
      w'.back_const i = some (.ok (l.getLast hl)) ∧ w'.size i = some l.length := by
  obtain ⟨w', h1, h2, h3⟩ := push_all_spec hw.wf hs l
  rw [List.nil_append] at h3
  obtain ⟨hsize, -, hfront, hback, -⟩ := h2.view h3
  refine ⟨w', h1, h3, ?_, ?_, hsize⟩
  · rw [hfront, List.head?_eq_head hl]
  · rw [hback, List.getLast?_eq_getLast _ hl]

theorem fifo_order_witness :
    Reachable sample_two ∧ sample_two.entries 1 = some [] ∧
      ∃ w', sample_two.push_all 1 [(5, 50), (6, 60)] = some w' ∧
        w'.entries 1 = some [(5, 50), (6, 60)] ∧
        w'.front_const 1 = some (.ok ([(5, 50), (6, 60)].head (by decide))) ∧
        w'.back_const 1 = some (.ok ([(5, 50), (6, 60)].getLast (by decide))) ∧
        w'.size 1 = some [(5, 50), (6, 60)].length :=
  ⟨sample_two_reachable, by decide,
    fifo_order sample_two_reachable (by decide) [(5, 50), (6, 60)] (by decide)⟩

/-- C6. For a live container with entry sequence `s` in a reachable state, `push(k, v)`
returns and yields the sequence `s ++ [(k, v)]`: `size()` grows by one, `count(k)` grows by
one, `count(k')` is unchanged for every other key, and `back()` and `last(k)` are
`(k, v)`. -/
theorem push_appends {w : World K V} (hw : Reachable w) {i : Nat} {s : List (K × V)}
    (hs : w.entries i = some s) (k : K) (v : V) :
    ∃ w', w.push i k v = some (.ok (), w') ∧ w'.entries i = some (s ++ [(k, v)]) ∧
      w.size i = some s.length ∧ w'.size i = some (s.length + 1) ∧
      (∃ m, w.count i k = some m ∧ w'.count i k = some (m + 1)) ∧
      (∀ k', k' ≠ k → w'.count i k' = w.count i k') ∧
      w'.back_const i = some (.ok (k, v)) ∧ w'.last_const i k = some (.ok (k, v)) := by
  obtain ⟨c, hc, he⟩ := entries_some hs
  obtain ⟨w', h1, hpost⟩ := push_spec hw.wf hc k v
  rw [he] at hpost
  obtain ⟨hsize, -, -, -, hcount, -, -, -⟩ := hw.wf.view hs
  obtain ⟨hsize', -, -, hback', hcount', -, hlast', -⟩ := hpost.wf.view hpost.entries
  refine ⟨w', h1, hpost.entries, hsize, ?_, ⟨_, hcount k, ?_⟩, ?_, ?_, ?_⟩
  · rw [hsize']; simp
  · rw [hcount' k]; simp [List.filter_append]
  · intro k' hk'
    rw [hcount' k', hcount k']
    simp [List.filter_append, List.filter_cons, Ne.symm hk']
  · rw [hback']; simp
  · rw [hlast' k]; simp [List.filter_append]

theorem push_appends_witness :
    Reachable sample ∧ sample.entries 0 = some [(1, 10), (2, 20), (1, 30)] ∧
      ∃ w', sample.push 0 2 40 = some (.ok (), w') ∧
        w'.entries 0 = some ([(1, 10), (2, 20), (1, 30)] ++ [(2, 40)]) ∧
        sample.size 0 = some [(1, 10), (2, 20), (1, 30)].length ∧
        w'.size 0 = some ([(1, 10), (2, 20), (1, 30)].length + 1) ∧
        (∃ m, sample.count 0 2 = some m ∧ w'.count 0 2 = some (m + 1)) ∧
        (∀ k', k' ≠ 2 → w'.count 0 k' = sample.count 0 k') ∧
        w'.back_const 0 = some (.ok (2, 40)) ∧ w'.last_const 0 2 = some (.ok (2, 40)) :=
  ⟨sample_reachable, by decide, push_appends sample_reachable (by decide) 2 40⟩

/-- The key set after removing one entry with key `k`: `k` stays exactly when another entry
with key `k` is left, every other key stays as it was. -/
theorem keys_after_removal {w w' : World K V} (hw : WorldWF w) (hw' : WorldWF w') {i : Nat}
    {s s' : List (K × V)} (hs : w.entries i = some s) (hs' : w'.entries i = some s') (k : K)
    (hf : ∀ k', (s'.filter (fun e => decide (e.1 = k'))) =
      if k' = k then (s.filter (fun e => decide (e.1 = k))).tail
      else s.filter (fun e => decide (e.1 = k')))
    {m : Nat} (hm : (s.filter (fun e => decide (e.1 = k))).length = m + 1) :
    w.count i k = some (m + 1) ∧ w'.count i k = some m ∧
      (∀ k', k' ≠ k → w'.count i k' = w.count i k') ∧
      ∃ ks ks', w.keys i = some ks ∧ w'.keys i = some ks' ∧ k ∈ ks ∧ (k ∉ ks' ↔ m = 0) ∧
        ∀ k', k' ≠ k → (k' ∈ ks' ↔ k' ∈ ks) := by
  obtain ⟨-, -, -, -, hcount, -, -, ks, hks, -, hmem⟩ := hw.view hs
  obtain ⟨-, -, -, -, hcount', -, -, ks', hks', -, hmem'⟩ := hw'.view hs'
  have hany : ∀ (t : List (K × V)) (k' : K),
      t.any (fun e => decide (e.1 = k')) = true ↔ t.filter (fun e => decide (e.1 = k')) ≠ [] := by
    intro t k'
    simp [List.filter_eq_nil_iff]
  refine ⟨by rw [hcount k, hm], ?_, ?_, ks, ks', hks, hks', ?_, ?_, ?_⟩
  · rw [hcount' k, hf k, if_pos rfl, List.length_tail, hm]; rfl
  · intro k' hk'
    rw [hcount' k', hcount k', hf k', if_neg hk']
  · rw [hmem k, hany]
    intro e; rw [e] at hm; simp at hm
  · rw [hmem' k, hany, hf k, if_pos rfl, not_not, ← List.length_eq_zero, List.length_tail, hm]
    simp
  · intro k' hk'
    rw [hmem' k', hmem k', hany, hany, hf k', if_neg hk']

theorem filter_tail_cons (k : K) (v : V) (s : List (K × V)) (k' : K) :
    (s.filter (fun e => decide (e.1 = k'))) =
      if k' = k then (((k, v) :: s).filter (fun e => decide (e.1 = k))).tail
      else ((k, v) :: s).filter (fun e => decide (e.1 = k')) := by
  by_cases e : k' = k
  · subst e; simp [List.filter_cons]
  · simp [List.filter_cons, e, Ne.symm e]

/-- C7. For a live container with entry sequence `(k, v) :: s` in a reachable state, `pop()`
returns and yields the sequence `s`; `count(k)` drops by one, the other counts are unchanged,
and `k` leaves the key set exactly when it had a single entry, the other keys staying. -/
theorem pop_removes_front {w : World K V} (hw : Reachable w) {i : Nat} {k : K} {v : V}
    {s : List (K × V)} (hs : w.entries i = some ((k, v) :: s)) :
    ∃ w', w.pop i = some (.ok (), w') ∧ w'.entries i = some s ∧
      ∃ m, w.count i k = some (m + 1) ∧ w'.count i k = some m ∧
        (∀ k', k' ≠ k → w'.count i k' = w.count i k') ∧
        ∃ ks ks', w.keys i = some ks ∧ w'.keys i = some ks' ∧ k ∈ ks ∧ (k ∉ ks' ↔ m = 0) ∧
          ∀ k', k' ≠ k → (k' ∈ ks' ↔ k' ∈ ks) := by
  obtain ⟨r, w', fl, h1, h2, hpost⟩ := apply_spec hw.wf hs .pop
  have hr : r = .ok () := by rw [h2]; rfl
  subst hr
  have he : w'.entries i = some s := hpost.entries
  refine ⟨w', h1, he, (s.filter (fun e => decide (e.1 = k))).length, ?_⟩
  exact keys_after_removal hw.wf hpost.wf hs he k (filter_tail_cons k v s)
    (by simp [List.filter_cons])

theorem pop_removes_front_witness :
    Reachable sample ∧ sample.entries 0 = some ((1, 10) :: [(2, 20), (1, 30)]) ∧
      ∃ w', sample.pop 0 = some (.ok (), w') ∧ w'.entries 0 = some [(2, 20), (1, 30)] ∧
        ∃ m, sample.count 0 1 = some (m + 1) ∧ w'.count 0 1 = some m ∧
          (∀ k', k' ≠ 1 → w'.count 0 k' = sample.count 0 k') ∧
          ∃ ks ks', sample.keys 0 = some ks ∧ w'.keys 0 = some ks' ∧ 1 ∈ ks ∧
            (1 ∉ ks' ↔ m = 0) ∧ ∀ k', k' ≠ 1 → (k' ∈ ks' ↔ k' ∈ ks) :=
  ⟨sample_reachable, by decide,
    pop_removes_front sample_reachable
      (by decide : sample.entries 0 = some ((1, 10) :: [(2, 20), (1, 30)]))⟩

theorem filter_eraseP (s : List (K × V)) (k k' : K) :
    ((s.eraseP (fun e => decide (e.1 = k))).filter (fun e => decide (e.1 = k'))) =
      if k' = k then (s.filter (fun e => decide (e.1 = k))).tail
      else s.filter (fun e => decide (e.1 = k')) := by
  induction s with
  | nil => simp
  | cons x s ih =>
    by_cases hx : x.1 = k
    · by_cases e : k' = k
      · subst e; simp [List.eraseP_cons, List.filter_cons, hx]
      · subst hx
        simp [List.eraseP_cons, List.filter_cons, e, Ne.symm e]
    · by_cases e : k' = k
      · subst e
        simp [List.eraseP_cons, List.filter_cons, hx]
        simpa using ih
      · simp only [List.eraseP_cons, hx, decide_False, cond_false, List.filter_cons, if_neg e]
        rw [ih, if_neg e]

theorem count_pos_any {w : World K V} (hw : WorldWF w) {i : Nat} {s : List (K × V)}
    (hs : w.entries i = some s) {k : K} {m : Nat} (hm : w.count i k = some m) (hpos : 0 < m) :
    s.any (fun e => decide (e.1 = k)) = true ∧
      (s.filter (fun e => decide (e.1 = k))).length = (m - 1) + 1 := by
  have hcount := (hw.view hs).2.2.2.2.1 k
  rw [hcount] at hm
  simp only [Option.some.injEq] at hm
  refine ⟨?_, by omega⟩
  by_contra h
  have : s.filter (fun e => decide (e.1 = k)) = [] := by
    rw [List.filter_eq_nil_iff]
    intro a ha e
    exact h (List.any_eq_true.2 ⟨a, ha, e⟩)
  rw [this] at hm
  simp at hm
  omega

/-- C8. For a live container with entry sequence `s` in a reachable state and a key `k` with
`count(k) > 0`, `pop(k)` returns and removes exactly the earliest entry with key `k`: `s` is
`s1 ++ (k, v) :: s2` with no key `k` in `s1` and the new sequence is `s1 ++ s2`; `count(k)`
drops by one, the other counts are unchanged, and `k` leaves the key set exactly when
`count(k)` was 1, the other keys staying. -/
theorem pop_key_removes_earliest {w : World K V} (hw : Reachable w) {i : Nat}
    {s : List (K × V)} (hs : w.entries i = some s) (k : K) {m : Nat}
    (hm : w.count i k = some m) (hpos : 0 < m) :
    ∃ w', w.pop_key i k = some (.ok (), w') ∧
      (∃ s1 v s2, s = s1 ++ (k, v) :: s2 ∧ (∀ e ∈ s1, e.1 ≠ k) ∧
        w'.entries i = some (s1 ++ s2)) ∧
      w'.count i k = some (m - 1) ∧ (∀ k', k' ≠ k → w'.count i k' = w.count i k') ∧
      ∃ ks ks', w.keys i = some ks ∧ w'.keys i = some ks' ∧ k ∈ ks ∧ (k ∉ ks' ↔ m = 1) ∧
        ∀ k', k' ≠ k → (k' ∈ ks' ↔ k' ∈ ks) := by
  obtain ⟨hany, hlen⟩ := count_pos_any hw.wf hs hm hpos
  obtain ⟨r, w', fl, h1, h2, hpost⟩ := apply_spec hw.wf hs (.pop_key k)
  have hr : r = .ok () := by rw [h2]; simp [MutOp.spec, hany, Except.map]
  subst hr
  have he : w'.entries i = some (s.eraseP (fun e => decide (e.1 = k))) := by
    have := hpost.entries
    simpa [MutOp.after, MutOp.spec, hany] using this
  obtain ⟨x, hx, hkx⟩ := List.any_eq_true.1 hany
  obtain ⟨y, s1, s2, hs1, hy, hsplit, herase⟩ := List.exists_of_eraseP (p := fun e => decide (e.1 = k)) hx hkx
  obtain ⟨g1, g2, g3, ks, ks', g4, g5, g6, g7, g8⟩ :=
    keys_after_removal hw.wf hpost.wf hs he k (filter_eraseP s k) hlen
  refine ⟨w', h1, ⟨s1, y.2, s2, ?_, ?_, ?_⟩, g2, g3, ks, ks', g4, g5, g6, ?_, g8⟩
  · rw [hsplit]
    have : y = (k, y.2) := by
      have hy' : y.1 = k := by simpa using hy
      rw [← hy']
    rw [← this]
  · intro e he'
    simpa using hs1 e he'
  · rw [he, herase]
  · rw [g7]; omega

theorem pop_key_removes_earliest_witness :
    Reachable sample ∧ sample.entries 0 = some [(1, 10), (2, 20), (1, 30)] ∧
      sample.count 0 2 = some 1 ∧ 0 < 1 ∧
      ∃ w', sample.pop_key 0 2 = some (.ok (), w') ∧
        (∃ s1 v s2, [(1, 10), (2, 20), (1, 30)] = s1 ++ (2, v) :: s2 ∧ (∀ e ∈ s1, e.1 ≠ 2) ∧
          w'.entries 0 = some (s1 ++ s2)) ∧
        w'.count 0 2 = some (1 - 1) ∧ (∀ k', k' ≠ 2 → w'.count 0 k' = sample.count 0 k') ∧
        ∃ ks ks', sample.keys 0 = some ks ∧ w'.keys 0 = some ks' ∧ 2 ∈ ks ∧
          (2 ∉ ks' ↔ 1 = 1) ∧ ∀ k', k' ≠ 2 → (k' ∈ ks' ↔ k' ∈ ks) :=
  ⟨sample_reachable, by decide, by decide, by decide,
    pop_key_removes_earliest sample_reachable (by decide) 2
      (by decide : sample.count 0 2 = some 1) (by decide)⟩

/-- C9. For a live container with entry sequence `s` in a reachable state and a key `k` with
`count(k) > 0`, `move_to_back(k)` returns and yields the entries with other keys in their
order followed by the entries with key `k` in their order; the new sequence is a permutation
of `s`. -/
theorem move_to_back_partitions {w : World K V} (hw : Reachable w) {i : Nat}
    {s : List (K × V)} (hs : w.entries i = some s) (k : K) {m : Nat}
    (hm : w.count i k = some m) (hpos : 0 < m) :
    ∃ w' s', w.move_to_back i k = some (.ok (), w') ∧ w'.entries i = some s' ∧
      s' = s.filter (fun e => decide (e.1 ≠ k)) ++ s.filter (fun e => decide (e.1 = k)) ∧
      s'.Perm s := by
  obtain ⟨hany, -⟩ := count_pos_any hw.wf hs hm hpos
  obtain ⟨r, w', fl, h1, h2, hpost⟩ := apply_spec hw.wf hs (.move_to_back k)
  have hr : r = .ok () := by rw [h2]; simp [MutOp.spec, hany, Except.map]
  subst hr
  have he : w'.entries i = some (s.filter (fun e => decide (e.1 ≠ k)) ++
      s.filter (fun e => decide (e.1 = k))) := by
    have := hpost.entries
    simpa [MutOp.after, MutOp.spec, hany] using this
  refine ⟨w', _, h1, he, rfl, ?_⟩
  have h := List.filter_append_perm (fun e : K × V => decide (e.1 = k)) s
  refine List.Perm.trans List.perm_append_comm ?_
  have e : (fun e : K × V => decide (e.1 ≠ k)) = (fun e => !(decide (e.1 = k))) := by
    funext n; simp
  rw [e]
  exact h

theorem move_to_back_partitions_witness :
    Reachable sample ∧ sample.entries 0 = some [(1, 10), (2, 20), (1, 30)] ∧
      sample.count 0 1 = some 2 ∧ 0 < 2 ∧
      ∃ w' s', sample.move_to_back 0 1 = some (.ok (), w') ∧ w'.entries 0 = some s' ∧
        s' = [(1, 10), (2, 20), (1, 30)].filter (fun e => decide (e.1 ≠ 1)) ++
          [(1, 10), (2, 20), (1, 30)].filter (fun e => decide (e.1 = 1)) ∧
        s'.Perm [(1, 10), (2, 20), (1, 30)] :=
  ⟨sample_reachable, by decide, by decide, by decide,
    move_to_back_partitions sample_reachable (by decide) 1
      (by decide : sample.count 0 1 = some 2) (by decide)⟩

/-- C10. For a live container in a reachable state, `clear()` returns and leaves the queue
and the index empty: `size() == 0`, `empty()`, `count(k) == 0` for every `k`,
`k_begin() == k_end()`, and `front()` and `back()`, const or not, throw
`std::invalid_argument`. -/
theorem clear_empties {w : World K V} (hw : Reachable w) {i : Nat} {s : List (K × V)}
    (hs : w.entries i = some s) :
    ∃ w', w.clear i = some (.ok (), w') ∧ w'.cell i = some ⟨[], []⟩ ∧
      w'.entries i = some [] ∧ w'.size i = some 0 ∧ w'.empty i = some true ∧
      (∀ k, w'.count i k = some 0) ∧ w'.k_begin i = w'.k_end i ∧ w'.keys i = some [] ∧
      w'.front_const i = some (.error .invalid_argument) ∧
      w'.back_const i = some (.error .invalid_argument) ∧
      (∃ w'', w'.front i = some (.error .invalid_argument, w'')) ∧
      ∃ w'', w'.back i = some (.error .invalid_argument, w'') := by
  obtain ⟨c, hc, -⟩ := entries_some hs
  obtain ⟨w', fl, h1, -, hpost⟩ := clear_spec hw.wf hc
  obtain ⟨c', hc', he'⟩ := entries_some hpost.entries
  have hwf' := hpost.wf.cell_wf_of hc'
  have hq : c'.K_V_queue = [] := entries_eq_nil he'
  have hidx : c'.K_it_lists = [] := by
    cases hm : c'.K_it_lists with
    | nil => rfl
    | cons x m =>
      have h1 : map_find c'.K_it_lists x.1 ≠ none := by
        rw [hm]; simp [map_find]
      rw [hwf'.index.find_eq, hq] at h1
      simp [slots_of] at h1
  have hcell : w'.cell i = some ⟨[], []⟩ := by
    rw [hc']
    cases c' with
    | mk q m =>
      simp only at hq hidx
      rw [hq, hidx]
  obtain ⟨g1, g2, g3, g4, g5, -, -, -⟩ := hpost.wf.view hpost.entries
  refine ⟨w', h1, hcell, hpost.entries, g1, g2, ?_, ?_, ?_, g3, g4, ?_, ?_⟩
  · intro k; rw [g5 k]; rfl
  · simp [World.k_begin, World.k_end, hcell, kv_struct.k_begin, kv_struct.k_end]
  · simp [World.keys, hcell, kv_struct.keys]
  · obtain ⟨w'', fl', f1, -, -⟩ := access_error hpost.wf hcell kv_struct.front_node
      .invalid_argument (by
        intro c1 _ h
        have : c1.K_V_queue = [] := entries_eq_nil h
        simp [kv_struct.front_node, this])
    exact ⟨w'', f1⟩
  · obtain ⟨w'', fl', f1, -, -⟩ := access_error hpost.wf hcell kv_struct.back_node
      .invalid_argument (by
        intro c1 _ h
        have : c1.K_V_queue = [] := entries_eq_nil h
        simp [kv_struct.back_node, this])
    exact ⟨w'', f1⟩

theorem clear_empties_witness :
    Reachable sample ∧ sample.entries 0 = some [(1, 10), (2, 20), (1, 30)] ∧
      ∃ w', sample.clear 0 = some (.ok (), w') ∧ w'.cell 0 = some ⟨[], []⟩ ∧
        w'.entries 0 = some [] ∧ w'.size 0 = some 0 ∧ w'.empty 0 = some true ∧
        (∀ k, w'.count 0 k = some 0) ∧ w'.k_begin 0 = w'.k_end 0 ∧ w'.keys 0 = some [] ∧
        w'.front_const 0 = some (.error .invalid_argument) ∧
        w'.back_const 0 = some (.error .invalid_argument) ∧
        (∃ w'', w'.front 0 = some (.error .invalid_argument, w'')) ∧
        ∃ w'', w'.back 0 = some (.error .invalid_argument, w'') :=
  ⟨sample_reachable, by decide,
    clear_empties sample_reachable
      (by decide : sample.entries 0 = some [(1, 10), (2, 20), (1, 30)])⟩

end QueueClaims

/-! ### Failing calls and accessors -/

section FailureLemmas

variable {K V : Type} [LinearOrder K]

theorem sample_shared_reachable : Reachable sample_shared :=
  ⟨sample_shared_program, by decide⟩

theorem sample_shared_empty_reachable : Reachable sample_shared_empty :=
  ⟨sample_shared_empty_program, by decide⟩

/-- A mutating method that the entry sequence makes throw: the fork stays, the entries and
the flag are as before. -/
theorem apply_error_spec {w : World K V} (hw : WorldWF w) {i : Nat} {s : List (K × V)}
    (hs : w.entries i = some s) {op : MutOp K V} {e : Err} (he : op.spec s = .error e) :
    ∃ w' fl, w.apply i op = some (.error e, w') ∧
      (w.obj i).map kvfifo.v_refs_active = some fl ∧ Post w w' i s fl := by
  obtain ⟨c, hc, hce⟩ := entries_some hs
  subst hce
  cases op with
  | push k v => simp [MutOp.spec] at he
  | clear => simp [MutOp.spec] at he
  | pop =>
    cases hq : c.entries with
    | nil =>
      rw [hq] at he
      simp only [MutOp.spec, Except.error.injEq] at he
      subst he
      obtain ⟨w', fl, h1, h2, h3⟩ := mutate_error hw hc kv_struct.pop_body .invalid_argument
        (fun c1 _ h => pop_body_nil (entries_eq_nil (h.trans hq)))
      rw [hq] at h3
      exact ⟨w', fl, h1, h2, h3⟩
    | cons x s => rw [hq] at he; simp [MutOp.spec] at he
  | pop_key k =>
    by_cases hk : c.entries.any (fun e => decide (e.1 = k)) = true
    · simp [MutOp.spec, hk] at he
    · simp only [MutOp.spec, hk, Bool.false_eq_true, if_false, Except.error.injEq] at he
      subst he
      exact mutate_error hw hc (fun c => c.pop_key_body k) .invalid_argument (by
        intro c1 hwf h
        apply pop_key_body_none
        by_contra hne
        exact hk (by rw [← h]; exact (hwf.find_ne_none_iff k).1 hne))
  | move_to_back k =>
    by_cases hk : c.entries.any (fun e => decide (e.1 = k)) = true
    · simp [MutOp.spec, hk] at he
    · simp only [MutOp.spec, hk, Bool.false_eq_true, if_false, Except.error.injEq] at he
      subst he
      exact mutate_error hw hc (fun c => c.move_to_back_body k) .invalid_argument (by
        intro c1 hwf h
        apply move_to_back_body_none
        by_contra hne
        exact hk (by rw [← h]; exact (hwf.find_ne_none_iff k).1 hne))

theorem use_count_pos {w : World K V} {i a : Nat} {o : kvfifo} (ho : w.obj i = some o)
    (hp : o.p = some a) : w.use_count (some a) ≠ 0 := by
  have : 0 < w.use_count (some a) := by
    apply List.countP_pos_iff.2
    exact ⟨some o, List.getElem?_mem (obj_eq_some.1 ho), by simp [hp]⟩
  omega

theorem countP_eq_one_of_unique {α : Type} (P : α → Bool) :
    ∀ (l : List α) (i : Nat) (x : α), l[i]? = some x → P x = true →
      (∀ j y, l[j]? = some y → P y = true → j = i) → l.countP P = 1
  | [], i, _, hi, _, _ => by simp at hi
  | x0 :: xs, 0, x, hi, hx, hu => by
    simp only [List.getElem?_cons_zero, Option.some.injEq] at hi
    subst hi
    rw [List.countP_cons_of_pos _ _ hx]
    have : xs.countP P = 0 := by
      rw [List.countP_eq_zero]
      intro y hy hpy
      obtain ⟨j, hj⟩ := List.mem_iff_getElem?.1 hy
      have := hu (j + 1) y (by simpa using hj) hpy
      omega
    omega
  | x0 :: xs, i + 1, x, hi, hx, hu => by
    have h0 : ¬ P x0 = true := by
      intro h
      have := hu 0 x0 (by simp) h
      omega
    rw [List.countP_cons_of_neg _ _ h0]
    apply countP_eq_one_of_unique P xs i x (by simpa using hi) hx
    intro j y hj hy
    have := hu (j + 1) y (by simpa using hj) hy
    omega

/-- A sole owner sees `use_count() == 1`. -/
theorem use_count_of_sole_owner {w : World K V} {i a : Nat} {o : kvfifo}
    (ho : w.obj i = some o) (hp : o.p = some a) (h : w.sole_owner i a) :
    w.use_count (some a) = 1 := by
  apply countP_eq_one_of_unique _ w.objs i (some o) (obj_eq_some.1 ho) (by simp [hp])
  intro j y hj hy
  simp only [decide_eq_true_eq] at hy
  obtain ⟨x, rfl, hx⟩ := hy
  exact h j x (obj_eq_some.2 hj) hx

/-- What a non-const accessor does, in terms of the fork and of the node it selects in the
forked `kv_struct`. -/
theorem access_eq {w : World K V} (hw : WorldWF w) {i : Nat} {c : kv_struct K V}
    (hc : w.cell i = some c) (sel : kv_struct K V → Option (Except Err (Node K V))) :
    ∃ w1 a1 c1 o, w.obj i = some o ∧ Forked w w1 i o c a1 c1 ∧
      w.access i sel =
        match sel c1 with
        | some (.ok n) => some (.ok (n.key, ⟨a1, n.addr⟩), w1.set_obj i ⟨some a1, true⟩)
        | some (.error e) => some (.error e, w1)
        | none => none := by
  obtain ⟨o, a, ho, hp, hh⟩ := cell_some hc
  obtain ⟨w1, a1, c1, h1, hf⟩ := p_copy_if_shared_spec hw ho hp hh
  have hcell : w1.cell i = some c1 := by rw [cell_eq hf.obj_i rfl]; exact hf.cell_i
  refine ⟨w1, a1, c1, o, ho, hf, ?_⟩
  simp only [World.access, h1, hf.obj_i, hcell]
  cases hs : sel c1 with
  | none => rfl
  | some x => cases x <;> rfl

theorem get_eq_access (w : World K V) (i : Nat) (acc : Accessor K) :
    w.get i acc = w.access i (fun c => c.node_of acc) := by
  cases acc <;> rfl

theorem get_const_eq (w : World K V) (i : Nat) (acc : Accessor K) :
    w.get_const i acc = (w.cell i).bind (fun c => c.get acc) := by
  cases acc
  · simp [World.get_const, World.front_const, kv_struct.get, Option.map_eq_bind]
  · simp [World.get_const, World.back_const, kv_struct.get, Option.map_eq_bind]
  · rfl
  · rfl

/-- The const form returns the pair stored in the node the accessor designates. -/
theorem get_eq_node_of (c : kv_struct K V) (acc : Accessor K) :
    c.get acc = (c.node_of acc).map (fun r => r.map Node.pair) := by
  cases acc with
  | front =>
    simp only [kv_struct.get, kv_struct.node_of, kv_struct.front, kv_struct.front_node]
    cases c.K_V_queue <;> rfl
  | back =>
    simp only [kv_struct.get, kv_struct.node_of, kv_struct.back, kv_struct.back_node]
    cases c.K_V_queue.getLast? <;> rfl
  | first k => rfl
  | last k => rfl

theorem CellWF.get_eq {c : kv_struct K V} (h : CellWF c) (acc : Accessor K) :
    c.get acc = some (Accessor.spec c.entries acc) := by
  cases acc with
  | front =>
    simp only [kv_struct.get, front_eq, Accessor.spec]
  | back =>
    simp only [kv_struct.get, back_eq, Accessor.spec]
  | first k =>
    simp only [kv_struct.get, h.first_eq, Accessor.spec]
  | last k =>
    simp only [kv_struct.get, h.last_eq, Accessor.spec]

theorem node_of_mem {c : kv_struct K V} {acc : Accessor K} {n : Node K V}
    (h : c.node_of acc = some (.ok n)) : n ∈ c.K_V_queue := by
  cases acc with
  | front =>
    simp only [kv_struct.node_of, kv_struct.front_node] at h
    cases hq : c.K_V_queue with
    | nil => rw [hq] at h; simp at h
    | cons x q =>
      rw [hq] at h
      simp only [Option.some.injEq, Except.ok.injEq] at h
      rw [h]; exact List.mem_cons_self _ _
  | back =>
    simp only [kv_struct.node_of, kv_struct.back_node] at h
    cases hq : c.K_V_queue.getLast? with
    | none => rw [hq] at h; simp at h
    | some x =>
      rw [hq] at h
      simp only [Option.some.injEq, Except.ok.injEq] at h
      rw [← h]; exact List.mem_of_getLast?_eq_some hq
  | first k =>
    simp only [kv_struct.node_of, kv_struct.first_node] at h
    split at h <;> try simp at h
    split at h <;> simp at h
    rename_i it _ _ x hx
    rw [← h]; exact (find_node_some hx).2
  | last k =>
    simp only [kv_struct.node_of, kv_struct.last_node] at h
    split at h <;> try simp at h
    split at h <;> try simp at h
    split at h <;> simp at h
    rename_i x hx
    rw [← h]; exact (find_node_some hx).2

theorem spec_error_iff (s : List (K × V)) (acc : Accessor K) :
    (Accessor.spec s acc = .error .invalid_argument ↔ Accessor.absent s acc) ∧
      (Accessor.absent s acc ∨ ∃ e, Accessor.spec s acc = .ok e) := by
  cases acc with
  | front => cases s <;> simp [Accessor.spec, Accessor.absent]
  | back =>
    cases h : s.getLast? with
    | none =>
      have : s = [] := List.getLast?_eq_none_iff.1 h
      simp [Accessor.spec, Accessor.absent, h, this]
    | some x =>
      have : s ≠ [] := by intro e; rw [e] at h; simp at h
      simp [Accessor.spec, Accessor.absent, h, this]
  | first k =>
    cases h : s.filter (fun e => decide (e.1 = k)) with
    | nil => simp [Accessor.spec, Accessor.absent, h]
    | cons x l => simp [Accessor.spec, Accessor.absent, h]
  | last k =>
    cases h : (s.filter (fun e => decide (e.1 = k))).getLast? with
    | none =>
      have : s.filter (fun e => decide (e.1 = k)) = [] := List.getLast?_eq_none_iff.1 h
      simp [Accessor.spec, Accessor.absent, h, this]
    | some x =>
      have : s.filter (fun e => decide (e.1 = k)) ≠ [] := by
        intro e; rw [e] at h; simp at h
      have h2 : (s.filter (fun e => decide (e.1 = k))).length ≠ 0 := by
        intro e; exact this (List.length_eq_zero.1 e)
      simp only [Accessor.spec, Accessor.absent, h, h2]
      simp

theorem list_set_same {α : Type} {l : List α} {a : Nat} {x : α} (h : l[a]? = some x) :
    l.set a x = l := by
  apply List.ext_getElem?
  intro n
  rw [List.getElem?_set]
  split_ifs with e1 e2
  · rw [← e1, h]
  · rw [← e1]; exact (List.getElem?_eq_none (not_lt.1 e2)).symm
  · rfl

theorem set_cell_same {w : World K V} {a : Nat} {c : kv_struct K V}
    (h : w.heap[a]? = some c) : w.set_cell a c = w := by
  simp only [World.set_cell, list_set_same h]

/-- On a map with ascending keys, `operator[]` on a key that has a bucket inserts nothing. -/
theorem map_subscript_of_find {m : List (K × List Nat)} (hm : KeysSorted m) {k : K}
    (h : map_find m k ≠ none) : map_subscript m k = m := by
  induction m with
  | nil => simp [map_find] at h
  | cons e m ih =>
    obtain ⟨k0, l⟩ := e
    simp only [map_subscript]
    by_cases h1 : k < k0
    · exfalso
      apply h
      apply map_find_eq_none_of_lt
      intro e he
      rcases List.mem_cons.1 he with rfl | he
      · exact h1
      · exact lt_trans h1 (hm.head_lt e he)
    · rw [if_neg h1]
      by_cases h2 : k = k0
      · rw [if_pos h2]
      · rw [if_neg h2]
        simp only [map_find, if_neg h2] at h
        rw [ih hm.tail h]

end FailureLemmas

section FailureClaims

variable {K V : Type} [LinearOrder K]

theorem spec_map_error {s : List (K × V)} {op : MutOp K V} {e : Err}
    (h : (Except.error e : Except Err Unit) = (op.spec s).map (fun _ => ())) :
    op.spec s = .error e := by
  cases hs : op.spec s with
  | error e' =>
    rw [hs] at h
    simp only [Except.map, Except.error.injEq] at h
    rw [h]
  | ok x => rw [hs] at h; simp [Except.map] at h

/-- A mutating method throws exactly when `MutOp.spec` says so on the entry sequence. -/
theorem apply_fails_iff {w : World K V} (hw : WorldWF w) {i : Nat} {s : List (K × V)}
    (hs : w.entries i = some s) (op : MutOp K V) (e : Err) :
    (∃ w', w.apply i op = some (.error e, w')) ↔ op.spec s = .error e := by
  constructor
  · rintro ⟨w', h⟩
    obtain ⟨r, w'', fl, h1, h2, -⟩ := apply_spec hw hs op
    rw [h1] at h
    simp only [Option.some.injEq, Prod.mk.injEq] at h
    rw [h.1] at h2
    exact spec_map_error h2
  · intro h
    obtain ⟨w', fl, h1, -, -⟩ := apply_error_spec hw hs h
    exact ⟨w', h1⟩

theorem any_false_iff_count {w : World K V} (hw : WorldWF w) {i : Nat} {s : List (K × V)}
    (hs : w.entries i = some s) (k : K) :
    ¬ s.any (fun e => decide (e.1 = k)) = true ↔ w.count i k = some 0 := by
  rw [(hw.view hs).2.2.2.2.1 k]
  simp only [Option.some.injEq, List.length_eq_zero, List.filter_eq_nil_iff, List.any_eq_true,
    decide_eq_true_eq, not_exists, not_and]

/-- C11. In a reachable state, on a live container with entry sequence `s`: `pop()` throws
`std::invalid_argument` exactly when `s` is empty; `pop(k)` and `move_to_back(k)` throw it
exactly when `count(k) == 0`; every mutating call returns or throws `std::invalid_argument`;
and after a call that throws, the entry sequence, `size()`, `count(k')` for every `k'` and
`v_refs_active` are what they were before the call. -/
theorem failure_keeps_state {w : World K V} (hw : Reachable w) {i : Nat} {s : List (K × V)}
    (hs : w.entries i = some s) :
    ((∃ w', w.pop i = some (.error .invalid_argument, w')) ↔ s = []) ∧
      (∀ k, (∃ w', w.pop_key i k = some (.error .invalid_argument, w')) ↔
        w.count i k = some 0) ∧
      (∀ k, (∃ w', w.move_to_back i k = some (.error .invalid_argument, w')) ↔
        w.count i k = some 0) ∧
      (∀ op, ∃ r w', w.apply i op = some (r, w') ∧
        (r = .ok () ∨ r = .error .invalid_argument)) ∧
      ∀ op e w', w.apply i op = some (.error e, w') →
        w'.entries i = some s ∧ w'.size i = w.size i ∧
        (∀ k', w'.count i k' = w.count i k') ∧
        (w'.obj i).map kvfifo.v_refs_active = (w.obj i).map kvfifo.v_refs_active := by
  refine ⟨?_, ?_, ?_, ?_, ?_⟩
  · have := apply_fails_iff hw.wf hs .pop .invalid_argument
    rw [show w.pop i = w.apply i .pop from rfl, this]
    cases s <;> simp [MutOp.spec]
  · intro k
    have := apply_fails_iff hw.wf hs (.pop_key k) .invalid_argument
    rw [show w.pop_key i k = w.apply i (.pop_key k) from rfl, this,
      ← any_false_iff_count hw.wf hs k]
    by_cases h : s.any (fun e => decide (e.1 = k)) = true <;> simp [MutOp.spec, h]
  · intro k
    have := apply_fails_iff hw.wf hs (.move_to_back k) .invalid_argument
    rw [show w.move_to_back i k = w.apply i (.move_to_back k) from rfl, this,
      ← any_false_iff_count hw.wf hs k]
    by_cases h : s.any (fun e => decide (e.1 = k)) = true <;> simp [MutOp.spec, h]
  · intro op
    obtain ⟨r, w', fl, h1, h2, -⟩ := apply_spec hw.wf hs op
    refine ⟨r, w', h1, ?_⟩
    rw [h2]
    cases op with
    | push k v => left; rfl
    | clear => left; rfl
    | pop => cases s <;> simp [MutOp.spec, Except.map]
    | pop_key k =>
      by_cases h : s.any (fun e => decide (e.1 = k)) = true <;> simp [MutOp.spec, Except.map, h]
    | move_to_back k =>
      by_cases h : s.any (fun e => decide (e.1 = k)) = true <;> simp [MutOp.spec, Except.map, h]
  · intro op e w' h
    have hspec := (apply_fails_iff hw.wf hs op e).1 ⟨w', h⟩
    obtain ⟨w'', fl, h1, h2, hpost⟩ := apply_error_spec hw.wf hs hspec
    rw [h1] at h
    simp only [Option.some.injEq, Prod.mk.injEq, true_and] at h
    subst h
    obtain ⟨g1, -, -, -, g2, -⟩ := hw.wf.view hs
    obtain ⟨g1', -, -, -, g2', -⟩ := hpost.wf.view hpost.entries
    refine ⟨hpost.entries, by rw [g1, g1'], fun k' => by rw [g2, g2'], ?_⟩
    rw [hpost.flag, h2]

theorem failure_keeps_state_witness :
    Reachable sample_shared ∧ sample_shared.entries 1 = some [(1, 10), (2, 20), (1, 30)] ∧
      (((∃ w', sample_shared.pop 1 = some (.error .invalid_argument, w')) ↔
          [(1, 10), (2, 20), (1, 30)] = []) ∧
        (∀ k, (∃ w', sample_shared.pop_key 1 k = some (.error .invalid_argument, w')) ↔
          sample_shared.count 1 k = some 0) ∧
        (∀ k, (∃ w', sample_shared.move_to_back 1 k = some (.error .invalid_argument, w')) ↔
          sample_shared.count 1 k = some 0) ∧
        (∀ op, ∃ r w', sample_shared.apply 1 op = some (r, w') ∧
          (r = .ok () ∨ r = .error .invalid_argument)) ∧
        ∀ op e w', sample_shared.apply 1 op = some (.error e, w') →
          w'.entries 1 = some [(1, 10), (2, 20), (1, 30)] ∧
          w'.size 1 = sample_shared.size 1 ∧
          (∀ k', w'.count 1 k' = sample_shared.count 1 k') ∧
          (w'.obj 1).map kvfifo.v_refs_active =
            (sample_shared.obj 1).map kvfifo.v_refs_active) :=
  ⟨sample_shared_reachable, by decide, failure_keeps_state sample_shared_reachable (by decide)⟩

/-- Both forms of an accessor in terms of the entry sequence `s`: the const form returns
`Accessor.spec s`; the non-const form forks and then either throws what the const form
throws, leaving the flag alone, or sets the flag and returns the key and a reference to the
value of a node of the object's own `kv_struct` that stores the pair the const form
returns. -/
theorem get_spec {w : World K V} (hw : WorldWF w) {i : Nat} {s : List (K × V)}
    (hs : w.entries i = some s) (acc : Accessor K) :
    w.get_const i acc = some (Accessor.spec s acc) ∧
      ((∃ e w' fl, Accessor.spec s acc = .error e ∧ w.get i acc = some (.error e, w') ∧
          (w.obj i).map kvfifo.v_refs_active = some fl ∧ Post w w' i s fl) ∨
        ∃ (n : Node K V) (a1 : Nat) (w' : World K V), Accessor.spec s acc = .ok n.pair ∧
          w.get i acc = some (.ok (n.key, ⟨a1, n.addr⟩), w') ∧ Post w w' i s true ∧
          w'.obj i = some ⟨some a1, true⟩ ∧ w'.deref ⟨a1, n.addr⟩ = some n.val) := by
  obtain ⟨c, hc, hce⟩ := entries_some hs
  subst hce
  have hwfc := hw.cell_wf_of hc
  refine ⟨by rw [get_const_eq, hc, Option.some_bind, hwfc.get_eq], ?_⟩
  obtain ⟨w1, a1, c1, o, ho, hf, hacc⟩ := access_eq hw hc (fun c => c.node_of acc)
  have hwf1 := hf.wf.cell_wf hf.cell_i
  have hget := get_eq_node_of c1 acc
  rw [hwf1.1.get_eq, hf.entries] at hget
  rw [get_eq_access, hacc]
  cases hn : c1.node_of acc with
  | none => rw [hn] at hget; simp at hget
  | some x =>
    rw [hn] at hget
    simp only [Option.map_some', Option.some.injEq] at hget
    cases x with
    | error e =>
      left
      refine ⟨e, w1, o.v_refs_active, by rw [hget]; rfl, rfl, by rw [ho]; rfl,
        hf.post_same hw⟩
    | ok n =>
      right
      have hi : i < w1.objs.length := obj_lt_length hf.obj_i
      have hobj : (w1.set_obj i ⟨some a1, true⟩).obj i = some ⟨some a1, true⟩ := by
        rw [obj_set_obj, if_pos rfl, if_pos hi]
      refine ⟨n, a1, _, by rw [hget]; rfl, rfl, ?_, hobj, ?_⟩
      · rw [← hf.entries]
        apply hf.post hw
        · intro b
          split_ifs with e
          · rw [e]; exact hf.cell_i
          · rfl
        · rfl
        · intro j hj
          rw [obj_set_obj, if_neg (Ne.symm hj)]
        · exact hobj
        · exact le_refl _
        · exact hwf1.1
        · exact hwf1.2
      · have hu := use_count_pos hobj rfl
        have hh : (w1.set_obj i ⟨some a1, true⟩).heap[a1]? = some c1 := hf.cell_i
        simp only [World.deref, if_neg hu, hh,
          find_node_of_nodup hwf1.1.nodup (node_of_mem hn), Option.map_some']

theorem absent_iff_lacks {w : World K V} (hw : WorldWF w) {i : Nat} {s : List (K × V)}
    (hs : w.entries i = some s) (acc : Accessor K) :
    Accessor.absent s acc ↔ w.lacks i acc := by
  obtain ⟨-, h2, -, -, h5, -⟩ := hw.view hs
  cases acc with
  | front => cases s <;> simp [Accessor.absent, World.lacks, h2]
  | back => cases s <;> simp [Accessor.absent, World.lacks, h2]
  | first k => simp [Accessor.absent, World.lacks, h5 k]
  | last k => simp [Accessor.absent, World.lacks, h5 k]

/-- C12. In a reachable state, on a live container with entry sequence `s`, for each of
`front`, `back`, `first(k)`, `last(k)`: the const form and the non-const form both return or
throw; each throws `std::invalid_argument` exactly when the entry is absent (`s` empty for
`front`/`back`, which is `empty()`; no entry with key `k` for `first`/`last`, which is
`count(k) == 0`); and when the entry is there, the const form returns `(k, v)` and the
non-const form returns the same key `k` with a reference whose value is `v`. -/
theorem accessors_agree {w : World K V} (hw : Reachable w) {i : Nat} {s : List (K × V)}
    (hs : w.entries i = some s) (acc : Accessor K) :
    (Accessor.absent s acc ↔ w.lacks i acc) ∧
      ∃ res res' w', w.get_const i acc = some res ∧ w.get i acc = some (res', w') ∧
        (res = .error .invalid_argument ↔ Accessor.absent s acc) ∧
        (res' = .error .invalid_argument ↔ Accessor.absent s acc) ∧
        (Accessor.absent s acc ∨
          ∃ k v r, res = .ok (k, v) ∧ res' = .ok (k, r) ∧ w'.deref r = some v) := by
  refine ⟨absent_iff_lacks hw.wf hs acc, ?_⟩
  obtain ⟨h1, h2⟩ := get_spec hw.wf hs acc
  obtain ⟨g1, g2⟩ := spec_error_iff s acc
  rcases h2 with ⟨e, w', fl, he, hget, -, -⟩ | ⟨n, a1, w', hn, hget, -, -, hd⟩
  · have hab : Accessor.absent s acc := by
      rcases g2 with h | ⟨x, hx⟩
      · exact h
      · rw [hx] at he; simp at he
    have he' : e = .invalid_argument := by
      rw [g1.2 hab] at he
      simp only [Except.error.injEq] at he
      exact he.symm
    subst he'
    refine ⟨_, _, w', h1, hget, g1, ?_, Or.inl hab⟩
    simp [hab]
  · have hnab : ¬ Accessor.absent s acc := by
      intro h
      rw [g1.2 h] at hn
      simp at hn
    refine ⟨_, _, w', h1, hget, g1, ?_, Or.inr ⟨n.key, n.val, ⟨a1, n.addr⟩, hn, rfl, hd⟩⟩
    simp [hnab]

theorem accessors_agree_witness :
    Reachable sample ∧ sample.entries 0 = some [(1, 10), (2, 20), (1, 30)] ∧
      ((Accessor.absent [(1, 10), (2, 20), (1, 30)] (Accessor.last 1) ↔
          sample.lacks 0 (Accessor.last 1)) ∧
        ∃ res res' w', sample.get_const 0 (Accessor.last 1) = some res ∧
          sample.get 0 (Accessor.last 1) = some (res', w') ∧
          (res = .error .invalid_argument ↔
            Accessor.absent [(1, 10), (2, 20), (1, 30)] (Accessor.last 1)) ∧
          (res' = .error .invalid_argument ↔
            Accessor.absent [(1, 10), (2, 20), (1, 30)] (Accessor.last 1)) ∧
          (Accessor.absent [(1, 10), (2, 20), (1, 30)] (Accessor.last 1) ∨
            ∃ k v r, res = .ok (k, v) ∧ res' = .ok (k, r) ∧ w'.deref r = some v)) :=
  ⟨sample_reachable, by decide,
    accessors_agree sample_reachable
      (by decide : sample.entries 0 = some [(1, 10), (2, 20), (1, 30)]) (Accessor.last 1)⟩

/-- C19. In a reachable state, when a non-const accessor on a live container with entry
sequence `s` returns the key `k` and the reference `r`: the entry sequence is still `s`; the
value behind `r` is the `v` for which the const form returned `(k, v)` before the call and
returns it after; the container is the sole owner of its `kv_struct` (`use_count() == 1`),
which is the one `r` points into; and `v_refs_active` is true. -/
theorem mutable_accessor_success {w : World K V} (hw : Reachable w) {i : Nat}
    {s : List (K × V)} (hs : w.entries i = some s) (acc : Accessor K) {k : K} {r : Ref}
    {w' : World K V} (h : w.get i acc = some (.ok (k, r), w')) :
    w'.entries i = some s ∧
      (∃ v, w'.deref r = some v ∧ w.get_const i acc = some (.ok (k, v)) ∧
        w'.get_const i acc = some (.ok (k, v))) ∧
      ∃ a, w'.obj i = some ⟨some a, true⟩ ∧ r.cell = a ∧ w'.sole_owner i a ∧
        w'.use_count (some a) = 1 := by
  obtain ⟨h1, h2⟩ := get_spec hw.wf hs acc
  rcases h2 with ⟨e, w'', fl, -, hget, -, -⟩ | ⟨n, a1, w'', hn, hget, hpost, hobj, hd⟩
  · rw [hget] at h; simp at h
  · rw [hget] at h
    simp only [Option.some.injEq, Prod.mk.injEq, Except.ok.injEq] at h
    obtain ⟨⟨hk, hr⟩, hw'⟩ := h
    subst hk hr hw'
    have h1' := (get_spec hpost.wf hpost.entries acc).1
    obtain ⟨a, ha, hsole⟩ := hpost.owner
    have haa : a = a1 := by
      rw [hobj] at ha
      simpa using ha.symm
    subst haa
    refine ⟨hpost.entries, ⟨n.val, hd, by rw [h1, hn]; rfl, by rw [h1', hn]; rfl⟩,
      a, hobj, rfl, hsole, use_count_of_sole_owner hobj rfl hsole⟩

theorem mutable_accessor_success_witness :
    Reachable sample_shared ∧ sample_shared.entries 1 = some [(1, 10), (2, 20), (1, 30)] ∧
      sample_shared.get 1 (Accessor.first 2) = some (.ok (2, ⟨1, 4⟩),
        (⟨[⟨[⟨0, 1, 10⟩, ⟨1, 2, 20⟩, ⟨2, 1, 30⟩], [(1, [0, 2]), (2, [1])]⟩,
            ⟨[⟨3, 1, 10⟩, ⟨4, 2, 20⟩, ⟨5, 1, 30⟩], [(1, [3, 5]), (2, [4])]⟩],
          [some ⟨some 0, false⟩, some ⟨some 1, true⟩], 6⟩ : World Nat Nat)) ∧
      ∃ w' : World Nat Nat, w'.entries 1 = some [(1, 10), (2, 20), (1, 30)] ∧
        (∃ v, w'.deref ⟨1, 4⟩ = some v ∧
          sample_shared.get_const 1 (Accessor.first 2) = some (.ok (2, v)) ∧
          w'.get_const 1 (Accessor.first 2) = some (.ok (2, v))) ∧
        ∃ a, w'.obj 1 = some ⟨some a, true⟩ ∧ (⟨1, 4⟩ : Ref).cell = a ∧ w'.sole_owner 1 a ∧
          w'.use_count (some a) = 1 :=
  ⟨sample_shared_reachable, by decide, rfl,
    ⟨_, mutable_accessor_success sample_shared_reachable
      (by decide : sample_shared.entries 1 = some [(1, 10), (2, 20), (1, 30)])
      (Accessor.first 2) (rfl : sample_shared.get 1 (Accessor.first 2) = some (.ok (2, ⟨1, 4⟩),
        (⟨[⟨[⟨0, 1, 10⟩, ⟨1, 2, 20⟩, ⟨2, 1, 30⟩], [(1, [0, 2]), (2, [1])]⟩,
            ⟨[⟨3, 1, 10⟩, ⟨4, 2, 20⟩, ⟨5, 1, 30⟩], [(1, [3, 5]), (2, [4])]⟩],
          [some ⟨some 0, false⟩, some ⟨some 1, true⟩], 6⟩ : World Nat Nat)))⟩⟩

end FailureClaims

section ConstClaims

variable {K V : Type} [LinearOrder K]

/-- On a well-formed `kv_struct`, the run of `first(key) const` or `last(key) const` returns
what the method returns and leaves the `kv_struct` as it was: `K_it_lists[key]` is reached
only when the key has a bucket. -/
theorem CellWF.bucket_end_run_eq {c : kv_struct K V} (h : CellWF c) (k : K) :
    c.bucket_end_run k false = (c.first k).map (fun r => (r, c)) ∧
      c.bucket_end_run k true = (c.last k).map (fun r => (r, c)) := by
  obtain ⟨q, m⟩ := c
  have hne := h.index.nonempty k
  simp only at hne
  cases hf : map_find m k with
  | none =>
    simp [kv_struct.bucket_end_run, kv_struct.first, kv_struct.first_node, kv_struct.last,
      kv_struct.last_node, hf, Except.map]
  | some l =>
    have hsub : map_subscript m k = m :=
      map_subscript_of_find h.index.sorted (by rw [hf]; simp)
    cases l with
    | nil => exact absurd hf hne
    | cons it l =>
      refine ⟨?_, ?_⟩
      · simp only [kv_struct.bucket_end_run, kv_struct.first, kv_struct.first_node, hf, hsub,
          Bool.false_eq_true, if_false, List.head?_cons]
        cases find_node q it <;> rfl
      · simp only [kv_struct.bucket_end_run, kv_struct.last, kv_struct.last_node, hf, hsub,
          if_true]
        cases (it :: l).getLast? with
        | none => rfl
        | some x =>
          dsimp only
          cases find_node q x <;> rfl

/-- C18. In a reachable state, every const method (`front`, `back`, `first(k)`, `last(k)`,
`size`, `empty`, `count(k)`, `k_begin`, `k_end`) called on a live container returns its value,
or throws, and leaves the whole state as it was: the container holds the same `kv_struct`,
whose queue and index are unchanged (no bucket is created for an absent key), and
`v_refs_active` is unchanged. -/
theorem const_methods_pure {w : World K V} (hw : Reachable w) {i : Nat} {s : List (K × V)}
    (hs : w.entries i = some s) (op : ConstOp K) :
    ∃ r, w.call_const i op = some (r, w) ∧ w.const_val i op = some r := by
  obtain ⟨c, hc, -⟩ := entries_some hs
  obtain ⟨o, a, ho, hp, hh⟩ := cell_some hc
  have hwf := hw.wf.cell_wf_of hc
  have hsame := set_cell_same hh
  have hb := hwf.bucket_end_run_eq
  cases op with
  | front =>
    exact ⟨.entry c.front, by simp only [World.call_const, ho, hp, hh, kv_struct.const_run, hsame],
      by simp only [World.const_val, World.front_const, hc, Option.map_some']⟩
  | back =>
    exact ⟨.entry c.back, by simp only [World.call_const, ho, hp, hh, kv_struct.const_run, hsame],
      by simp only [World.const_val, World.back_const, hc, Option.map_some']⟩
  | size =>
    exact ⟨.nat c.K_V_queue.length, by simp only [World.call_const, ho, hp, hh, kv_struct.const_run, hsame],
      by simp only [World.const_val, World.size, hc, Option.map_some', kv_struct.size]⟩
  | empty =>
    exact ⟨.bool c.K_V_queue.isEmpty, by simp only [World.call_const, ho, hp, hh, kv_struct.const_run, hsame],
      by simp only [World.const_val, World.empty, hc, Option.map_some', kv_struct.empty]⟩
  | k_begin =>
    exact ⟨.iter ⟨0⟩, by simp only [World.call_const, ho, hp, hh, kv_struct.const_run, hsame],
      by simp only [World.const_val, World.k_begin, hc, Option.map_some', kv_struct.k_begin]⟩
  | k_end =>
    exact ⟨.iter ⟨c.K_it_lists.length⟩, by simp only [World.call_const, ho, hp, hh, kv_struct.const_run, hsame],
      by simp only [World.const_val, World.k_end, hc, Option.map_some', kv_struct.k_end]⟩
  | count k =>
    cases hf : map_find c.K_it_lists k with
    | none =>
      exact ⟨.nat 0, by simp only [World.call_const, ho, hp, hh, kv_struct.const_run, hf, hsame],
        by simp only [World.const_val, World.count, hc, Option.map_some', kv_struct.count, hf]⟩
    | some l =>
      exact ⟨.nat l.length,
        by simp only [World.call_const, ho, hp, hh, kv_struct.const_run, hf, hsame],
        by simp only [World.const_val, World.count, hc, Option.map_some', kv_struct.count, hf]⟩
  | first k =>
    obtain ⟨r, hr⟩ : ∃ r, c.first k = some r := ⟨_, hwf.first_eq k⟩
    exact ⟨.entry r,
      by simp only [World.call_const, ho, hp, hh, kv_struct.const_run, (hb k).1, hr,
        Option.map_some', hsame],
      by simp only [World.const_val, World.first_const, hc, Option.some_bind, hr,
        Option.map_some']⟩
  | last k =>
    obtain ⟨r, hr⟩ : ∃ r, c.last k = some r := ⟨_, hwf.last_eq k⟩
    exact ⟨.entry r,
      by simp only [World.call_const, ho, hp, hh, kv_struct.const_run, (hb k).2, hr,
        Option.map_some', hsame],
      by simp only [World.const_val, World.last_const, hc, Option.some_bind, hr,
        Option.map_some']⟩

theorem const_methods_pure_witness :
    Reachable sample_shared ∧ sample_shared.entries 1 = some [(1, 10), (2, 20), (1, 30)] ∧
      ∃ r, sample_shared.call_const 1 (ConstOp.first 3) = some (r, sample_shared) ∧
        sample_shared.const_val 1 (ConstOp.first 3) = some r :=
  ⟨sample_shared_reachable, by decide,
    const_methods_pure sample_shared_reachable
      (by decide : sample_shared.entries 1 = some [(1, 10), (2, 20), (1, 30)])
      (ConstOp.first 3)⟩

end ConstClaims

section IteratorClaims

variable {K V : Type} [LinearOrder K]

theorem k_iterator_eq_iff (a b : k_iterator) : a = b ↔ a.wrapped = b.wrapped := by
  cases a; cases b; simp

/-- The forward loop started at position `pos` meets the keys from `pos` on, given fuel for
the rounds left. -/
theorem k_forward_from (c : kv_struct K V) :
    ∀ (fuel pos : Nat), pos ≤ c.K_it_lists.length → c.K_it_lists.length - pos ≤ fuel →
      c.k_forward fuel ⟨pos⟩ = some ((c.K_it_lists.drop pos).map Prod.fst)
  | 0, pos, h1, h2 => by
    have : pos = c.K_it_lists.length := by omega
    subst this
    simp [kv_struct.k_forward, kv_struct.k_end]
  | fuel + 1, pos, h1, h2 => by
    by_cases he : pos = c.K_it_lists.length
    · subst he
      simp [kv_struct.k_forward, kv_struct.k_end]
    · have hlt : pos < c.K_it_lists.length := by omega
      have ih := k_forward_from c fuel (pos + 1) hlt (by omega)
      have hne : (⟨pos⟩ : k_iterator) ≠ c.k_end := by
        rw [Ne, k_iterator_eq_iff]; exact he
      simp only [kv_struct.k_forward, if_neg hne, kv_struct.k_deref, kv_struct.k_incr,
        List.getElem?_eq_getElem hlt, Option.map_some', if_pos hlt, ih]
      rw [List.drop_eq_getElem_cons hlt]
      rfl

/-- The backward loop started at position `pos` meets the keys before `pos`, last first,
given fuel for the rounds left. -/
theorem k_backward_from (c : kv_struct K V) :
    ∀ (fuel pos : Nat), pos ≤ c.K_it_lists.length → pos ≤ fuel →
      c.k_backward fuel ⟨pos⟩ = some (((c.K_it_lists.take pos).map Prod.fst).reverse)
  | 0, pos, h1, h2 => by
    have : pos = 0 := by omega
    subst this
    simp [kv_struct.k_backward, kv_struct.k_begin]
  | fuel + 1, 0, h1, h2 => by
    simp [kv_struct.k_backward, kv_struct.k_begin]
  | fuel + 1, pos + 1, h1, h2 => by
    have hlt : pos < c.K_it_lists.length := by omega
    have ih := k_backward_from c fuel pos (by omega) (by omega)
    have hne : (⟨pos + 1⟩ : k_iterator) ≠ c.k_begin := by
      rw [Ne, k_iterator_eq_iff]; simp [kv_struct.k_begin]
    have hdec : 0 < pos + 1 ∧ pos + 1 ≤ c.K_it_lists.length := ⟨by omega, h1⟩
    simp only [kv_struct.k_backward, if_neg hne, kv_struct.k_decr, if_pos hdec,
      Nat.add_sub_cancel, kv_struct.k_deref, List.getElem?_eq_getElem hlt, Option.map_some', ih]
    have e : c.K_it_lists.take (pos + 1) = c.K_it_lists.take pos ++ [c.K_it_lists[pos]] := by
      rw [List.take_succ, List.getElem?_eq_getElem hlt]; rfl
    rw [e, List.map_append, List.reverse_append]
    rfl

theorem keys_count {w : World K V} (hw : WorldWF w) {i : Nat} {s : List (K × V)}
    (hs : w.entries i = some s) (k : K) :
    s.any (fun e => decide (e.1 = k)) = true ↔ ∃ m, w.count i k = some (m + 1) := by
  constructor
  · intro h
    by_contra hc
    have : w.count i k = some 0 := by
      rw [(hw.view hs).2.2.2.2.1 k]
      cases hl : (s.filter (fun e => decide (e.1 = k))).length with
      | zero => rfl
      | succ m => exact absurd ⟨m, by rw [(hw.view hs).2.2.2.2.1 k, hl]⟩ hc
    exact ((any_false_iff_count hw hs k).2 this) h
  · rintro ⟨m, hm⟩
    by_contra hc
    rw [(any_false_iff_count hw hs k).1 hc] at hm
    simp at hm

/-- When no allocation has failed: in a state of `Reachable`, on a live container, the loop
from `k_begin()` to `k_end()` with `++` ends (with fuel for as many rounds as there are keys)
and yields a list of keys that is strictly ascending, has no key twice, and has exactly the
keys `k` with `count(k) > 0`. -/
theorem forward_traversal_sorted {w : World K V} (hw : Reachable w) {i : Nat}
    {s : List (K × V)} (hs : w.entries i = some s) :
    ∃ ks, (∀ fuel, ks.length ≤ fuel → w.k_forward i fuel = some ks) ∧
      ks.Pairwise (· < ·) ∧ ks.Nodup ∧ ∀ k, k ∈ ks ↔ ∃ m, w.count i k = some (m + 1) := by
  obtain ⟨c, hc, he⟩ := entries_some hs
  have hwf := hw.wf.cell_wf_of hc
  refine ⟨c.keys, ?_, hwf.keys_sorted, hwf.keys_sorted.nodup, ?_⟩
  · intro fuel hfuel
    simp only [World.k_forward, hc, Option.some_bind, kv_struct.k_begin]
    rw [k_forward_from c fuel 0 (Nat.zero_le _) (by simpa [kv_struct.keys] using hfuel)]
    rfl
  · intro k
    rw [hwf.mem_keys, he]
    exact keys_count hw.wf hs k

theorem forward_traversal_sorted_witness :
    Reachable sample ∧ sample.entries 0 = some [(1, 10), (2, 20), (1, 30)] ∧
      ∃ ks, (∀ fuel, ks.length ≤ fuel → sample.k_forward 0 fuel = some ks) ∧
        ks.Pairwise (· < ·) ∧ ks.Nodup ∧ ∀ k, k ∈ ks ↔ ∃ m, sample.count 0 k = some (m + 1) :=
  ⟨sample_reachable, by decide,
    forward_traversal_sorted sample_reachable
      (by decide : sample.entries 0 = some [(1, 10), (2, 20), (1, 30)])⟩

/-- C16. In every state, reachable ones included, on a live container with `kv_struct` `c`: the loop from
`k_end()` back to `k_begin()` with `--` ends and yields the keys of the forward loop in
reverse order; for every iterator `it` of the container other than `k_end()`, `++it` is
defined, `--(++it) == it`, and `it++` returns the old `it` and leaves `it` where `++it`
does; for every iterator other than `k_begin()`, `--it` is defined, `++(--it) == it`, and
`it--` returns the old `it` and leaves `it` where `--it` does. -/
theorem iterator_bidirectional {w : World K V} {i : Nat} {s : List (K × V)}
    (hs : w.entries i = some s) :
    ∃ ks c, w.cell i = some c ∧
      (∀ fuel, ks.length ≤ fuel → w.k_forward i fuel = some ks) ∧
      (∀ fuel, ks.length ≤ fuel → w.k_backward i fuel = some ks.reverse) ∧
      (∀ it : k_iterator, it.wrapped ≤ c.k_end.wrapped → it ≠ c.k_end →
        ∃ it', c.k_incr it = some it' ∧ c.k_decr it' = some it ∧
          c.k_post_incr it = some (it, it')) ∧
      ∀ it : k_iterator, it.wrapped ≤ c.k_end.wrapped → it ≠ c.k_begin →
        ∃ it', c.k_decr it = some it' ∧ c.k_incr it' = some it ∧
          c.k_post_decr it = some (it, it') := by
  obtain ⟨c, hc, -⟩ := entries_some hs
  refine ⟨c.keys, c, hc, ?_, ?_, ?_, ?_⟩
  · intro fuel hfuel
    simp only [World.k_forward, hc, Option.some_bind, kv_struct.k_begin]
    rw [k_forward_from c fuel 0 (Nat.zero_le _) (by simpa [kv_struct.keys] using hfuel)]
    rfl
  · intro fuel hfuel
    simp only [World.k_backward, hc, Option.some_bind, kv_struct.k_end]
    rw [k_backward_from c fuel _ (le_refl _) (by simpa [kv_struct.keys] using hfuel)]
    simp [kv_struct.keys]
  · intro it hle hne
    rw [Ne, k_iterator_eq_iff] at hne
    simp only [kv_struct.k_end] at hle hne
    have hlt : it.wrapped < c.K_it_lists.length := by omega
    refine ⟨⟨it.wrapped + 1⟩, by simp [kv_struct.k_incr, hlt], ?_, ?_⟩
    · have : 0 < it.wrapped + 1 ∧ it.wrapped + 1 ≤ c.K_it_lists.length := ⟨by omega, hlt⟩
      simp [kv_struct.k_decr, this]
    · simp [kv_struct.k_post_incr, kv_struct.k_incr, hlt]
  · intro it hle hne
    rw [Ne, k_iterator_eq_iff] at hne
    simp only [kv_struct.k_end] at hle
    simp only [kv_struct.k_begin] at hne
    have hpos : 0 < it.wrapped ∧ it.wrapped ≤ c.K_it_lists.length := ⟨by omega, hle⟩
    have hlt : it.wrapped - 1 < c.K_it_lists.length := by omega
    have hback : it.wrapped - 1 + 1 = it.wrapped := by omega
    refine ⟨⟨it.wrapped - 1⟩, by simp [kv_struct.k_decr, hpos], ?_, ?_⟩
    · simp [kv_struct.k_incr, hlt, hback]
    · simp [kv_struct.k_post_decr, kv_struct.k_decr, hpos]

theorem iterator_bidirectional_witness :
    Reachable sample ∧ sample.entries 0 = some [(1, 10), (2, 20), (1, 30)] ∧
      ∃ ks c, sample.cell 0 = some c ∧
        (∀ fuel, ks.length ≤ fuel → sample.k_forward 0 fuel = some ks) ∧
        (∀ fuel, ks.length ≤ fuel → sample.k_backward 0 fuel = some ks.reverse) ∧
        (∀ it : k_iterator, it.wrapped ≤ c.k_end.wrapped → it ≠ c.k_end →
          ∃ it', c.k_incr it = some it' ∧ c.k_decr it' = some it ∧
            c.k_post_incr it = some (it, it')) ∧
        ∀ it : k_iterator, it.wrapped ≤ c.k_end.wrapped → it ≠ c.k_begin →
          ∃ it', c.k_decr it = some it' ∧ c.k_incr it' = some it ∧
            c.k_post_decr it = some (it, it') :=
  ⟨sample_reachable, by decide,
    iterator_bidirectional (by decide : sample.entries 0 = some [(1, 10), (2, 20), (1, 30)])⟩

end IteratorClaims

/-! ### Concrete runs -/

/-- C17. The trace of the spec on a `kvfifo<int, string>`: after `push(1, "a")`,
`push(2, "b")`, `push(1, "c")` on an empty container, `size() == 3`, `count(1) == 2`,
`front() == (1, "a")`, `back() == (1, "c")`, `first(1) == (1, "a")`, `last(1) == (1, "c")`;
after `pop()`, `front() == (2, "b")` and `count(1) == 1`; after `move_to_back(2)`, the
sequence is `[(1, "c"), (2, "b")]`. -/
theorem spec_trace :
    ∃ w1 w2 w3 : World Int String, World.init.run trace_program = some w1 ∧
      w1.size 0 = some 3 ∧ w1.count 0 1 = some 2 ∧
      w1.front_const 0 = some (.ok (1, "a")) ∧ w1.back_const 0 = some (.ok (1, "c")) ∧
      w1.first_const 0 1 = some (.ok (1, "a")) ∧ w1.last_const 0 1 = some (.ok (1, "c")) ∧
      w1.pop 0 = some (.ok (), w2) ∧
      w2.front_const 0 = some (.ok (2, "b")) ∧ w2.count 0 1 = some 1 ∧
      w2.move_to_back 0 2 = some (.ok (), w3) ∧
      w3.entries 0 = some [(1, "c"), (2, "b")] :=
  ⟨_, _, _, rfl, rfl, rfl, rfl, rfl, rfl, rfl, rfl, rfl, rfl, rfl, rfl⟩

/-- C13, at a failing input.  On the container of `sample`, whose key 1 has two entries,
`push(1, 40)` in which `emplace_back` or the bucket's `push_back` fails to allocate throws
`std::bad_alloc` and leaves the three entries in the queue but no bucket for key 1:
`count(1)` has dropped from 2 to 0 while `size()` is still 3. -/
theorem push_failure_drops_bucket :
    sample.count 0 1 = some 2 ∧ sample.size 0 = some 3 ∧
      ∀ pt, pt = PushFault.entry ∨ pt = PushFault.slot →
        ∃ w', sample.push_faulty 0 1 40 pt = some (.error .bad_alloc, w') ∧
          w'.entries 0 = some [(1, 10), (2, 20), (1, 30)] ∧ w'.size 0 = some 3 ∧
          w'.count 0 1 = some 0 ∧ w'.keys 0 = some [2] := by
  refine ⟨rfl, rfl, ?_⟩
  rintro pt (rfl | rfl)
  · exact ⟨_, rfl, rfl, rfl, rfl, rfl⟩
  · exact ⟨_, rfl, rfl, rfl, rfl, rfl⟩

/-- C14, at a failing input.  In `sample_shared` the second container shares its `kv_struct`
(at 0) with the first.  When the deep copy made for it fails to allocate the bucket of key 2
in round 1 of the rebuild loop, `std::bad_alloc` leaves the container holding the new
`kv_struct` (at 1) with all three entries and an index that has key 1 only: `count(2)` has
dropped from 1 to 0. -/
theorem deep_copy_failure_keeps_partial :
    sample_shared.obj 1 = some ⟨some 0, false⟩ ∧ sample_shared.count 1 2 = some 1 ∧
      ∃ w', sample_shared.p_copy_if_shared_faulty 1 (.bucket 1) = some (.error .bad_alloc, w') ∧
        w'.obj 1 = some ⟨some 1, false⟩ ∧
        w'.entries 1 = some [(1, 10), (2, 20), (1, 30)] ∧
        w'.count 1 2 = some 0 ∧ w'.keys 1 = some [1] :=
  ⟨rfl, rfl, _, rfl, rfl, rfl, rfl, rfl⟩

/-- C20, at a failing input.  In `sample_shared_empty` two containers share one empty
`kv_struct` (at 0, `use_count() == 2`).  The non-const `front()` on the first throws
`std::invalid_argument` and leaves it holding a new `kv_struct` (at 1) of its own, the old
one being left to the other container; the same holds for the non-const `back()`,
`first(7)` and `last(7)`.  The flag is as before. -/
theorem accessor_failure_keeps_fork :
    sample_shared_empty.obj 0 = some ⟨some 0, false⟩ ∧
      sample_shared_empty.use_count (some 0) = 2 ∧
      ∀ acc, acc = Accessor.front ∨ acc = Accessor.back ∨ acc = Accessor.first 7 ∨
          acc = Accessor.last 7 →
        ∃ w', sample_shared_empty.get 0 acc = some (.error .invalid_argument, w') ∧
          w'.obj 0 = some ⟨some 1, false⟩ ∧ w'.use_count (some 0) = 1 ∧
          w'.use_count (some 1) = 1 := by
  refine ⟨rfl, rfl, ?_⟩
  rintro acc (rfl | rfl | rfl | rfl)
  · exact ⟨_, rfl, rfl, rfl, rfl⟩
  · exact ⟨_, rfl, rfl, rfl, rfl⟩
  · exact ⟨_, rfl, rfl, rfl, rfl⟩
  · exact ⟨_, rfl, rfl, rfl, rfl⟩

section WriteClaims

variable {K V : Type} [LinearOrder K]

/-! ### Writing through the view of a mutable accessor -/

theorem filter_getLast_split {α : Type} (p : α → Bool) : ∀ (l : List α) (a : α),
    (l.filter p).getLast? = some a →
      ∃ l1 l2, l = l1 ++ a :: l2 ∧ p a = true ∧ ∀ x ∈ l2, p x = false
  | [], a, h => by simp at h
  | x :: t, a, h => by
    by_cases hx : p x = true
    · rw [List.filter_cons_of_pos hx] at h
      cases hft : t.filter p with
      | nil =>
        rw [hft] at h
        simp only [List.getLast?_singleton, Option.some.injEq] at h
        subst h
        refine ⟨[], t, rfl, hx, ?_⟩
        intro y hy
        have := List.filter_eq_nil_iff.1 hft y hy
        simpa using this
      | cons y ys =>
        rw [hft, List.getLast?_cons_cons, ← hft] at h
        obtain ⟨l1, l2, e, h1, h2⟩ := filter_getLast_split p t a h
        exact ⟨x :: l1, l2, by rw [e]; rfl, h1, h2⟩
    · rw [List.filter_cons_of_neg hx] at h
      obtain ⟨l1, l2, e, h1, h2⟩ := filter_getLast_split p t a h
      exact ⟨x :: l1, l2, by rw [e]; rfl, h1, h2⟩

theorem write_node_of_not_mem {q : List (Node K V)} {it : Nat} (h : it ∉ q.map Node.addr)
    (v : V) : write_node q it v = q := by
  unfold write_node
  conv_rhs => rw [← List.map_id q]
  apply List.map_congr_left
  intro m hm
  have : m.addr ≠ it := fun e => h (e ▸ List.mem_map.2 ⟨m, hm, rfl⟩)
  simp [this]

theorem write_node_split {q1 q2 : List (Node K V)} {n : Node K V}
    (hq : ((q1 ++ n :: q2).map Node.addr).Nodup) (v : V) :
    write_node (q1 ++ n :: q2) n.addr v = q1 ++ { n with val := v } :: q2 := by
  rw [List.map_append, List.map_cons, List.nodup_append] at hq
  obtain ⟨-, h2, h3⟩ := hq
  have hq1 : n.addr ∉ q1.map Node.addr := fun hm => h3 hm (List.mem_cons_self _ _)
  have hq2 : n.addr ∉ q2.map Node.addr := (List.nodup_cons.1 h2).1
  have e1 := write_node_of_not_mem hq1 v
  have e2 := write_node_of_not_mem hq2 v
  unfold write_node at e1 e2 ⊢
  rw [List.map_append, List.map_cons, e1, e2, if_pos rfl]

/-- The node an accessor selects stands at the position the accessor designates. -/
theorem node_of_split {c : kv_struct K V} (hc : CellWF c) {acc : Accessor K} {n : Node K V}
    (h : c.node_of acc = some (.ok n)) :
    ∃ q1 q2, c.K_V_queue = q1 ++ n :: q2 ∧
      acc.designates (q1.map Node.pair) n.key (q2.map Node.pair) := by
  cases acc with
  | front =>
    simp only [kv_struct.node_of, kv_struct.front_node] at h
    cases hq : c.K_V_queue with
    | nil => rw [hq] at h; simp at h
    | cons m q =>
      rw [hq] at h
      simp only [Option.some.injEq, Except.ok.injEq] at h
      subst h
      exact ⟨[], q, rfl, rfl⟩
  | back =>
    simp only [kv_struct.node_of, kv_struct.back_node] at h
    cases hq : c.K_V_queue.getLast? with
    | none => rw [hq] at h; simp at h
    | some m =>
      rw [hq] at h
      simp only [Option.some.injEq, Except.ok.injEq] at h
      subst h
      refine ⟨c.K_V_queue.dropLast, [], ?_, rfl⟩
      exact (List.dropLast_append_getLast? m hq).symm
  | first k =>
    simp only [kv_struct.node_of, kv_struct.first_node, hc.index.find_eq k] at h
    by_cases hs : slots_of c.K_V_queue k = []
    · rw [if_pos hs] at h; simp at h
    · rw [if_neg hs] at h
      cases hl : slots_of c.K_V_queue k with
      | nil => exact absurd hl hs
      | cons it l =>
        rw [hl] at h
        dsimp only at h
        cases hf : find_node c.K_V_queue it with
        | none => rw [hf] at h; simp at h
        | some m =>
          rw [hf] at h
          simp only [Option.some.injEq, Except.ok.injEq] at h
          subst h
          unfold slots_of at hl
          obtain ⟨n0, r0, hfil, hn0, -⟩ := List.map_eq_cons_iff.1 hl
          obtain ⟨q1, q2, hq, hq1, hp, -⟩ := List.filter_eq_cons_iff.1 hfil
          have hmem : n0 ∈ c.K_V_queue := by rw [hq]; simp
          have hfn := find_node_of_nodup hc.nodup hmem
          rw [hn0, hf] at hfn
          simp only [Option.some.injEq] at hfn
          subst hfn
          have hk : m.key = k := by simpa using hp
          refine ⟨q1, q2, hq, hk.symm, ?_⟩
          intro e he
          obtain ⟨x, hx, rfl⟩ := List.mem_map.1 he
          have := hq1 x hx
          rw [hk]
          simpa [Node.pair] using this
  | last k =>
    simp only [kv_struct.node_of, kv_struct.last_node, hc.index.find_eq k] at h
    by_cases hs : slots_of c.K_V_queue k = []
    · rw [if_pos hs] at h; simp at h
    · rw [if_neg hs] at h
      dsimp only at h
      cases hl : (slots_of c.K_V_queue k).getLast? with
      | none => rw [hl] at h; simp at h
      | some it =>
        rw [hl] at h
        dsimp only at h
        cases hf : find_node c.K_V_queue it with
        | none => rw [hf] at h; simp at h
        | some m =>
          rw [hf] at h
          simp only [Option.some.injEq, Except.ok.injEq] at h
          subst h
          unfold slots_of at hl
          rw [List.getLast?_map] at hl
          obtain ⟨n0, hfil, hn0⟩ := Option.map_eq_some'.1 hl
          obtain ⟨q1, q2, hq, hp, hq2⟩ := filter_getLast_split _ _ _ hfil
          have hmem : n0 ∈ c.K_V_queue := by rw [hq]; simp
          have hfn := find_node_of_nodup hc.nodup hmem
          rw [hn0, hf] at hfn
          simp only [Option.some.injEq] at hfn
          subst hfn
          have hk : m.key = k := by simpa using hp
          refine ⟨q1, q2, hq, hk.symm, ?_⟩
          intro e he
          obtain ⟨x, hx, rfl⟩ := List.mem_map.1 he
          have := hq2 x hx
          rw [hk]
          simpa [Node.pair] using this

/-- The entry at the designated position is the one the accessor returns. -/
theorem spec_of_designates {acc : Accessor K} {s1 s2 : List (K × V)} {k : K}
    (h : acc.designates s1 k s2) (v : V) :
    Accessor.spec (s1 ++ (k, v) :: s2) acc = .ok (k, v) := by
  cases acc with
  | front =>
    have h1 : s1 = [] := h
    subst h1
    rfl
  | back =>
    have h2 : s2 = [] := h
    subst h2
    simp [Accessor.spec]
  | first k0 =>
    obtain ⟨rfl, h1⟩ : k0 = k ∧ ∀ e ∈ s1, e.1 ≠ k0 := by
      obtain ⟨e1, e2⟩ : k0 = k ∧ ∀ e ∈ s1, e.1 ≠ k := h
      exact ⟨e1, by rw [e1]; exact e2⟩
    have hf : s1.filter (fun e => decide (e.1 = k0)) = [] :=
      List.filter_eq_nil_iff.2 (fun e he => by simpa using h1 e he)
    simp [Accessor.spec, List.filter_append, hf]
  | last k0 =>
    obtain ⟨rfl, h2⟩ : k0 = k ∧ ∀ e ∈ s2, e.1 ≠ k0 := by
      obtain ⟨e1, e2⟩ : k0 = k ∧ ∀ e ∈ s2, e.1 ≠ k := h
      exact ⟨e1, by rw [e1]; exact e2⟩
    have hf : s2.filter (fun e => decide (e.1 = k0)) = [] :=
      List.filter_eq_nil_iff.2 (fun e he => by simpa using h2 e he)
    simp [Accessor.spec, List.filter_append, List.filter_cons, hf]

end WriteClaims

section ViewClaims

variable {K V : Type} [LinearOrder K]

/-- A successful mutable accessor followed by a write through its view, step by step: the
container is left as sole owner of a well-formed `kv_struct` with the entries it had, the
view designates the node at the accessor's position, and the write replaces the value of
that node and touches nothing else. -/
theorem get_write_core {w : World K V} (hw : WorldWF w) {i : Nat} {s : List (K × V)}
    (hs : w.entries i = some s) (acc : Accessor K) {k : K} {r : Ref} {w1 : World K V}
    (h : w.get i acc = some (.ok (k, r), w1)) (v' : V) :
    ∃ (w2 : World K V) (a1 : Nat) (c1 : kv_struct K V) (n : Node K V)
      (q1 q2 : List (Node K V)),
      Post w w1 i s true ∧ w1.obj i = some ⟨some a1, true⟩ ∧ w1.heap[a1]? = some c1 ∧
      CellWF c1 ∧ c1.entries = s ∧ c1.K_V_queue = q1 ++ n :: q2 ∧
      acc.designates (q1.map Node.pair) k (q2.map Node.pair) ∧ n.key = k ∧
      w1.write r v' = some w2 ∧ w2.objs = w1.objs ∧
      w2.heap[a1]? = some { c1 with K_V_queue := q1 ++ { n with val := v' } :: q2 } ∧
      CellWF { c1 with K_V_queue := q1 ++ { n with val := v' } :: q2 } ∧
      ∀ b, b ≠ a1 → w2.heap[b]? = w1.heap[b]? := by
  obtain ⟨c, hc, hce⟩ := entries_some hs
  subst hce
  obtain ⟨w1f, a1, c1, o, ho, hf, hacc⟩ := access_eq hw hc (fun c => c.node_of acc)
  have hwf1 := hf.wf.cell_wf hf.cell_i
  rw [get_eq_access, hacc] at h
  cases hn : c1.node_of acc with
  | none => rw [hn] at h; simp at h
  | some x =>
    rw [hn] at h
    cases x with
    | error e => simp at h
    | ok n =>
      simp only [Option.some.injEq, Prod.mk.injEq, Except.ok.injEq] at h
      obtain ⟨⟨hk, hr⟩, hw1⟩ := h
      subst hw1
      subst hr
      have hi : i < w1f.objs.length := obj_lt_length hf.obj_i
      have hobj : (w1f.set_obj i ⟨some a1, true⟩).obj i = some ⟨some a1, true⟩ := by
        rw [obj_set_obj, if_pos rfl, if_pos hi]
      have hcell : (w1f.set_obj i ⟨some a1, true⟩).heap[a1]? = some c1 := hf.cell_i
      have hpost : Post w (w1f.set_obj i ⟨some a1, true⟩) i c.entries true := by
        rw [← hf.entries]
        apply hf.post hw
        · intro b
          split_ifs with e
          · rw [e]; exact hf.cell_i
          · rfl
        · rfl
        · intro j hj
          rw [obj_set_obj, if_neg (Ne.symm hj)]
        · exact hobj
        · exact le_refl _
        · exact hwf1.1
        · exact hwf1.2
      obtain ⟨q1, q2, hq, hdes⟩ := node_of_split hwf1.1 hn
      obtain ⟨w2, g1, g2, g3, g4⟩ := write_spec hobj rfl hcell (node_of_mem hn) v'
      have hnd := hwf1.1.nodup
      rw [hq] at hnd
      have hsplit := write_node_split hnd v'
      have hwr := hwf1.1.written n.addr v'
      rw [hq, hsplit] at g3 hwr
      rw [hk] at hdes
      exact ⟨w2, a1, c1, n, q1, q2, hpost, hobj, hcell, hwf1.1, hf.entries, hq, hdes, hk, g1,
        g2, g3, hwr, g4⟩

theorem obj_of_objs_eq {w w' : World K V} (h : w'.objs = w.objs) (i : Nat) :
    w'.obj i = w.obj i := by
  unfold World.obj
  rw [h]

/-- A write through the view of a mutable accessor of `x` leaves every other container's
members and entries as they were before the accessor was called. -/
theorem view_write_frame {w : World K V} (hw : WorldWF w) {x y : Nat} (hxy : y ≠ x)
    {sx sy : List (K × V)} (hx : w.entries x = some sx) (hy : w.entries y = some sy)
    (acc : Accessor K) {k : K} {r : Ref} {w1 : World K V}
    (h : w.get x acc = some (.ok (k, r), w1)) (v' : V) :
    ∃ w2, w1.write r v' = some w2 ∧ w2.entries y = some sy ∧ w2.obj y = w.obj y := by
  obtain ⟨w2, a1, c1, n, q1, q2, hpost, hobj, hcell, -, -, -, -, -, g1, g2, -, -, g4⟩ :=
    get_write_core hw hx acc h v'
  obtain ⟨cy, hcy, hcye⟩ := entries_some hy
  obtain ⟨f1, f2⟩ := hpost.frame y hxy
  obtain ⟨oy, ay, hoy, hpy, hhy⟩ := cell_some (f2.trans hcy)
  obtain ⟨a, ha, hsole⟩ := hpost.owner
  rw [hobj] at ha
  simp only [Option.some_bind, Option.some.injEq] at ha
  subst ha
  have hne : ay ≠ a1 := by
    intro e
    exact hxy (hsole y oy hoy (e ▸ hpy))
  have hoy2 : w2.obj y = some oy := (obj_of_objs_eq g2 y).trans hoy
  refine ⟨w2, g1, ?_, hoy2.trans (hoy.symm.trans f1)⟩
  rw [entries_of_obj hoy2 hpy ((g4 ay hne).trans hhy), hcye]

/-- C21. Writing a value `v'` through the view a mutable accessor returned changes exactly
the value of the designated entry: the entries were `s1 ++ (k, v) :: s2` with `(k, v)` at the
position the accessor designates and are `s1 ++ (k, v') :: s2` afterwards; the read-only form
of the same accessor then returns `(k, v')`; `size()`, `count(k')` for every `k'` and the key
set are as before the accessor was called. -/
theorem write_through_view {w : World K V} (hw : Reachable w) {i : Nat} {s : List (K × V)}
    (hs : w.entries i = some s) (acc : Accessor K) {k : K} {r : Ref} {w1 : World K V}
    (h : w.get i acc = some (.ok (k, r), w1)) (v' : V) :
    ∃ w2 s1 v s2, w1.write r v' = some w2 ∧ s = s1 ++ (k, v) :: s2 ∧
      acc.designates s1 k s2 ∧ w2.entries i = some (s1 ++ (k, v') :: s2) ∧
      w2.get_const i acc = some (.ok (k, v')) ∧ w2.size i = w.size i ∧
      (∀ k', w2.count i k' = w.count i k') ∧ w2.keys i = w.keys i := by
  obtain ⟨w2, a1, c1, n, q1, q2, hpost, hobj, hcell, hwf1, hent, hq, hdes, hk, g1, g2, g3,
    hwr, -⟩ := get_write_core hw.wf hs acc h v'
  subst hk
  have hobj2 : w2.obj i = some ⟨some a1, true⟩ := (obj_of_objs_eq g2 i).trans hobj
  have hc1 : w1.cell i = some c1 := (cell_eq hobj rfl).trans hcell
  have hc2 := (cell_eq hobj2 rfl).trans g3
  have hview := same_view_of_entries hw.wf hpost.wf hs hpost.entries
  obtain ⟨-, hsz, -, -, -, hcnt, -, -, hkeys⟩ := hview
  have hs' : s = q1.map Node.pair ++ (n.key, n.val) :: q2.map Node.pair := by
    rw [← hent, kv_struct.entries, hq, List.map_append, List.map_cons]
    rfl
  have he2 : w2.entries i = some (q1.map Node.pair ++ (n.key, v') :: q2.map Node.pair) := by
    rw [entries_of_obj hobj2 rfl g3]
    simp only [kv_struct.entries, List.map_append, List.map_cons]
    rfl
  refine ⟨w2, q1.map Node.pair, n.val, q2.map Node.pair, g1, hs', hdes, he2, ?_, ?_, ?_, ?_⟩
  · rw [get_const_eq, hc2, Option.some_bind, hwr.get_eq]
    have : ({ c1 with K_V_queue := q1 ++ { n with val := v' } :: q2 } : kv_struct K V).entries
        = q1.map Node.pair ++ (n.key, v') :: q2.map Node.pair := by
      simp only [kv_struct.entries, List.map_append, List.map_cons]
      rfl
    rw [this, spec_of_designates hdes v']
  · rw [← hsz]
    simp only [World.size, hc2, hc1, Option.map_some', kv_struct.size, hq, List.length_append,
      List.length_cons]
  · intro k'
    rw [← hcnt k']
    simp only [World.count, hc2, hc1, Option.map_some', kv_struct.count]
  · rw [← hkeys]
    simp only [World.keys, hc2, hc1, Option.map_some', kv_struct.keys]

theorem write_through_view_witness :
    Reachable sample ∧ sample.entries 0 = some [(1, 10), (2, 20), (1, 30)] ∧
      sample.get 0 (.last 1) = some (.ok (1, ⟨0, 2⟩), sample_ref) ∧
      ∃ w2 s1 v s2, sample_ref.write ⟨0, 2⟩ 77 = some w2 ∧
        [(1, 10), (2, 20), (1, 30)] = s1 ++ (1, v) :: s2 ∧
        (Accessor.last 1).designates s1 1 s2 ∧ w2.entries 0 = some (s1 ++ (1, 77) :: s2) ∧
        w2.get_const 0 (.last 1) = some (.ok (1, 77)) ∧ w2.size 0 = sample.size 0 ∧
        (∀ k', w2.count 0 k' = sample.count 0 k') ∧ w2.keys 0 = sample.keys 0 :=
  ⟨sample_reachable, by decide, rfl,
    write_through_view sample_reachable
      (by decide : sample.entries 0 = some [(1, 10), (2, 20), (1, 30)]) (.last 1)
      (rfl : sample.get 0 (.last 1) = some (.ok (1, ⟨0, 2⟩), sample_ref)) 77⟩

end ViewClaims

section CopyForkClaims

variable {K V : Type} [LinearOrder K]

/-- What the copy constructor and the copy assignment from `a` leave, for the new or assigned
object `b`. -/
theorem copy_facts {w : World K V} (hw : WorldWF w) {a pa : Nat} {fl : Bool}
    {s : List (K × V)} (ha : w.obj a = some ⟨some pa, fl⟩) (hs : w.entries a = some s)
    {b : Nat} {w1 : World K V}
    (h : (b = w.objs.length ∧ w.ctor_copy a = some w1) ∨
      (b ≠ a ∧ w.obj b ≠ none ∧ w.assign b a = some w1)) :
    ∃ (p1 : Nat) (c c' : kv_struct K V) (flb : Bool), b ≠ a ∧ WorldWF w1 ∧
      w.heap[pa]? = some c ∧ c.entries = s ∧ w1.obj b = some ⟨some p1, flb⟩ ∧
      w1.heap[p1]? = some c' ∧ c'.entries = s ∧ w1.obj a = w.obj a ∧
      (∀ b', b' < w.heap.length → w1.heap[b']? = w.heap[b']?) ∧
      ((fl = true ∧ p1 = w.heap.length) ∨ (fl = false ∧ p1 = pa ∧ w1.heap = w.heap)) := by
  obtain ⟨c, hc, hce⟩ := entries_some hs
  have hh : w.heap[pa]? = some c := (cell_eq ha rfl).symm.trans hc
  have hlt : a < w.objs.length := obj_lt_length ha
  rcases h with ⟨rfl, h⟩ | ⟨hb, hob, h⟩
  · obtain ⟨w', a', c', g1, g2, g3, g4, g5, g6, g7, g8, g9⟩ := ctor_copy_spec hw ha rfl hh
    rw [g1] at h
    simp only [Option.some.injEq] at h
    subst h
    exact ⟨a', c, c', false, ne_of_gt hlt, g2, hh, hce, g4, g5, g6.trans hce, g7 a hlt, g8, g9⟩
  · obtain ⟨ob, hob⟩ := Option.ne_none_iff_exists'.1 hob
    obtain ⟨w', a', c', g1, g2, g3, g4, g5, g6, g7, g8⟩ := assign_spec hw hob ha rfl hh
    rw [g1] at h
    simp only [Option.some.injEq] at h
    subst h
    exact ⟨a', c, c', ob.v_refs_active, hb, g2, hh, hce, g3, g4, g5.trans hce,
      g6 a (Ne.symm hb), g7, g8⟩

/-- C22. A mutable accessor forks before it hands out a reference.  Let `a` have no
reference outstanding and let `b` be copied from `a`, by the copy constructor or by `b = a`:
both then hold the same storage `p`.  For either of the two as `x` and the other as `y`, each
of the non-const `front()`, `back()`, `first(k)`, `last(k)` on `x` succeeds whenever the entry
exists, and writing any value through the view it returned leaves `y` with the entries `s`
it had, still on storage `p`. -/
theorem mutable_accessor_forks {w : World K V} (hw : Reachable w) {a p : Nat}
    {s : List (K × V)} (ha : w.obj a = some ⟨some p, false⟩) (hs : w.entries a = some s) :
    (∃ w1, w.ctor_copy a = some w1) ∧
      ∀ b w1, (b = w.objs.length ∧ w.ctor_copy a = some w1) ∨
          (b ≠ a ∧ w.obj b ≠ none ∧ w.assign b a = some w1) →
        w1.storage a = some p ∧ w1.storage b = some p ∧
        ∀ x y, (x = a ∧ y = b) ∨ (x = b ∧ y = a) → ∀ acc : Accessor K,
          ((∃ e, Accessor.spec s acc = .ok e) →
            ∃ k r w2, w1.get x acc = some (.ok (k, r), w2)) ∧
          ∀ k r w2, w1.get x acc = some (.ok (k, r), w2) → ∀ v' : V,
            ∃ w3, w2.write r v' = some w3 ∧ w3.entries y = some s ∧
              w3.storage y = some p := by
  obtain ⟨c, hc, hce⟩ := entries_some hs
  have hh : w.heap[p]? = some c := (cell_eq ha rfl).symm.trans hc
  refine ⟨?_, ?_⟩
  · obtain ⟨w', -, -, g1, -⟩ := ctor_copy_spec hw.wf ha rfl hh
    exact ⟨w', g1⟩
  intro b w1 h
  obtain ⟨p1, c0, c', flb, hba, hwf1, hh0, -, hob, hh1, he1, hoa, hheap, hcase⟩ :=
    copy_facts hw.wf ha hs h
  have hp1 : p1 = p := by
    rcases hcase with ⟨e, -⟩ | ⟨-, e, -⟩
    · simp at e
    · exact e
  subst hp1
  have hoa1 : w1.obj a = some ⟨some p1, false⟩ := hoa.trans ha
  have hsa : w1.storage a = some p1 := by simp [World.storage, hoa1]
  have hsb : w1.storage b = some p1 := by simp [World.storage, hob]
  have hea : w1.entries a = some s := by rw [entries_of_obj hoa1 rfl hh1, he1]
  have heb : w1.entries b = some s := by rw [entries_of_obj hob rfl hh1, he1]
  have key : ∀ x y, y ≠ x → w1.entries x = some s → w1.entries y = some s →
      w1.storage y = some p1 → ∀ acc : Accessor K,
      ((∃ e, Accessor.spec s acc = .ok e) →
        ∃ k r w2, w1.get x acc = some (.ok (k, r), w2)) ∧
      ∀ k r w2, w1.get x acc = some (.ok (k, r), w2) → ∀ v' : V,
        ∃ w3, w2.write r v' = some w3 ∧ w3.entries y = some s ∧
          w3.storage y = some p1 := by
    intro x y hyx hx hy hsy acc
    refine ⟨?_, ?_⟩
    · rintro ⟨e, he⟩
      rcases (get_spec hwf1 hx acc).2 with ⟨e', -, -, h1, -⟩ | ⟨n, a1, w', -, h2, -⟩
      · rw [he] at h1; simp at h1
      · exact ⟨_, _, _, h2⟩
    · intro k r w2 hget v'
      obtain ⟨w3, f1, f2, f3⟩ := view_write_frame hwf1 hyx hx hy acc hget v'
      refine ⟨w3, f1, f2, ?_⟩
      unfold World.storage at hsy ⊢
      rw [f3]
      exact hsy
  refine ⟨hsa, hsb, ?_⟩
  rintro x y (⟨rfl, rfl⟩ | ⟨rfl, rfl⟩)
  · exact key _ _ hba hea heb hsb
  · exact key _ _ (Ne.symm hba) heb hea hsa

theorem mutable_accessor_forks_witness :
    Reachable sample ∧ sample.obj 0 = some ⟨some 0, false⟩ ∧
      sample.entries 0 = some [(1, 10), (2, 20), (1, 30)] ∧
      (∃ w1, sample.ctor_copy 0 = some w1) ∧
      ∀ b w1, (b = sample.objs.length ∧ sample.ctor_copy 0 = some w1) ∨
          (b ≠ 0 ∧ sample.obj b ≠ none ∧ sample.assign b 0 = some w1) →
        w1.storage 0 = some 0 ∧ w1.storage b = some 0 ∧
        ∀ x y, (x = 0 ∧ y = b) ∨ (x = b ∧ y = 0) → ∀ acc : Accessor Nat,
          ((∃ e, Accessor.spec [(1, 10), (2, 20), (1, 30)] acc = .ok e) →
            ∃ k r w2, w1.get x acc = some (.ok (k, r), w2)) ∧
          ∀ k r w2, w1.get x acc = some (.ok (k, r), w2) → ∀ v' : Nat,
            ∃ w3, w2.write r v' = some w3 ∧
              w3.entries y = some [(1, 10), (2, 20), (1, 30)] ∧ w3.storage y = some 0 :=
  ⟨sample_reachable, by decide, by decide,
    mutable_accessor_forks sample_reachable
      (by decide : sample.obj 0 = some ⟨some 0, false⟩)
      (by decide : sample.entries 0 = some [(1, 10), (2, 20), (1, 30)])⟩

/-- C23. Copy construction from `a`, and the assignment `b = a` to another container `b`,
succeed and give a container `b` with the entry sequence, the key set and every `count(k)`
of `a`.  It holds the storage of `a` itself when the flag of `a` is off, and a newly
allocated storage, distinct from that of `a`, when the flag is on.  The members of `a`
(storage and flag) and the contents of its storage are as before. -/
theorem copy_shares_or_forks {w : World K V} (hw : Reachable w) {a pa : Nat} {fl : Bool}
    {s : List (K × V)} (ha : w.obj a = some ⟨some pa, fl⟩) (hs : w.entries a = some s) :
    (∃ w1, w.ctor_copy a = some w1) ∧
      (∀ b, b ≠ a → w.obj b ≠ none → ∃ w1, w.assign b a = some w1) ∧
      ∀ b w1, (b = w.objs.length ∧ w.ctor_copy a = some w1) ∨
          (b ≠ a ∧ w.obj b ≠ none ∧ w.assign b a = some w1) →
        ∃ p1, w1.storage b = some p1 ∧ w1.entries b = some s ∧ w1.keys b = w.keys a ∧
          (∀ k, w1.count b k = w.count a k) ∧ (fl = false → p1 = pa) ∧
          (fl = true → p1 ≠ pa ∧ w.heap[p1]? = none) ∧
          w1.obj a = some ⟨some pa, fl⟩ ∧ w1.heap[pa]? = w.heap[pa]? ∧
          w1.entries a = some s := by
  obtain ⟨c, hc, hce⟩ := entries_some hs
  have hh : w.heap[pa]? = some c := (cell_eq ha rfl).symm.trans hc
  have hpa : pa < w.heap.length := (List.getElem?_eq_some.1 hh).1
  refine ⟨?_, ?_, ?_⟩
  · obtain ⟨w', -, -, g1, -⟩ := ctor_copy_spec hw.wf ha rfl hh
    exact ⟨w', g1⟩
  · intro b _ hob
    obtain ⟨ob, hob⟩ := Option.ne_none_iff_exists'.1 hob
    obtain ⟨w', -, -, g1, -⟩ := assign_spec hw.wf hob ha rfl hh
    exact ⟨w', g1⟩
  intro b w1 h
  obtain ⟨p1, c0, c', flb, hba, hwf1, hh0, he0, hob, hh1, he1, hoa, hheap, hcase⟩ :=
    copy_facts hw.wf ha hs h
  have hoa1 : w1.obj a = some ⟨some pa, fl⟩ := hoa.trans ha
  have hcb : w1.cell b = some c' := (cell_eq hob rfl).trans hh1
  have hobs := (hwf1.cell_wf hh1).1.observers_eq (hw.wf.cell_wf hh0).1 (he1.trans he0.symm)
  obtain ⟨-, -, -, -, hcnt, -, -, hkeys⟩ := hobs
  have hca : w.cell a = some c0 := (cell_eq ha rfl).trans hh0
  refine ⟨p1, by simp [World.storage, hob], by rw [entries_of_obj hob rfl hh1, he1], ?_, ?_,
    ?_, ?_, hoa1, hheap pa hpa, ?_⟩
  · simp only [World.keys, hcb, hca, Option.map_some', hkeys]
  · intro k
    simp only [World.count, hcb, hca, Option.map_some', hcnt k]
  · intro hfl
    rcases hcase with ⟨e, -⟩ | ⟨-, e, -⟩
    · rw [hfl] at e; simp at e
    · exact e
  · intro hfl
    rcases hcase with ⟨-, e⟩ | ⟨e, -⟩
    · subst e
      exact ⟨ne_of_gt hpa, by simp⟩
    · rw [hfl] at e; simp at e
  · rw [entries_of_obj hoa1 rfl ((hheap pa hpa).trans hh0), he0]

theorem copy_shares_or_forks_witness :
    Reachable sample_ref ∧ sample_ref.obj 0 = some ⟨some 0, true⟩ ∧
      sample_ref.entries 0 = some [(1, 10), (2, 20), (1, 30)] ∧
      (∃ w1, sample_ref.ctor_copy 0 = some w1) ∧
      (∀ b, b ≠ 0 → sample_ref.obj b ≠ none → ∃ w1, sample_ref.assign b 0 = some w1) ∧
      ∀ b w1, (b = sample_ref.objs.length ∧ sample_ref.ctor_copy 0 = some w1) ∨
          (b ≠ 0 ∧ sample_ref.obj b ≠ none ∧ sample_ref.assign b 0 = some w1) →
        ∃ p1, w1.storage b = some p1 ∧ w1.entries b = some [(1, 10), (2, 20), (1, 30)] ∧
          w1.keys b = sample_ref.keys 0 ∧
          (∀ k, w1.count b k = sample_ref.count 0 k) ∧ (true = false → p1 = 0) ∧
          (true = true → p1 ≠ 0 ∧ sample_ref.heap[p1]? = none) ∧
          w1.obj 0 = some ⟨some 0, true⟩ ∧ w1.heap[0]? = sample_ref.heap[0]? ∧
          w1.entries 0 = some [(1, 10), (2, 20), (1, 30)] :=
  ⟨⟨sample_ref_program, by decide⟩, by decide, by decide,
    copy_shares_or_forks ⟨sample_ref_program, by decide⟩
      (by decide : sample_ref.obj 0 = some ⟨some 0, true⟩)
      (by decide : sample_ref.entries 0 = some [(1, 10), (2, 20), (1, 30)])⟩

end CopyForkClaims

section ForkClaims

variable {K V : Type} [LinearOrder K]

/-! ### The flag after a mutating method, and where the method leaves the object -/

theorem sample_ref_reachable : Reachable sample_ref := ⟨sample_ref_program, by decide⟩

theorem storage_set_obj {w : World K V} {i : Nat} {o : kvfifo} (ho : w.obj i = some o)
    (u : kvfifo) : (w.set_obj i u).obj i = some u := by
  rw [obj_set_obj, if_pos rfl, if_pos (obj_lt_length ho)]

/-- In the state a call of `pop()`, `pop(k)` or `move_to_back(k)` leaves, the object holds
the storage `p_copy_if_shared` left it with; after a normal return the flag is off. -/
theorem mutate_result {w w1 : World K V} {i a1 : Nat} {fl : Bool}
    (h1 : w.p_copy_if_shared i = some w1) (ho : w1.obj i = some ⟨some a1, fl⟩)
    {body : kv_struct K V → Option (Except Err (kv_struct K V))} {r : Except Err Unit}
    {w' : World K V} (h : w.mutate i body = some (r, w')) :
    w'.storage i = some a1 ∧ (r = .ok () → w'.refs_active i = some false) := by
  simp only [World.mutate, h1, ho] at h
  cases hc : w1.cell i with
  | none => rw [hc] at h; simp at h
  | some c =>
    rw [hc] at h
    dsimp only at h
    cases hb : body c with
    | none => rw [hb] at h; simp at h
    | some x =>
      rw [hb] at h
      cases x with
      | error e =>
        simp only [Option.some.injEq, Prod.mk.injEq] at h
        obtain ⟨rfl, rfl⟩ := h
        exact ⟨by simp [World.storage, ho], fun e => by simp at e⟩
      | ok c' =>
        simp only [Option.some.injEq, Prod.mk.injEq] at h
        obtain ⟨rfl, rfl⟩ := h
        have ho' : (w1.set_cell a1 c').obj i = some ⟨some a1, fl⟩ := ho
        have := storage_set_obj ho' ⟨some a1, false⟩
        exact ⟨by simp [World.storage, this], fun _ => by simp [World.refs_active, this]⟩

theorem push_result {w w1 : World K V} {i a1 : Nat} {fl : Bool}
    (h1 : w.p_copy_if_shared i = some w1) (ho : w1.obj i = some ⟨some a1, fl⟩)
    {k : K} {v : V} {r : Except Err Unit} {w' : World K V}
    (h : w.push i k v = some (r, w')) :
    w'.storage i = some a1 ∧ w'.refs_active i = some false := by
  simp only [World.push, h1, ho] at h
  cases hc : w1.cell i with
  | none => rw [hc] at h; simp at h
  | some c =>
    rw [hc] at h
    simp only [Option.some.injEq, Prod.mk.injEq] at h
    obtain ⟨-, rfl⟩ := h
    have ho' : ({ w1.set_cell a1 (c.push_body w1.next k v) with next := w1.next + 1 } :
        World K V).obj i = some ⟨some a1, fl⟩ := ho
    have := storage_set_obj ho' ⟨some a1, false⟩
    exact ⟨by simp [World.storage, this], by simp [World.refs_active, this]⟩

theorem clear_result {w w1 : World K V} {i a1 : Nat} {fl : Bool}
    (h1 : w.p_copy_if_shared i = some w1) (ho : w1.obj i = some ⟨some a1, fl⟩)
    {r : Except Err Unit} {w' : World K V} (h : w.clear i = some (r, w')) :
    w'.storage i = some a1 ∧ w'.refs_active i = some fl := by
  simp only [World.clear, h1, ho] at h
  cases hc : w1.cell i with
  | none => rw [hc] at h; simp at h
  | some c =>
    rw [hc] at h
    simp only [Option.some.injEq, Prod.mk.injEq] at h
    obtain ⟨-, rfl⟩ := h
    have ho' : (w1.set_cell a1 c.clear_body).obj i = some ⟨some a1, fl⟩ := ho
    exact ⟨by simp [World.storage, ho'], by simp [World.refs_active, ho']⟩

theorem access_result {w w1 : World K V} {i a1 : Nat} {fl : Bool}
    (h1 : w.p_copy_if_shared i = some w1) (ho : w1.obj i = some ⟨some a1, fl⟩)
    {sel : kv_struct K V → Option (Except Err (Node K V))} {r : Except Err (K × Ref)}
    {w' : World K V} (h : w.access i sel = some (r, w')) :
    w'.storage i = some a1 := by
  simp only [World.access, h1, ho] at h
  cases hc : w1.cell i with
  | none => rw [hc] at h; simp at h
  | some c =>
    rw [hc] at h
    dsimp only at h
    cases hb : sel c with
    | none => rw [hb] at h; simp at h
    | some x =>
      rw [hb] at h
      cases x with
      | error e =>
        simp only [Option.some.injEq, Prod.mk.injEq] at h
        obtain ⟨-, rfl⟩ := h
        simp [World.storage, ho]
      | ok n =>
        simp only [Option.some.injEq, Prod.mk.injEq] at h
        obtain ⟨-, rfl⟩ := h
        have := storage_set_obj ho ⟨some a1, true⟩
        simp [World.storage, this]

/-- The flag of `p_copy_if_shared`'s state is the flag the object had. -/
theorem apply_result {w w1 : World K V} {i a1 : Nat} {fl : Bool}
    (h1 : w.p_copy_if_shared i = some w1) (ho : w1.obj i = some ⟨some a1, fl⟩)
    {op : MutOp K V} {r : Except Err Unit} {w' : World K V}
    (h : w.apply i op = some (r, w')) :
    w'.storage i = some a1 ∧ (r = .ok () → op ≠ .clear → w'.refs_active i = some false) ∧
      (op = .clear → w'.refs_active i = some fl) := by
  cases op with
  | push k v =>
    obtain ⟨g1, g2⟩ := push_result h1 ho h
    exact ⟨g1, fun _ _ => g2, fun e => by simp at e⟩
  | pop =>
    obtain ⟨g1, g2⟩ := mutate_result h1 ho h
    exact ⟨g1, fun e _ => g2 e, fun e => by simp at e⟩
  | pop_key k =>
    obtain ⟨g1, g2⟩ := mutate_result h1 ho h
    exact ⟨g1, fun e _ => g2 e, fun e => by simp at e⟩
  | move_to_back k =>
    obtain ⟨g1, g2⟩ := mutate_result h1 ho h
    exact ⟨g1, fun e _ => g2 e, fun e => by simp at e⟩
  | clear =>
    obtain ⟨g1, g2⟩ := clear_result h1 ho h
    exact ⟨g1, fun _ e => absurd rfl e, fun _ => g2⟩

/-- C24, as the code has it.  On every live container of a reachable state `clear()` returns
normally, empties the container and leaves `v_refs_active` as it was, so a flag that was on
stays on; a normal return of any of the other four mutating methods leaves the flag off. -/
theorem clear_keeps_refs_active {w : World K V} (hw : Reachable w) {i : Nat}
    {s : List (K × V)} (hs : w.entries i = some s) :
    (∃ w', w.clear i = some (.ok (), w') ∧ w'.entries i = some [] ∧
        w'.refs_active i = w.refs_active i) ∧
      ∀ op, op ≠ MutOp.clear → ∀ w', w.apply i op = some (.ok (), w') →
        w'.refs_active i = some false := by
  obtain ⟨c, hc, -⟩ := entries_some hs
  obtain ⟨o, a, ho, hp, hh⟩ := cell_some hc
  obtain ⟨w1, a1, c1, h1, hf⟩ := p_copy_if_shared_spec hw.wf ho hp hh
  refine ⟨?_, ?_⟩
  · obtain ⟨w', fl, g1, g2, g3⟩ := clear_spec hw.wf hc
    refine ⟨w', g1, g3.entries, ?_⟩
    unfold World.refs_active
    rw [g2, g3.flag]
  · intro op hop w' h
    exact (apply_result h1 hf.obj_i h).2.1 rfl hop

theorem clear_keeps_refs_active_witness :
    Reachable sample_ref ∧ sample_ref.entries 0 = some [(1, 10), (2, 20), (1, 30)] ∧
      sample_ref.refs_active 0 = some true ∧
      (∃ w', sample_ref.clear 0 = some (.ok (), w') ∧ w'.entries 0 = some [] ∧
        w'.refs_active 0 = sample_ref.refs_active 0) ∧
      ∀ op, op ≠ MutOp.clear → ∀ w', sample_ref.apply 0 op = some (.ok (), w') →
        w'.refs_active 0 = some false :=
  ⟨sample_ref_reachable, by decide, by decide,
    clear_keeps_refs_active sample_ref_reachable
      (by decide : sample_ref.entries 0 = some [(1, 10), (2, 20), (1, 30)])⟩

/-! ### The index invariant -/

theorem CellWF.to_index_invariant {c : kv_struct K V} (h : CellWF c) : c.index_invariant := by
  refine ⟨?_, ?_, h.nodup⟩
  · intro k l hl
    have hb := h.index.bucket k
    rw [hl] at hb
    simp only [Option.getD_some] at hb
    refine ⟨?_, hb⟩
    intro e
    exact h.index.nonempty k (e ▸ hl)
  · intro n hn
    have hb := h.index.bucket n.key
    cases hm : map_find c.K_it_lists n.key with
    | some l => exact ⟨l, rfl⟩
    | none =>
      rw [hm] at hb
      simp only [Option.getD_none] at hb
      have : n.addr ∈ slots_of c.K_V_queue n.key := by
        unfold slots_of
        exact List.mem_map.2 ⟨n, List.mem_filter.2 ⟨hn, by simp⟩, rfl⟩
      rw [← hb] at this
      simp at this

/-- C27. The index invariant holds for the storage of every live container of every state a
program of public operations reaches (calls that throw included): every bucket of the index
is non-empty and lists exactly the slots of the sequence with its key, in sequence order, and
every key of the sequence has a bucket.  Each mutating method, whether it returns or throws,
and the fork `p_copy_if_shared` as well as the deep copy `p_deep_copy` itself leave the
container with a storage for which it holds. -/
theorem index_invariant_reachable {w : World K V} (hw : Reachable w) {i : Nat}
    {c : kv_struct K V} (hc : w.cell i = some c) :
    c.index_invariant ∧
      (∀ op, ∃ r w' c', w.apply i op = some (r, w') ∧ w'.cell i = some c' ∧
        c'.index_invariant) ∧
      (∃ w1 c1, w.p_copy_if_shared i = some w1 ∧ w1.cell i = some c1 ∧
        c1.index_invariant) ∧
      ∃ w1 c1, w.p_deep_copy i (w.storage i) = some w1 ∧ w1.cell i = some c1 ∧
        c1.index_invariant := by
  obtain ⟨o, a, ho, hp, hh⟩ := cell_some hc
  refine ⟨(hw.wf.cell_wf_of hc).to_index_invariant, ?_, ?_, ?_⟩
  · intro op
    obtain ⟨r, w', fl, g1, -, g3⟩ := apply_spec hw.wf (entries_of_obj ho hp hh) op
    obtain ⟨c', hc', -⟩ := entries_some g3.entries
    exact ⟨r, w', c', g1, hc', (g3.wf.cell_wf_of hc').to_index_invariant⟩
  · obtain ⟨w1, a1, c1, h1, hf⟩ := p_copy_if_shared_spec hw.wf ho hp hh
    have hc1 : w1.cell i = some c1 := (cell_eq hf.obj_i rfl).trans hf.cell_i
    exact ⟨w1, c1, h1, hc1, (hf.wf.cell_wf_of hc1).to_index_invariant⟩
  · obtain ⟨w1, c1, g1, g2, g3, g4, -⟩ := p_deep_copy_spec hw.wf ho hh
    have hc1 : w1.cell i = some c1 := (cell_eq g3 rfl).trans g4
    refine ⟨w1, c1, ?_, hc1, (g2.cell_wf_of hc1).to_index_invariant⟩
    simp only [World.storage, ho, Option.some_bind, hp]
    exact g1

theorem index_invariant_reachable_witness :
    Reachable sample ∧
      sample.cell 0 =
        some ⟨[⟨0, 1, 10⟩, ⟨1, 2, 20⟩, ⟨2, 1, 30⟩], [(1, [0, 2]), (2, [1])]⟩ ∧
      (⟨[⟨0, 1, 10⟩, ⟨1, 2, 20⟩, ⟨2, 1, 30⟩], [(1, [0, 2]), (2, [1])]⟩ :
        kv_struct Nat Nat).index_invariant ∧
      (∀ op, ∃ r w' c', sample.apply 0 op = some (r, w') ∧ w'.cell 0 = some c' ∧
        c'.index_invariant) ∧
      (∃ w1 c1, sample.p_copy_if_shared 0 = some w1 ∧ w1.cell 0 = some c1 ∧
        c1.index_invariant) ∧
      ∃ w1 c1, sample.p_deep_copy 0 (sample.storage 0) = some w1 ∧ w1.cell 0 = some c1 ∧
        c1.index_invariant :=
  ⟨sample_reachable, rfl, index_invariant_reachable sample_reachable rfl⟩

end ForkClaims

section ForkRuleClaims

variable {K V : Type} [LinearOrder K]

/-! ### The fork rule and the deep copy -/

/-- The test `!p.unique()` of `p_copy_if_shared` holds exactly when another live container
holds the same storage. -/
theorem shared_iff_use_count {w : World K V} {i a : Nat} {fl : Bool}
    (ho : w.obj i = some ⟨some a, fl⟩) : w.shared i ↔ w.use_count (some a) ≠ 1 := by
  constructor
  · rintro ⟨j, oi, oj, a', hji, hoi, hoj, hpi, hpj⟩ hu
    rw [ho] at hoi
    simp only [Option.some.injEq] at hoi
    subst hoi
    simp only [Option.some.injEq] at hpi
    subst hpi
    exact hji (sole_owner_of_use_count hu ho rfl j oj hoj hpj)
  · intro hu
    by_contra hns
    apply hu
    apply use_count_of_sole_owner ho rfl
    intro j oj hoj hpj
    by_contra hji
    exact hns ⟨j, _, oj, a, hji, ho, hoj, rfl, hpj⟩

/-- C28. The fork rule.  For a live container `i` with storage `a` and flag `fl`,
`p_copy_if_shared` leaves it with a storage `a1` of which it is the only holder
(`use_count() == 1`), with the entries and the flag it had.  When the storage is also held by
another container or the flag is on, `a1` is a newly allocated storage, distinct from `a`,
and everything allocated before is untouched; otherwise the state is not changed at all and
`a1` is `a`.  Every mutating method and every mutable accessor, whether it returns or throws,
leaves the container on this storage `a1`. -/
theorem fork_rule {w : World K V} (hw : Reachable w) {i a : Nat} {fl : Bool}
    (ho : w.obj i = some ⟨some a, fl⟩) :
    ∃ w1 a1, w.p_copy_if_shared i = some w1 ∧ w1.obj i = some ⟨some a1, fl⟩ ∧
      w1.use_count (some a1) = 1 ∧ ¬ w1.shared i ∧ w1.entries i = w.entries i ∧
      (w.shared i ∨ fl = true → a1 = w.heap.length ∧ a1 ≠ a ∧
        ∀ b, b < w.heap.length → w1.heap[b]? = w.heap[b]?) ∧
      (¬ (w.shared i ∨ fl = true) → w1 = w ∧ a1 = a) ∧
      (∀ op r w', w.apply i op = some (r, w') → w'.storage i = some a1) ∧
      ∀ (acc : Accessor K) r w', w.get i acc = some (r, w') → w'.storage i = some a1 := by
  obtain ⟨c, hh⟩ := hw.wf.heap_some ho rfl
  have halt : a < w.heap.length := (List.getElem?_eq_some.1 hh).1
  have hcond : (w.shared i ∨ fl = true) ↔ (w.use_count (some a) ≠ 1 ∨ fl = true) := by
    rw [shared_iff_use_count ho]
  have key : ∀ w1 a1 c1, w.p_copy_if_shared i = some w1 → w1.obj i = some ⟨some a1, fl⟩ →
      w1.heap[a1]? = some c1 → c1.entries = c.entries → w1.sole_owner i a1 →
      w1.use_count (some a1) = 1 ∧ ¬ w1.shared i ∧ w1.entries i = w.entries i ∧
      (∀ op r w', w.apply i op = some (r, w') → w'.storage i = some a1) ∧
      ∀ (acc : Accessor K) r w', w.get i acc = some (r, w') → w'.storage i = some a1 := by
    intro w1 a1 c1 h1 ho1 hc1 he1 hsole
    have hu := use_count_of_sole_owner ho1 rfl hsole
    refine ⟨hu, ?_, ?_, ?_, ?_⟩
    · intro hs
      exact (shared_iff_use_count ho1).1 hs hu
    · rw [entries_of_obj ho1 rfl hc1, entries_of_obj ho rfl hh, he1]
    · intro op r w' h
      exact (apply_result h1 ho1 h).1
    · intro acc r w' h
      rw [get_eq_access] at h
      exact access_result h1 ho1 h
  by_cases hc : w.use_count (some a) ≠ 1 ∨ fl = true
  · obtain ⟨w1, c1, g1, g2, g3, g4, g5, g6, g7, g8, -⟩ := p_deep_copy_spec hw.wf ho hh
    have h1 : w.p_copy_if_shared i = some w1 := by
      simp only [World.p_copy_if_shared, ho, if_pos hc]
      exact g1
    obtain ⟨k1, k2, k3, k4, k5⟩ := key w1 _ c1 h1 g3 g4 g5 g6
    refine ⟨w1, w.heap.length, h1, g3, k1, k2, k3, ?_, ?_, k4, k5⟩
    · intro _
      exact ⟨rfl, ne_of_gt halt, g8⟩
    · intro hn
      exact absurd (hcond.2 hc) hn
  · have h1 : w.p_copy_if_shared i = some w := by
      simp only [World.p_copy_if_shared, ho, if_neg hc]
    have hu : w.use_count (some a) = 1 := by
      rw [not_or, not_not] at hc
      exact hc.1
    obtain ⟨k1, k2, k3, k4, k5⟩ :=
      key w a c h1 ho hh rfl (sole_owner_of_use_count hu ho rfl)
    refine ⟨w, a, h1, ho, k1, k2, k3, ?_, ?_, k4, k5⟩
    · intro hy
      exact absurd (hcond.1 hy) hc
    · intro _
      exact ⟨rfl, rfl⟩

theorem fork_rule_witness :
    Reachable sample_shared ∧ sample_shared.obj 1 = some ⟨some 0, false⟩ ∧
      sample_shared.shared 1 ∧
      ∃ w1 a1, sample_shared.p_copy_if_shared 1 = some w1 ∧
        w1.obj 1 = some ⟨some a1, false⟩ ∧
        w1.use_count (some a1) = 1 ∧ ¬ w1.shared 1 ∧
        w1.entries 1 = sample_shared.entries 1 ∧
        (sample_shared.shared 1 ∨ false = true → a1 = sample_shared.heap.length ∧ a1 ≠ 0 ∧
          ∀ b, b < sample_shared.heap.length → w1.heap[b]? = sample_shared.heap[b]?) ∧
        (¬ (sample_shared.shared 1 ∨ false = true) → w1 = sample_shared ∧ a1 = 0) ∧
        (∀ op r w', sample_shared.apply 1 op = some (r, w') → w'.storage 1 = some a1) ∧
        ∀ (acc : Accessor Nat) r w', sample_shared.get 1 acc = some (r, w') →
          w'.storage 1 = some a1 :=
  ⟨sample_shared_reachable, by decide, ⟨0, _, _, 0, by decide, rfl, rfl, rfl, rfl⟩,
    fork_rule sample_shared_reachable
      (by decide : sample_shared.obj 1 = some ⟨some 0, false⟩)⟩

/-- C29. The deep copy, for any state whatever, well-formed or not: run by a live object `i`
on a storage `a` of the heap, `p_deep_copy` returns; the object then holds a newly allocated
storage whose sequence has the pairs of the source in the same order and whose index
satisfies the index invariant with respect to that new sequence (so every slot of every
bucket is a node of the new sequence); every storage that existed before, the source among
them, is as it was. -/
theorem deep_fork_rebuilds (w : World K V) {i a : Nat} {o : kvfifo} {c : kv_struct K V}
    (ho : w.obj i = some o) (hc : w.heap[a]? = some c) :
    ∃ w1 c1, w.p_deep_copy i (some a) = some w1 ∧
      w1.obj i = some ⟨some w.heap.length, o.v_refs_active⟩ ∧
      w1.heap[w.heap.length]? = some c1 ∧ c1.entries = c.entries ∧ c1.index_invariant ∧
      (∀ k l it, map_find c1.K_it_lists k = some l → it ∈ l →
        ∃ n ∈ c1.K_V_queue, n.addr = it ∧ n.key = k) ∧
      w1.heap[a]? = some c ∧ ∀ b, b < w.heap.length → w1.heap[b]? = w.heap[b]? := by
  have hi := obj_lt_length ho
  have ha : a < w.heap.length := (List.getElem?_eq_some.1 hc).1
  have hwf : CellWF (⟨copy_nodes w.next c.K_V_queue,
      rebuild_from [] (copy_nodes w.next c.K_V_queue)⟩ : kv_struct K V) := CellWF.copy _ _
  have hinv := hwf.to_index_invariant
  refine ⟨{ heap := w.heap ++ [⟨copy_nodes w.next c.K_V_queue,
          rebuild_from [] (copy_nodes w.next c.K_V_queue)⟩]
            objs := w.objs.set i (some { o with p := some w.heap.length })
            next := w.next + (copy_nodes w.next c.K_V_queue).length },
    ⟨copy_nodes w.next c.K_V_queue, rebuild_from [] (copy_nodes w.next c.K_V_queue)⟩,
    (by simp only [World.p_deep_copy, ho, hc]), ?_, ?_, ?_, hinv, ?_, ?_, ?_⟩
  · have := obj_set_obj w i i { o with p := some w.heap.length }
    simp only [hi, if_true] at this
    exact this
  · exact List.getElem?_concat_length _ _
  · simp only [kv_struct.entries]
    exact copy_nodes_pairs _ _
  · intro k l it hl hit
    obtain ⟨-, hb⟩ := hinv.1 k l hl
    rw [hb] at hit
    unfold slots_of at hit
    obtain ⟨n, hn, hna⟩ := List.mem_map.1 hit
    obtain ⟨hn1, hn2⟩ := List.mem_filter.1 hn
    exact ⟨n, hn1, hna, by simpa using hn2⟩
  · exact (List.getElem?_append_left ha).trans hc
  · intro b hb
    exact List.getElem?_append_left hb

theorem deep_fork_rebuilds_witness :
    sample_broken.obj 0 = some ⟨some 0, false⟩ ∧
      sample_broken.heap[0]? =
        some ⟨[⟨0, 1, 10⟩, ⟨1, 2, 20⟩, ⟨2, 1, 30⟩], [(1, [7]), (5, [])]⟩ ∧
      ∃ w1 c1, sample_broken.p_deep_copy 0 (some 0) = some w1 ∧
        w1.obj 0 = some ⟨some sample_broken.heap.length, false⟩ ∧
        w1.heap[sample_broken.heap.length]? = some c1 ∧
        c1.entries = [(1, 10), (2, 20), (1, 30)] ∧ c1.index_invariant ∧
        (∀ k l it, map_find c1.K_it_lists k = some l → it ∈ l →
          ∃ n ∈ c1.K_V_queue, n.addr = it ∧ n.key = k) ∧
        w1.heap[0]? = some ⟨[⟨0, 1, 10⟩, ⟨1, 2, 20⟩, ⟨2, 1, 30⟩], [(1, [7]), (5, [])]⟩ ∧
        ∀ b, b < sample_broken.heap.length → w1.heap[b]? = sample_broken.heap[b]? :=
  ⟨by decide, rfl,
    deep_fork_rebuilds sample_broken (by decide : sample_broken.obj 0 = some ⟨some 0, false⟩)
      (rfl : sample_broken.heap[0]? =
        some ⟨[⟨0, 1, 10⟩, ⟨1, 2, 20⟩, ⟨2, 1, 30⟩], [(1, [7]), (5, [])]⟩)⟩

/-- C30, at failing inputs.  In `sample_shared_empty` two containers share one empty
`kv_struct` (at 0), in `sample_shared` one with three entries.  `pop()` on the second
container of the former, and `pop(7)` and `move_to_back(7)` on the second container of the
latter, throw `std::invalid_argument`; afterwards that container holds the `kv_struct` made
by the fork (at 1), not the one it held before the call, which is left to the other
container alone (`use_count()` 1, was 2). -/
theorem rollback_keeps_fork :
    sample_shared_empty.storage 1 = some 0 ∧ sample_shared.storage 1 = some 0 ∧
      sample_shared_empty.use_count (some 0) = 2 ∧ sample_shared.use_count (some 0) = 2 ∧
      (∃ w', sample_shared_empty.pop 1 = some (.error .invalid_argument, w') ∧
        w'.storage 1 = some 1 ∧ w'.use_count (some 0) = 1 ∧ w'.heap.length = 2) ∧
      (∃ w', sample_shared.pop_key 1 7 = some (.error .invalid_argument, w') ∧
        w'.storage 1 = some 1 ∧ w'.use_count (some 0) = 1 ∧ w'.heap.length = 2) ∧
      ∃ w', sample_shared.move_to_back 1 7 = some (.error .invalid_argument, w') ∧
        w'.storage 1 = some 1 ∧ w'.use_count (some 0) = 1 ∧ w'.heap.length = 2 :=
  ⟨rfl, rfl, rfl, rfl, ⟨_, rfl, rfl, rfl, rfl⟩, ⟨_, rfl, rfl, rfl, rfl⟩,
    ⟨_, rfl, rfl, rfl, rfl⟩⟩

end ForkRuleClaims

section MoveClaims

variable {K V : Type} [LinearOrder K]

/-! ### Moves and assignments: the flag and the null handle -/

theorem sample_two_ref_reachable : Reachable sample_two_ref :=
  ⟨sample_two_ref_program, by decide⟩

/-- The move constructor from a live object `j`: `j` is left with a null `p` and its flag,
the new object has the `p` of `j` and the flag off; everything else is as before. -/
theorem ctor_move_spec {w : World K V} {j : Nat} {o : kvfifo} (ho : w.obj j = some o) :
    ∃ w', w.ctor_move j = some w' ∧ w'.obj j = some ⟨none, o.v_refs_active⟩ ∧
      w'.obj w.objs.length = some ⟨o.p, false⟩ ∧ w'.heap = w.heap := by
  have hj := obj_lt_length ho
  refine ⟨{ w with objs := w.objs.set j (some { o with p := none }) ++ [some ⟨o.p, false⟩] },
    by simp only [World.ctor_move, ho], ?_, ?_, rfl⟩
  · have h1 : (w.set_obj j { o with p := none }).objs.length = w.objs.length := by
      simp [World.set_obj]
    have := obj_append_left (w := w.set_obj j { o with p := none }) (some ⟨o.p, false⟩)
      (by rw [h1]; exact hj)
    rw [obj_set_obj, if_pos rfl, if_pos hj] at this
    exact this
  · have h1 : (w.set_obj j { o with p := none }).objs.length = w.objs.length := by
      simp [World.set_obj]
    have := obj_append_length (w.set_obj j { o with p := none }) (some ⟨o.p, false⟩)
    rw [h1] at this
    exact this

/-- C31, at a failing input.  On the container `x` of `sample` (entries
`[(1,10), (2,20), (1,30)]`) the non-const `front()` returns a reference `r` and sets the flag
of `x`.  The container `c` move-constructed from `x` takes the storage of `x` with its flag
off, so the copy `d` of `c` shares that storage; the write of 77 through `r` then changes the
front entry seen through `d` (and through `c`). -/
theorem move_drops_reference_flag :
    ∃ r w1 w2 w3 w4, sample.front 0 = some (.ok (1, r), w1) ∧
      w1.refs_active 0 = some true ∧ w1.ctor_move 0 = some w2 ∧
      w2.refs_active 1 = some false ∧ w2.storage 1 = w1.storage 0 ∧
      w2.ctor_copy 1 = some w3 ∧ w3.storage 2 = w3.storage 1 ∧
      w3.entries 2 = some [(1, 10), (2, 20), (1, 30)] ∧ w3.write r 77 = some w4 ∧
      w4.entries 2 = some [(1, 77), (2, 20), (1, 30)] ∧
      w4.front_const 2 = some (.ok (1, 77)) :=
  ⟨_, _, _, _, _, rfl, rfl, rfl, rfl, rfl, rfl, rfl, rfl, rfl, rfl, rfl⟩

/-- C32, as the code has it.  The assignment `a = b` between live containers of a reachable
state returns and gives `a` the entries of `b`, but leaves `v_refs_active` of `a` as it was:
a flag that was on stays on, and when the flag of `b` is off, `a` then holds it on the very
storage of `b`. -/
theorem assign_keeps_refs_active {w : World K V} (hw : Reachable w) {a b : Nat}
    {oa : kvfifo} {s : List (K × V)} (hoa : w.obj a = some oa)
    (hs : w.entries b = some s) :
    ∃ w', w.assign a b = some w' ∧ w'.refs_active a = some oa.v_refs_active ∧
      w'.entries a = some s ∧
      (w.refs_active b = some false → a ≠ b → w'.storage a = w.storage b ∧
        w'.storage b = w.storage b) := by
  obtain ⟨c, hc, hce⟩ := entries_some hs
  obtain ⟨ob, pb, hob, hpb, hh⟩ := cell_some hc
  obtain ⟨w', a', c', g1, g2, g3, g4, g5, g6, g7, g8⟩ := assign_spec hw.wf hoa hob hpb hh
  refine ⟨w', g1, by simp [World.refs_active, g3], ?_, ?_⟩
  · rw [entries_of_obj g3 rfl g4, g5, hce]
  · intro hfl hab
    have hflb : ob.v_refs_active = false := by
      simpa [World.refs_active, hob] using hfl
    have ha' : a' = pb := by
      rcases g8 with ⟨e, -⟩ | ⟨-, e, -⟩
      · rw [hflb] at e; simp at e
      · exact e
    subst ha'
    simp only [World.storage, g3, g6 b (Ne.symm hab), hob, Option.some_bind, hpb, and_self]

theorem assign_keeps_refs_active_witness :
    Reachable sample_two_ref ∧ sample_two_ref.obj 0 = some ⟨some 0, true⟩ ∧
      sample_two_ref.entries 1 = some [] ∧
      ∃ w', sample_two_ref.assign 0 1 = some w' ∧ w'.refs_active 0 = some true ∧
        w'.entries 0 = some [] ∧
        (sample_two_ref.refs_active 1 = some false → 0 ≠ 1 →
          w'.storage 0 = sample_two_ref.storage 1 ∧
          w'.storage 1 = sample_two_ref.storage 1) :=
  ⟨sample_two_ref_reachable, by decide, by decide,
    assign_keeps_refs_active sample_two_ref_reachable
      (by decide : sample_two_ref.obj 0 = some ⟨some 0, true⟩)
      (by decide : sample_two_ref.entries 1 = some [])⟩

/-- C33, as the code has it.  Move construction from a live container `j` of a reachable
state leads to a reachable state in which `j` holds a null `p`: it has no storage, and
`size()`, `empty()`, `count(k)`, every mutating method and every accessor, const or not,
dereference the null pointer (undefined behaviour). -/
theorem moved_from_is_null {w : World K V} (hw : Reachable w) {j : Nat} {o : kvfifo}
    (ho : w.obj j = some o) :
    ∃ w', w.ctor_move j = some w' ∧ Reachable w' ∧ w'.obj j = some ⟨none, o.v_refs_active⟩ ∧
      w'.storage j = none ∧ w'.size j = none ∧ w'.empty j = none ∧
      (∀ k, w'.count j k = none) ∧ (∀ op, w'.apply j op = none) ∧
      ∀ acc : Accessor K, w'.get j acc = none ∧ w'.get_const j acc = none := by
  obtain ⟨w', h1, h2, -, -⟩ := ctor_move_spec ho
  have hr : Reachable w' := hw.after_step (s := .ctor_move j) h1
  have hc : w'.cell j = none := by simp [World.cell, h2]
  have hp := p_copy_if_shared_none hr.wf hc
  refine ⟨w', h1, hr, h2, by simp [World.storage, h2], by simp [World.size, hc],
    by simp [World.empty, hc], fun k => by simp [World.count, hc], ?_, ?_⟩
  · intro op
    cases op <;>
      simp [World.apply, World.push, World.pop, World.pop_key, World.move_to_back,
        World.mutate, World.clear, hp]
  · intro acc
    refine ⟨?_, by rw [get_const_eq, hc]; rfl⟩
    rw [get_eq_access]
    simp [World.access, hp]

theorem moved_from_is_null_witness :
    Reachable sample ∧ sample.obj 0 = some ⟨some 0, false⟩ ∧
      ∃ w', sample.ctor_move 0 = some w' ∧ Reachable w' ∧ w'.obj 0 = some ⟨none, false⟩ ∧
        w'.storage 0 = none ∧ w'.size 0 = none ∧ w'.empty 0 = none ∧
        (∀ k, w'.count 0 k = none) ∧ (∀ op, w'.apply 0 op = none) ∧
        ∀ acc : Accessor Nat, w'.get 0 acc = none ∧ w'.get_const 0 acc = none :=
  ⟨sample_reachable, by decide,
    moved_from_is_null sample_reachable (by decide : sample.obj 0 = some ⟨some 0, false⟩)⟩

end MoveClaims

section AlgebraClaims

variable {K V : Type} [LinearOrder K]

/-! ### Relations between the mutating methods, and between `size` and `count` -/

end AlgebraClaims

section CountClaims

variable {K V : Type} [LinearOrder K]

theorem indicator_sum (a : K) : ∀ ks : List K, ks.Nodup →
    (ks.map (fun k => if a = k then 1 else 0)).sum = if a ∈ ks then 1 else 0
  | [], _ => by simp
  | k :: ks, h => by
    rw [List.nodup_cons] at h
    rw [List.map_cons, List.sum_cons, indicator_sum a ks h.2]
    by_cases e : a = k
    · subst e
      simp [h.1]
    · by_cases hm : a ∈ ks <;> simp [e, hm]

/-- The occurrences of the keys of a duplicate-free list that covers every key of `s` add
up to the length of `s`. -/
theorem sum_filter_lengths {ks : List K} (hnd : ks.Nodup) :
    ∀ s : List (K × V), (∀ e ∈ s, e.1 ∈ ks) →
      (ks.map (fun k => (s.filter (fun e => decide (e.1 = k))).length)).sum = s.length
  | [], _ => by simp
  | e :: t, h => by
    have ih := sum_filter_lengths hnd t (fun x hx => h x (List.mem_cons_of_mem _ hx))
    have hf : (fun k => ((e :: t).filter (fun x => decide (x.1 = k))).length) =
        fun k => (if e.1 = k then 1 else 0) +
          (t.filter (fun x => decide (x.1 = k))).length := by
      funext k
      by_cases hk : e.1 = k
      · simp [List.filter_cons, hk, Nat.add_comm]
      · simp [List.filter_cons, hk]
    rw [hf, List.sum_map_add, ih, indicator_sum e.1 ks hnd,
      if_pos (h e (List.mem_cons_self _ _)), List.length_cons, Nat.add_comm]

/-- When no allocation has failed: in every state of `Reachable`, for every live container:
the loop from `k_begin()` to `k_end()` meets a list of keys `ks`, `count(k)` is defined for
each of them and these counts add up to `size()`; and `empty()` holds exactly when
`k_begin() == k_end()`. -/
theorem size_is_sum_of_counts {w : World K V} (hw : Reachable w) {i : Nat}
    {s : List (K × V)} (hs : w.entries i = some s) :
    ∃ (ks : List K) (cs : List Nat), (∀ fuel, ks.length ≤ fuel → w.k_forward i fuel = some ks) ∧
      ks.map (fun k => w.count i k) = cs.map some ∧ w.size i = some cs.sum ∧
      (w.empty i = some true ↔ w.k_begin i = w.k_end i) := by
  obtain ⟨c, hc, he⟩ := entries_some hs
  have hwf := hw.wf.cell_wf_of hc
  obtain ⟨h1, h2, -, -, h5, -⟩ := hw.wf.view hs
  have hmem : ∀ e ∈ s, e.1 ∈ c.keys := by
    intro e hes
    rw [hwf.mem_keys, he]
    exact List.any_eq_true.2 ⟨e, hes, by simp⟩
  refine ⟨c.keys, c.keys.map (fun k => (s.filter (fun e => decide (e.1 = k))).length),
    ?_, ?_, ?_, ?_⟩
  · intro fuel hfuel
    simp only [World.k_forward, hc, Option.some_bind, kv_struct.k_begin]
    rw [k_forward_from c fuel 0 (Nat.zero_le _) (by simpa [kv_struct.keys] using hfuel)]
    rfl
  · rw [List.map_map]
    apply List.map_congr_left
    intro k _
    exact h5 k
  · rw [h1, sum_filter_lengths hwf.keys_sorted.nodup s hmem]
  · rw [h2]
    simp only [World.k_begin, World.k_end, hc, Option.map_some', Option.some.injEq,
      k_iterator_eq_iff, kv_struct.k_begin, kv_struct.k_end]
    constructor
    · intro hemp
      have hnil : s = [] := by simpa using hemp
      have hk : c.keys = [] := by
        apply List.eq_nil_iff_forall_not_mem.2
        intro k hk
        rw [hwf.mem_keys, he, hnil] at hk
        simp at hk
      have : c.K_it_lists = [] := by simpa [kv_struct.keys] using hk
      rw [this]
      rfl
    · intro hlen
      have : c.K_it_lists = [] := List.length_eq_zero.1 hlen.symm
      have hk : c.keys = [] := by simp [kv_struct.keys, this]
      cases s with
      | nil => rfl
      | cons e t =>
        have := hmem e (List.mem_cons_self _ _)
        rw [hk] at this
        simp at this

theorem size_is_sum_of_counts_witness :
    Reachable sample ∧ sample.entries 0 = some [(1, 10), (2, 20), (1, 30)] ∧
      ∃ (ks : List Nat) (cs : List Nat), (∀ fuel, ks.length ≤ fuel → sample.k_forward 0 fuel = some ks) ∧
        ks.map (fun k => sample.count 0 k) = cs.map some ∧ sample.size 0 = some cs.sum ∧
        (sample.empty 0 = some true ↔ sample.k_begin 0 = sample.k_end 0) :=
  ⟨sample_reachable, by decide,
    size_is_sum_of_counts sample_reachable
      (by decide : sample.entries 0 = some [(1, 10), (2, 20), (1, 30)])⟩

end CountClaims

section FailureClaims

variable {K V : Type} [LinearOrder K]

/-! ### States left by a call that throws `std::bad_alloc` -/

theorem frun_map_run : ∀ (l : List (Stmt K V)) (w : World K V),
    w.frun (l.map .run) = w.run l
  | [], _ => rfl
  | s :: l, w => by
    simp only [List.map_cons, World.frun, World.run, World.fstep]
    cases w.step s with
    | none => rfl
    | some w1 => exact frun_map_run l w1

/-- A state reached without a failing allocation is reached with failures allowed. -/
theorem Reachable.to_faulty {w : World K V} (h : Reachable w) : ReachableF w := by
  obtain ⟨l, hl⟩ := h
  exact ⟨l.map .run, by rw [frun_map_run, hl]⟩

/-- C3, at a failing input.  After `x.push(1, 10); x.push(2, 20); x.push(1, 30);` the call
`x.push(1, 40)` whose `emplace_back` throws `std::bad_alloc` leaves a state, reached through
the public interface, in which `x` has its three entries, two of them with key 1, while
`count(1)` is 0. -/
theorem count_wrong_after_failed_push :
    ∃ w, World.init.frun failed_push_program = some w ∧ ReachableF w ∧
      w.entries 0 = some [(1, 10), (2, 20), (1, 30)] ∧ w.count 0 1 = some 0 ∧
      ([(1, 10), (2, 20), (1, 30)].filter (fun e => decide (e.1 = 1))).length = 2 :=
  ⟨_, rfl, ⟨failed_push_program, rfl⟩, rfl, rfl, rfl⟩

/-- C4, at a failing input.  With `x` holding `[(1,10), (2,20), (1,30)]` and `y` a copy of
`x`, a mutating call on `y` whose deep copy throws `std::bad_alloc` in `K_it_lists[2]` leaves
a state, reached through the public interface, in which `y` has the three entries and
`count(1) == 1 > 0`, `first(1)` returns `(1, 10)`, and `last(1)` returns `(1, 10)` as well,
although the last entry with key 1 is `(1, 30)`. -/
theorem last_wrong_after_failed_fork :
    ∃ w, World.init.frun failed_fork_program = some w ∧ ReachableF w ∧
      w.entries 1 = some [(1, 10), (2, 20), (1, 30)] ∧ w.count 1 1 = some 1 ∧
      w.first_const 1 1 = some (.ok (1, 10)) ∧ w.last_const 1 1 = some (.ok (1, 10)) ∧
      ([(1, 10), (2, 20), (1, 30)].filter (fun e => decide (e.1 = 1))).getLast? =
        some (1, 30) :=
  ⟨_, rfl, ⟨failed_fork_program, rfl⟩, rfl, rfl, rfl, rfl, rfl⟩

/-- C15, at a failing input.  With `x` holding `[(1,10), (2,20), (1,30)]` and `y` a copy of
`x`, a mutating call on `y` whose deep copy throws `std::bad_alloc` in the first
`push_back(it)` leaves a state, reached through the public interface, in which the loop from
`k_begin()` to `k_end()` on `y` yields the key 1 although `count(1)` is 0, and does not
yield the key 2 of the second entry. -/
theorem traversal_yields_empty_bucket :
    ∃ w, World.init.frun failed_slot_program = some w ∧ ReachableF w ∧
      w.entries 1 = some [(1, 10), (2, 20), (1, 30)] ∧
      (∀ fuel, 1 ≤ fuel → w.k_forward 1 fuel = some [1]) ∧ w.count 1 1 = some 0 ∧
      w.count 1 2 = some 0 := by
  refine ⟨_, rfl, ⟨failed_slot_program, rfl⟩, rfl, ?_, rfl, rfl⟩
  intro fuel hfuel
  exact k_forward_from
    (⟨[⟨3, 1, 10⟩, ⟨4, 2, 20⟩, ⟨5, 1, 30⟩], [(1, [])]⟩ : kv_struct Nat Nat) fuel 0
    (Nat.zero_le _) hfuel

/-- C37, at failing inputs.  After the program of `sample`, the call `x.push(1, 40)` whose
`emplace_back` throws leaves `x` with `size() == 3` while the loop from `k_begin()` to
`k_end()` yields the key 2 only and `count(2)` is 1.  With `y` a copy of `x`, a mutating call
on `y` whose deep copy throws in the first `K_it_lists[it->first]` leaves `y` not empty
(`size() == 3`) with `k_begin() == k_end()`.  Both states are reached through the public
interface. -/
theorem size_not_sum_after_failure :
    (∃ w, World.init.frun failed_push_program = some w ∧ ReachableF w ∧ w.size 0 = some 3 ∧
        (∀ fuel, 1 ≤ fuel → w.k_forward 0 fuel = some [2]) ∧ w.count 0 2 = some 1) ∧
      ∃ w, World.init.frun failed_rebuild_program = some w ∧ ReachableF w ∧
        w.size 1 = some 3 ∧ w.empty 1 = some false ∧ w.k_begin 1 = w.k_end 1 := by
  refine ⟨⟨_, rfl, ⟨failed_push_program, rfl⟩, rfl, ?_, rfl⟩,
    ⟨_, rfl, ⟨failed_rebuild_program, rfl⟩, rfl, rfl, rfl⟩⟩
  intro fuel hfuel
  exact k_forward_from
    (⟨[⟨0, 1, 10⟩, ⟨1, 2, 20⟩, ⟨2, 1, 30⟩], [(2, [1])]⟩ : kv_struct Nat Nat) fuel 0
    (Nat.zero_le _) hfuel

end FailureClaims

end Kvfifo

namespace Functional

/-! ### `compose` and `lift` -/

theorem apply_snoc : {α β γ δ : Type} → (f : α → β) → (fs : Chain β γ) → (g : γ → δ) →
    (t : α) → compose_helper.apply f (fs.snoc g) t = g (compose_helper.apply f fs t)
  | _, _, _, _, _, .nil, _, _ => rfl
  | _, _, _, _, f, .cons h rest, g, t => apply_snoc h rest g (f t)

theorem apply_append : {α β γ δ : Type} → (f : α → β) → (fs : Chain β γ) →
    (gs : Chain γ δ) → (t : α) →
    compose_helper.apply f (fs.append gs) t = compose gs (compose_helper.apply f fs t)
  | _, _, _, _, _, .nil, .nil, _ => rfl
  | _, _, _, _, _, .nil, .cons _ _, _ => rfl
  | _, _, _, _, f, .cons h rest, gs, t => apply_append h rest gs (f t)

theorem apply_of_list {α : Type} (f : α → α) : ∀ (l : List (α → α)) (t : α),
    compose_helper.apply f (Chain.of_list l) t = l.foldl (fun a g => g a) (f t)
  | [], _ => rfl
  | g :: l, t => apply_of_list g l (f t)

theorem expand_call_of_list {X T R : Type} : ∀ (l : List (X → T)) (H : List T → R) (x : X),
    expand_call (NAry.of_list l.length H) (Pack.of_list l) x = H (l.map (fun g => g x))
  | [], _, _ => rfl
  | f :: l, H, x => expand_call_of_list l (fun l' => H (f x :: l')) x

/-- C25. `compose` is left-to-right composition: `compose()(x) == x`, `compose(f)(x) == f(x)`,
`compose(f, g)(x) == g(f(x))`; in general a pack followed by one more function `g` composes
to `g` after the composition of the pack, a pack followed by a second pack to the second
composition after the first, and a pack of `n >= 0` functions on one type folds them over `x`
from the left.  The two assertions of `example.cc` (lines 226-228) hold. -/
theorem compose_left_to_right {α β γ : Type} :
    (∀ x : α, compose Chain.nil x = x) ∧
      (∀ (f : α → β) (x : α), compose (.cons f .nil) x = f x) ∧
      (∀ (f : α → β) (g : β → γ) (x : α), compose (.cons f (.cons g .nil)) x = g (f x)) ∧
      (∀ (fs : Chain α β) (g : β → γ) (x : α), compose (fs.snoc g) x = g (compose fs x)) ∧
      (∀ (fs : Chain α β) (gs : Chain β γ) (x : α),
        compose (fs.append gs) x = compose gs (compose fs x)) ∧
      (∀ (l : List (α → α)) (x : α),
        compose (Chain.of_list l) x = l.foldl (fun a f => f a) x) ∧
      compose Chain.nil (42 : Int) = 42 ∧
      compose (.cons (fun x : Int => x + 1) (.cons (fun x : Int => x * x) .nil)) 1 = 4 := by
  refine ⟨fun _ => rfl, fun _ _ => rfl, fun _ _ _ => rfl, ?_, ?_, ?_, rfl, by decide⟩
  · intro fs g x
    cases fs with
    | nil => rfl
    | cons f rest => exact apply_snoc f rest g x
  · intro fs gs x
    cases fs with
    | nil => rfl
    | cons f rest => exact apply_append f rest gs x
  · intro l x
    cases l with
    | nil => rfl
    | cons f l => exact apply_of_list f l x

/-- C26. `lift` is pointwise lifting: `lift(h, f1, ..., fn)(x) == h(f1(x), ..., fn(x))`,
shown for one, two and three functions of any types and, for every `n >= 1`, for `n`
functions with one result type, where `h` receives exactly the results `f1(x), ..., fn(x)`
in this order; `lift(h)` is `h` itself.  The two assertions of `example.cc` (lines 230-235)
hold. -/
theorem lift_pointwise {X R T1 T2 T3 : Type} :
    (∀ (h : T1 → R) (f1 : X → T1) (x : X),
        lift (h : NAry [T1] R) (.cons f1 .nil) x = h (f1 x)) ∧
      (∀ (h : T1 → T2 → R) (f1 : X → T1) (f2 : X → T2) (x : X),
        lift (h : NAry [T1, T2] R) (.cons f1 (.cons f2 .nil)) x = h (f1 x) (f2 x)) ∧
      (∀ (h : T1 → T2 → T3 → R) (f1 : X → T1) (f2 : X → T2) (f3 : X → T3) (x : X),
        lift (h : NAry [T1, T2, T3] R) (.cons f1 (.cons f2 (.cons f3 .nil))) x =
          h (f1 x) (f2 x) (f3 x)) ∧
      (∀ (f : X → T1) (l : List (X → T1)) (H : List T1 → R) (x : X),
        lift (NAry.of_list (f :: l).length H : NAry (T1 :: List.replicate l.length T1) R)
          (Pack.of_list (f :: l)) x = H ((f :: l).map (fun g => g x))) ∧
      (∀ h : T1 → R, lift_one h = h) ∧
      lift (fun a b => a * b : NAry [Int, Int] Int)
        (.cons (fun p : Int => p) (.cons (fun p : Int => p) .nil)) 42 = 42 * 42 ∧
      lift (fun a b => a + b : NAry [Int, Int] Int)
        (.cons (fun p : Int => p) (.cons (fun p : Int => p) .nil)) 42 = 42 + 42 := by
  refine ⟨fun _ _ _ => rfl, fun _ _ _ _ => rfl, fun _ _ _ _ _ => rfl, ?_, fun _ => rfl,
    by decide, by decide⟩
  intro f l H x
  exact expand_call_of_list (f :: l) H x

end Functional

namespace Money

/-! ### The checks of `+=`, `-=` and `*=` -/

theorem add64_lt_iff {a b : Nat} (hb : b < UINT64_RANGE) :
    add64 a b < a ↔ UINT64_RANGE ≤ a + b := by
  unfold add64 UINT64_RANGE at *
  omega

theorem add64_exact {a b : Nat} (h : a + b < UINT64_RANGE) : add64 a b = a + b :=
  Nat.mod_eq_of_lt h

theorem sub64_gt_iff {a b : Nat} (ha : a < UINT64_RANGE) (hb : b < UINT64_RANGE) :
    sub64 a b > a ↔ a < b := by
  unfold sub64 UINT64_RANGE at *
  omega

theorem sub64_exact {a b : Nat} (ha : a < UINT64_RANGE) (h : b ≤ a) : sub64 a b = a - b := by
  unfold sub64 UINT64_RANGE at *
  omega

theorem mul64_exact {a n : Nat} (h : a * n < UINT64_RANGE) : mul64 a n = a * n :=
  Nat.mod_eq_of_lt h

theorem mul64_div_ne_iff (a : Nat) {n : Nat} (hn : n ≠ 0) :
    mul64 a n / n ≠ a ↔ UINT64_RANGE ≤ a * n := by
  have hpos : 0 < n := Nat.pos_of_ne_zero hn
  constructor
  · intro h
    by_contra hlt
    apply h
    rw [mul64_exact (Nat.lt_of_not_le hlt)]
    exact Nat.mul_div_cancel a hpos
  · intro hge heq
    have h1 : mul64 a n < UINT64_RANGE := Nat.mod_lt _ (by unfold UINT64_RANGE; omega)
    have h2 : mul64 a n / n * n ≤ mul64 a n := Nat.div_mul_le_self _ _
    rw [heq] at h2
    omega

/-- C38. For moneybags whose components are 64-bit unsigned values: `+=` throws
`std::out_of_range` exactly when the sum of some pair of components exceeds `2 ^ 64 - 1`, and
`-=` exactly when some component of the argument exceeds that of the receiver; when one of
them throws the receiver is unchanged; otherwise it returns and every component of the
receiver is the exact sum, respectively difference. -/
theorem add_sub_checked {a b : Moneybag} (ha : a.valid) (hb : b.valid) :
    (((a.add_assign b).1 = .error .out_of_range ↔
          (UINT64_RANGE ≤ a.livre + b.livre ∨ UINT64_RANGE ≤ a.solidus + b.solidus ∨
            UINT64_RANGE ≤ a.denier + b.denier)) ∧
        ((a.add_assign b).1 = .error .out_of_range → (a.add_assign b).2 = a) ∧
        (¬ (UINT64_RANGE ≤ a.livre + b.livre ∨ UINT64_RANGE ≤ a.solidus + b.solidus ∨
            UINT64_RANGE ≤ a.denier + b.denier) →
          a.add_assign b =
            (.ok (), ⟨a.livre + b.livre, a.solidus + b.solidus, a.denier + b.denier⟩))) ∧
      ((a.sub_assign b).1 = .error .out_of_range ↔
          (a.livre < b.livre ∨ a.solidus < b.solidus ∨ a.denier < b.denier)) ∧
        ((a.sub_assign b).1 = .error .out_of_range → (a.sub_assign b).2 = a) ∧
        (¬ (a.livre < b.livre ∨ a.solidus < b.solidus ∨ a.denier < b.denier) →
          a.sub_assign b =
            (.ok (), ⟨a.livre - b.livre, a.solidus - b.solidus, a.denier - b.denier⟩)) := by
  obtain ⟨ha1, ha2, ha3⟩ := ha
  obtain ⟨hb1, hb2, hb3⟩ := hb
  have hadd : (add64 a.livre b.livre < a.livre ∨ add64 a.solidus b.solidus < a.solidus ∨
      add64 a.denier b.denier < a.denier) ↔
      (UINT64_RANGE ≤ a.livre + b.livre ∨ UINT64_RANGE ≤ a.solidus + b.solidus ∨
        UINT64_RANGE ≤ a.denier + b.denier) := by
    rw [add64_lt_iff hb1, add64_lt_iff hb2, add64_lt_iff hb3]
  have hsub : (sub64 a.livre b.livre > a.livre ∨ sub64 a.solidus b.solidus > a.solidus ∨
      sub64 a.denier b.denier > a.denier) ↔
      (a.livre < b.livre ∨ a.solidus < b.solidus ∨ a.denier < b.denier) := by
    rw [sub64_gt_iff ha1 hb1, sub64_gt_iff ha2 hb2, sub64_gt_iff ha3 hb3]
  refine ⟨⟨?_, ?_, ?_⟩, ?_, ?_, ?_⟩
  · rw [← hadd]
    unfold Moneybag.add_assign
    split_ifs with h
    · exact ⟨fun _ => h, fun _ => rfl⟩
    · exact ⟨fun e => by simp at e, fun e => absurd e h⟩
  · unfold Moneybag.add_assign
    split_ifs with h
    · exact fun _ => rfl
    · exact fun e => by simp at e
  · intro h
    have h' := h
    rw [← hadd] at h'
    rw [not_or, not_or] at h
    simp only [not_le] at h
    unfold Moneybag.add_assign
    rw [if_neg h', add64_exact h.1, add64_exact h.2.1, add64_exact h.2.2]
  · rw [← hsub]
    unfold Moneybag.sub_assign
    split_ifs with h
    · exact ⟨fun _ => h, fun _ => rfl⟩
    · exact ⟨fun e => by simp at e, fun e => absurd e h⟩
  · unfold Moneybag.sub_assign
    split_ifs with h
    · exact fun _ => rfl
    · exact fun e => by simp at e
  · intro h
    have h' := h
    rw [← hsub] at h'
    rw [not_or, not_or] at h
    simp only [not_lt] at h
    unfold Moneybag.sub_assign
    rw [if_neg h', sub64_exact ha1 h.1, sub64_exact ha2 h.2.1, sub64_exact ha3 h.2.2]

theorem add_sub_checked_witness :
    (⟨18446744073709551615, 5, 7⟩ : Moneybag).valid ∧ (⟨1, 2, 3⟩ : Moneybag).valid ∧
      ((((⟨18446744073709551615, 5, 7⟩ : Moneybag).add_assign ⟨1, 2, 3⟩).1 =
            .error .out_of_range ↔
          (UINT64_RANGE ≤ 18446744073709551615 + 1 ∨ UINT64_RANGE ≤ 5 + 2 ∨
            UINT64_RANGE ≤ 7 + 3)) ∧
        (((⟨18446744073709551615, 5, 7⟩ : Moneybag).add_assign ⟨1, 2, 3⟩).1 =
            .error .out_of_range →
          ((⟨18446744073709551615, 5, 7⟩ : Moneybag).add_assign ⟨1, 2, 3⟩).2 =
            ⟨18446744073709551615, 5, 7⟩) ∧
        (¬ (UINT64_RANGE ≤ 18446744073709551615 + 1 ∨ UINT64_RANGE ≤ 5 + 2 ∨
            UINT64_RANGE ≤ 7 + 3) →
          (⟨18446744073709551615, 5, 7⟩ : Moneybag).add_assign ⟨1, 2, 3⟩ =
            (.ok (), ⟨18446744073709551615 + 1, 5 + 2, 7 + 3⟩))) ∧
      (((⟨18446744073709551615, 5, 7⟩ : Moneybag).sub_assign ⟨1, 2, 3⟩).1 =
            .error .out_of_range ↔
          (18446744073709551615 < 1 ∨ 5 < 2 ∨ 7 < 3)) ∧
        (((⟨18446744073709551615, 5, 7⟩ : Moneybag).sub_assign ⟨1, 2, 3⟩).1 =
            .error .out_of_range →
          ((⟨18446744073709551615, 5, 7⟩ : Moneybag).sub_assign ⟨1, 2, 3⟩).2 =
            ⟨18446744073709551615, 5, 7⟩) ∧
        (¬ (18446744073709551615 < 1 ∨ 5 < 2 ∨ 7 < 3) →
          (⟨18446744073709551615, 5, 7⟩ : Moneybag).sub_assign ⟨1, 2, 3⟩ =
            (.ok (), ⟨18446744073709551615 - 1, 5 - 2, 7 - 3⟩)) :=
  ⟨⟨by decide, by decide, by decide⟩, ⟨by decide, by decide, by decide⟩,
    add_sub_checked (a := ⟨18446744073709551615, 5, 7⟩) (b := ⟨1, 2, 3⟩)
      ⟨by decide, by decide, by decide⟩ ⟨by decide, by decide, by decide⟩⟩

/-- C39. `*=` throws `std::out_of_range` if and only if `n != 0` and the product of some
component with `n` exceeds `2 ^ 64 - 1`; when it throws the receiver is unchanged; otherwise
it returns, every component of the receiver is the exact product and fits 64 bits; and
`n == 0` gives the all-zero moneybag. -/
theorem mul_checked (a : Moneybag) (n : Nat) :
    ((a.mul_assign n).1 = .error .out_of_range ↔
        n ≠ 0 ∧ (UINT64_RANGE ≤ a.livre * n ∨ UINT64_RANGE ≤ a.solidus * n ∨
          UINT64_RANGE ≤ a.denier * n)) ∧
      ((a.mul_assign n).1 = .error .out_of_range → (a.mul_assign n).2 = a) ∧
      (¬ (n ≠ 0 ∧ (UINT64_RANGE ≤ a.livre * n ∨ UINT64_RANGE ≤ a.solidus * n ∨
          UINT64_RANGE ≤ a.denier * n)) →
        a.mul_assign n = (.ok (), ⟨a.livre * n, a.solidus * n, a.denier * n⟩)) ∧
      a.mul_assign 0 = (.ok (), ⟨0, 0, 0⟩) := by
  have hcond : (n ≠ 0 ∧ (mul64 a.livre n / n ≠ a.livre ∨ mul64 a.solidus n / n ≠ a.solidus ∨
      mul64 a.denier n / n ≠ a.denier)) ↔
      (n ≠ 0 ∧ (UINT64_RANGE ≤ a.livre * n ∨ UINT64_RANGE ≤ a.solidus * n ∨
        UINT64_RANGE ≤ a.denier * n)) := by
    constructor
    · rintro ⟨hn, h⟩
      rw [mul64_div_ne_iff _ hn, mul64_div_ne_iff _ hn, mul64_div_ne_iff _ hn] at h
      exact ⟨hn, h⟩
    · rintro ⟨hn, h⟩
      rw [← mul64_div_ne_iff _ hn, ← mul64_div_ne_iff _ hn, ← mul64_div_ne_iff _ hn] at h
      exact ⟨hn, h⟩
  refine ⟨?_, ?_, ?_, ?_⟩
  · rw [← hcond]
    unfold Moneybag.mul_assign
    split_ifs with h
    · exact ⟨fun _ => h, fun _ => rfl⟩
    · exact ⟨fun e => by simp at e, fun e => absurd e h⟩
  · unfold Moneybag.mul_assign
    split_ifs with h
    · exact fun _ => rfl
    · exact fun e => by simp at e
  · intro h
    have h' := h
    rw [← hcond] at h'
    unfold Moneybag.mul_assign
    rw [if_neg h']
    by_cases hn : n = 0
    · subst hn
      simp [mul64]
    · have h2 : ¬ (UINT64_RANGE ≤ a.livre * n ∨ UINT64_RANGE ≤ a.solidus * n ∨
          UINT64_RANGE ≤ a.denier * n) := fun hh => h ⟨hn, hh⟩
      rw [not_or, not_or] at h2
      simp only [not_le] at h2
      rw [mul64_exact h2.1, mul64_exact h2.2.1, mul64_exact h2.2.2]
  · simp [Moneybag.mul_assign, mul64]

end Money
